import Mathlib

/-!
Verification development for the growing-dags pathway-reconstruction tool.

The Rust sources are shallowly embedded here:

* `GraphMap` models `petgraph::prelude::DiGraphMap` as used by the code: an
  insertion-ordered node list plus an insertion-ordered edge list with at most
  one edge per ordered `(source, target)` key.  (The underlying `IndexMap`'s
  `swap_remove` reorders entries on removal; we use order-preserving removal,
  which agrees with the source on every order-insensitive observation proved
  below.)
* Machine floats (`f64` weights and scores) are modelled as exact rationals,
  with `f64::INFINITY` modelled by an explicit top element; `usize` arithmetic
  that can wrap is modelled explicitly where it matters.
* Loops whose termination depends on runtime data take an explicit fuel
  argument and return `none` when the fuel runs out; `none` thus marks a run
  that does not return normally (divergence or a panic such as a failed
  `unwrap`).
-/

set_option linter.unusedVariables false

set_option allowUnsafeReducibility true in
attribute [semireducible] Rat.add Rat.mul Rat.inv Rat.sub Rat.div Rat.ofScientific

deriving instance DecidableEq for Except

namespace GrowingDags

/-- Rust `SuperNode` from `parsing/interactome.rs`: the two sentinel nodes. -/
inductive SuperNode : Type
  | source
  | target
deriving DecidableEq, Repr

/-- Rust `petgraph::Direction`. -/
inductive Direction : Type
  | incoming
  | outgoing
deriving DecidableEq, Repr

/-- Edge-key match used by the `DiGraphMap` model: an edge record is keyed by
its ordered endpoint pair. -/
def keyMatches {N E : Type} [DecidableEq N] (a b : N) (e : N × N × E) : Bool :=
  decide (e.1 = a) && decide (e.2.1 = b)

theorem keyMatches_iff {N E : Type} [DecidableEq N] (a b : N) (e : N × N × E) :
    keyMatches a b e = true ↔ e.1 = a ∧ e.2.1 = b := by
  unfold keyMatches
  simp

/-- Model of `petgraph::prelude::DiGraphMap`: insertion-ordered node and edge
lists.  The invariant fields record what the Rust structure guarantees by
construction: node entries are unique, at most one edge exists per ordered
`(source, target)` pair, and every edge endpoint is a node of the graph. -/
structure GraphMap (N E : Type) [DecidableEq N] where
  nodes : List N
  edges : List (N × N × E)
  nodes_nodup : nodes.Nodup
  keys_nodup : (edges.map fun e => (e.1, e.2.1)).Nodup
  ends_mem : ∀ e ∈ edges, e.1 ∈ nodes ∧ e.2.1 ∈ nodes

namespace GraphMap

variable {N E : Type} [DecidableEq N]

/-- The empty graph. -/
def empty : GraphMap N E :=
  ⟨[], [], List.nodup_nil, List.nodup_nil, by intro e he; cases he⟩

/-- Rust `GraphMap::contains_node`. -/
def containsNode (g : GraphMap N E) (n : N) : Bool :=
  decide (n ∈ g.nodes)

/-- Rust `GraphMap::contains_edge`. -/
def containsEdge (g : GraphMap N E) (a b : N) : Bool :=
  g.edges.any (keyMatches a b)

/-- Rust `GraphMap::edge_weight`. -/
def edgeWeight (g : GraphMap N E) (a b : N) : Option E :=
  (g.edges.find? (keyMatches a b)).map (fun e => e.2.2)

/-- Rust `GraphMap::add_node`: inserts the node if not yet present. -/
def addNode (g : GraphMap N E) (n : N) : GraphMap N E :=
  if h : n ∈ g.nodes then g
  else
    { nodes := g.nodes ++ [n]
      edges := g.edges
      nodes_nodup := by
        simpa [List.nodup_append] using ⟨g.nodes_nodup, h⟩
      keys_nodup := g.keys_nodup
      ends_mem := by
        intro e he
        rcases g.ends_mem e he with ⟨h1, h2⟩
        exact ⟨List.mem_append_left _ h1, List.mem_append_left _ h2⟩ }

theorem mem_addNode (g : GraphMap N E) (n m : N) :
    m ∈ (g.addNode n).nodes ↔ m ∈ g.nodes ∨ m = n := by
  unfold addNode
  by_cases h : n ∈ g.nodes
  · simp only [dif_pos h]
    constructor
    · exact Or.inl
    · rintro (hm | rfl)
      · exact hm
      · exact h
  · simp [dif_neg h]

theorem addNode_edges (g : GraphMap N E) (n : N) :
    (g.addNode n).edges = g.edges := by
  unfold addNode
  by_cases h : n ∈ g.nodes <;> simp [h]

/-- Rust `GraphMap::add_edge`: ensures both endpoints are nodes, then inserts
the edge, replacing the payload in place when the key is already present. -/
def addEdge (g : GraphMap N E) (a b : N) (w : E) : GraphMap N E :=
  let g1 := (g.addNode a).addNode b
  if h : g1.containsEdge a b then
    { nodes := g1.nodes
      edges := g1.edges.map fun e => if keyMatches a b e then (a, b, w) else e
      nodes_nodup := g1.nodes_nodup
      keys_nodup := by
        have : (g1.edges.map fun e =>
            if keyMatches a b e then (a, b, w) else e).map (fun e => (e.1, e.2.1)) =
            g1.edges.map (fun e => (e.1, e.2.1)) := by
          rw [List.map_map]
          apply List.map_congr_left
          intro e _
          by_cases hk : keyMatches a b e = true
          · rcases (keyMatches_iff a b e).mp hk with ⟨h1, h2⟩
            simp [hk, h1, h2]
          · simp [hk]
        rw [this]
        exact g1.keys_nodup
      ends_mem := by
        intro e he
        rcases List.mem_map.mp he with ⟨e0, he0, rfl⟩
        by_cases hk : keyMatches a b e0 = true
        · have hc := h
          unfold containsEdge at hc
          rcases List.any_eq_true.mp hc with ⟨e1, he1, hk1⟩
          rcases (keyMatches_iff a b e1).mp hk1 with ⟨h1, h2⟩
          rcases g1.ends_mem e1 he1 with ⟨m1, m2⟩
          rw [h1] at m1
          rw [h2] at m2
          simp only [if_pos hk]
          exact ⟨m1, m2⟩
        · simp only [if_neg hk]
          exact g1.ends_mem e0 he0 }
  else
    { nodes := g1.nodes
      edges := g1.edges ++ [(a, b, w)]
      nodes_nodup := g1.nodes_nodup
      keys_nodup := by
        have hnot : (a, b) ∉ g1.edges.map (fun e => (e.1, e.2.1)) := by
          intro hmem
          rcases List.mem_map.mp hmem with ⟨e0, he0, hk⟩
          apply h
          unfold containsEdge
          refine List.any_eq_true.mpr ⟨e0, he0, ?_⟩
          exact (keyMatches_iff a b e0).mpr ⟨congrArg Prod.fst hk, congrArg Prod.snd hk⟩
        rw [List.map_append]
        refine List.Nodup.append g1.keys_nodup (by simp) ?_
        intro x hx hy
        have : x = (a, b) := by simpa using hy
        subst this
        exact hnot hx
      ends_mem := by
        intro e he
        rcases List.mem_append.mp he with he0 | he0
        · exact g1.ends_mem e he0
        · have : e = (a, b, w) := by simpa using he0
          subst this
          constructor
          · exact (mem_addNode _ _ _).mpr (Or.inl ((mem_addNode _ _ _).mpr (Or.inr rfl)))
          · exact (mem_addNode _ _ _).mpr (Or.inr rfl) }

/-- Rust `GraphMap::remove_edge` (order-preserving model of the underlying
`IndexMap` removal). -/
def removeEdge (g : GraphMap N E) (a b : N) : GraphMap N E :=
  { nodes := g.nodes
    edges := g.edges.filter fun e => !keyMatches a b e
    nodes_nodup := g.nodes_nodup
    keys_nodup := by
      apply List.Nodup.sublist _ g.keys_nodup
      exact List.Sublist.map _ (List.filter_sublist _)
    ends_mem := by
      intro e he
      exact g.ends_mem e (List.mem_of_mem_filter he) }

/-- Rust `GraphMap::remove_node`: removes the node and every incident edge. -/
def removeNode (g : GraphMap N E) (n : N) : GraphMap N E :=
  { nodes := g.nodes.filter fun m => !decide (m = n)
    edges := g.edges.filter fun e => !(decide (e.1 = n) || decide (e.2.1 = n))
    nodes_nodup := List.Nodup.filter _ g.nodes_nodup
    keys_nodup := by
      apply List.Nodup.sublist _ g.keys_nodup
      exact List.Sublist.map _ (List.filter_sublist _)
    ends_mem := by
      intro e he
      have he0 := List.mem_of_mem_filter he
      have hp := List.of_mem_filter he
      rcases g.ends_mem e he0 with ⟨h1, h2⟩
      simp only [Bool.not_eq_true', Bool.or_eq_false_iff, decide_eq_false_iff_not] at hp
      constructor
      · exact List.mem_filter.mpr ⟨h1, by simpa using hp.1⟩
      · exact List.mem_filter.mpr ⟨h2, by simpa using hp.2⟩ }

/-- Outgoing edges of a node, in adjacency order (Rust `GraphMap::edges`). -/
def outEdges (g : GraphMap N E) (n : N) : List (N × N × E) :=
  g.edges.filter fun e => decide (e.1 = n)

/-- In-neighbours of a node (Rust `neighbors_directed(_, Incoming)`). -/
def inNeighbors (g : GraphMap N E) (n : N) : List N :=
  (g.edges.filter fun e => decide (e.2.1 = n)).map fun e => e.1

/-- Out-neighbours of a node (Rust `neighbors_directed(_, Outgoing)`). -/
def outNeighbors (g : GraphMap N E) (n : N) : List N :=
  (g.edges.filter fun e => decide (e.1 = n)).map fun e => e.2.1

end GraphMap

/-- State of `petgraph::visit::Dfs`: a stack and a set of discovered nodes. -/
structure DfsState (N : Type) where
  stack : List N
  discovered : List N

/-- Rust `Dfs::new(graph, start)`: the graph argument is only used to size the
visit map, so the initial state consists of the seeded stack alone. -/
def dfsNew {N G : Type} (graph : G) (start : N) : DfsState N :=
  ⟨[start], []⟩

/-- Rust view `petgraph::visit::Reversed`. -/
structure Reversed (G : Type) where
  graph : G

/-- The stack scan of `Dfs::next`, structurally recursive on the stack. -/
def dfsNextGo {N : Type} [DecidableEq N] (nbrs : N → List N) :
    List N → List N → Option (N × DfsState N)
  | [], _ => none
  | x :: rest, d =>
    if x ∈ d then dfsNextGo nbrs rest d
    else some (x, ⟨((nbrs x).filter fun m => decide (m ∉ x :: d)).reverse ++ rest, x :: d⟩)

/-- Rust `Dfs::next(graph)`: pop until an undiscovered node is found, mark it
discovered, push its undiscovered neighbours (last neighbour on top), and
return it. -/
def dfsNext {N : Type} [DecidableEq N] (nbrs : N → List N) (st : DfsState N) :
    Option (N × DfsState N) :=
  dfsNextGo nbrs st.stack st.discovered

/-- The `while let Some(nx) = dfs.next(..)` loop of `get_related` in
`util.rs`, collecting every returned node other than the start node. -/
def getRelatedLoop {N : Type} [DecidableEq N] (nbrs : N → List N) (node : N) :
    ℕ → DfsState N → List N → Option (List N)
  | 0, _, _ => none
  | fuel + 1, st, acc =>
    match dfsNext nbrs st with
    | none => some acc
    | some (nx, st') =>
      if nx = node then getRelatedLoop nbrs node fuel st' acc
      else getRelatedLoop nbrs node fuel st' (acc ++ [nx])

/-- Rust `get_related` in `util.rs`.  Note that the traversal step is
`dfs.next(Reversed(&graph))` for both directions; the direction only selects
the (state-identical) `Dfs::new` call.  The fuel `nodes.length + 2` is shown
below never to run out. -/
def getRelated {N E : Type} [DecidableEq N] (graph : GraphMap N E) (node : N)
    (direction : Direction) : List N :=
  let dfs := match direction with
    | Direction.incoming => dfsNew (Reversed.mk graph) node
    | Direction.outgoing => dfsNew graph node
  (getRelatedLoop graph.inNeighbors node (graph.nodes.length + 2) dfs []).getD []

/-- Rust `get_ancestors` in `util.rs`. -/
def get_ancestors {N E : Type} [DecidableEq N] (graph : GraphMap N E) (node : N) : List N :=
  getRelated graph node Direction.incoming

/-- Rust `get_descendents` in `util.rs`. -/
def get_descendents {N E : Type} [DecidableEq N] (graph : GraphMap N E) (node : N) : List N :=
  getRelated graph node Direction.outgoing

/-- Model of `bimap::BiHashMap<String, usize>`: an association list whose two
projections are each duplicate-free, which is exactly the bijectivity the
Rust bimap maintains. -/
structure BiMap where
  pairs : List (String × ℕ)
  left_nodup : (pairs.map Prod.fst).Nodup
  right_nodup : (pairs.map Prod.snd).Nodup

namespace BiMap

/-- Rust `BiHashMap::new`. -/
def empty : BiMap :=
  ⟨[], List.nodup_nil, List.nodup_nil⟩

/-- Rust `BiHashMap::get_by_left`. -/
def getByLeft (m : BiMap) (s : String) : Option ℕ :=
  (m.pairs.find? fun p => decide (p.1 = s)).map fun p => p.2

/-- Rust `BiHashMap::get_by_right`. -/
def getByRight (m : BiMap) (i : ℕ) : Option String :=
  (m.pairs.find? fun p => decide (p.2 = i)).map fun p => p.1

/-- Rust `BiHashMap::len`. -/
def len (m : BiMap) : ℕ :=
  m.pairs.length

/-- Rust `BiHashMap::contains_left`. -/
def containsLeft (m : BiMap) (s : String) : Bool :=
  (m.getByLeft s).isSome

/-- Rust `BiHashMap::insert`: overwrites any pair that collides on either
side, then records the new pair. -/
def insert (m : BiMap) (s : String) (i : ℕ) : BiMap :=
  { pairs := (m.pairs.filter fun p => !(decide (p.1 = s) || decide (p.2 = i))) ++ [(s, i)]
    left_nodup := by
      rw [List.map_append]
      refine List.Nodup.append (List.Nodup.sublist (List.Sublist.map _ (List.filter_sublist _)) m.left_nodup) (by simp) ?_
      intro x hx hy
      have hxs : x = s := by simpa using hy
      subst hxs
      rcases List.mem_map.mp hx with ⟨p, hp, hps⟩
      have := List.of_mem_filter hp
      simp only [Bool.not_eq_true', Bool.or_eq_false_iff, decide_eq_false_iff_not] at this
      exact this.1 hps
    right_nodup := by
      rw [List.map_append]
      refine List.Nodup.append (List.Nodup.sublist (List.Sublist.map _ (List.filter_sublist _)) m.right_nodup) (by simp) ?_
      intro x hx hy
      have hxi : x = i := by simpa using hy
      subst hxi
      rcases List.mem_map.mp hx with ⟨p, hp, hpi⟩
      have := List.of_mem_filter hp
      simp only [Bool.not_eq_true', Bool.or_eq_false_iff, decide_eq_false_iff_not] at this
      exact this.2 hpi }

theorem getByLeft_eq_some {m : BiMap} {s : String} {i : ℕ}
    (h : m.getByLeft s = some i) : (s, i) ∈ m.pairs := by
  unfold getByLeft at h
  rcases Option.map_eq_some'.mp h with ⟨p, hp, hpi⟩
  have hfind := List.find?_some hp
  have hmem := List.mem_of_find?_eq_some hp
  have hps : p.1 = s := by simpa using hfind
  have : p = (s, i) := by
    cases p
    simp only at hps hpi
    simp [hps, hpi]
  rw [this] at hmem
  exact hmem

theorem find_pair_of_mem {ps : List (String × ℕ)} {s : String} {i : ℕ}
    (hnd : (ps.map Prod.fst).Nodup) (h : (s, i) ∈ ps) :
    ps.find? (fun p => decide (p.1 = s)) = some (s, i) := by
  induction ps with
  | nil => cases h
  | cons p rest ih =>
    simp only [List.map_cons, List.nodup_cons] at hnd
    rcases List.mem_cons.mp h with heq | htail
    · subst heq
      simp [List.find?_cons]
    · by_cases hps : p.1 = s
      · exact absurd (by simpa [hps] using List.mem_map_of_mem Prod.fst htail) hnd.1
      · rw [List.find?_cons_of_neg _ (by simpa using hps)]
        exact ih hnd.2 htail

theorem getByLeft_isSome_of_mem {m : BiMap} {s : String} {i : ℕ}
    (h : (s, i) ∈ m.pairs) : m.getByLeft s = some i := by
  unfold getByLeft
  rw [find_pair_of_mem m.left_nodup h]
  rfl

theorem eq_fst_of_mem_of_snd_nodup {ps : List (String × ℕ)} {a b : String} {i : ℕ}
    (hnd : (ps.map Prod.snd).Nodup) (ha : (a, i) ∈ ps) (hb : (b, i) ∈ ps) : a = b := by
  induction ps with
  | nil => cases ha
  | cons p rest ih =>
    simp only [List.map_cons, List.nodup_cons] at hnd
    rcases List.mem_cons.mp ha with haeq | hatail <;>
      rcases List.mem_cons.mp hb with hbeq | hbtail
    · rw [← haeq] at hbeq
      exact congrArg Prod.fst hbeq.symm
    · exfalso
      apply hnd.1
      have : p.2 = i := congrArg Prod.snd haeq.symm
      rw [this]
      simpa using List.mem_map_of_mem Prod.snd hbtail
    · exfalso
      apply hnd.1
      have : p.2 = i := congrArg Prod.snd hbeq.symm
      rw [this]
      simpa using List.mem_map_of_mem Prod.snd hatail
    · exact ih hnd.2 hatail hbtail

/-- Two names that resolve to the same id are equal (from `right_nodup`). -/
theorem getByLeft_inj {m : BiMap} {a b : String} {i : ℕ}
    (ha : m.getByLeft a = some i) (hb : m.getByLeft b = some i) : a = b :=
  eq_fst_of_mem_of_snd_nodup m.right_nodup (getByLeft_eq_some ha) (getByLeft_eq_some hb)

end BiMap

/-- Rust error type `NetworkParsingError` from `parsing/network.rs` (the I/O
variant is not modelled: input lines are given as strings). -/
inductive NetworkParsingError : Type
  | ParseDataError (msg : String)
  | InvalidSizeError (line observed required : ℕ) (descr : String)
  | FactoryOut (name : String) (len : ℕ)
deriving DecidableEq, Repr

/-- Rust error type `NetworkIndexError` from `parsing/network.rs`. -/
structure NetworkIndexError : Type where
  name : String
deriving DecidableEq, Repr

/-- Rust trait `DataFactory` from `parsing/data.rs`, as a record of its three
associated functions. -/
structure DataFactory (E : Type) where
  dlen : ℕ
  errStr : String
  fromStrs : ℕ → List String → Except String E

/-- Rust `EmptyTupleDataFactory` from `parsing/data.rs`. -/
def EmptyTupleDataFactory : DataFactory Unit :=
  { dlen := 0
    errStr := "nothing following"
    fromStrs := fun _ _ => Except.ok () }

/-- Character-list splitter underlying `splitChar`. -/
def splitCharGo (c : Char) : List Char → List (List Char)
  | [] => [[]]
  | x :: xs =>
    if x = c then [] :: splitCharGo c xs
    else
      match splitCharGo c xs with
      | [] => [[x]]
      | g :: gs => (x :: g) :: gs

/-- Model of Rust `str::split(c)` (and of `String.splitOn` for a one-character
separator), written by structural recursion so that the kernel can evaluate
it. -/
def splitChar (c : Char) (s : String) : List String :=
  (splitCharGo c s.toList).map fun l => ⟨l⟩

/-- Model of Rust `str::starts_with("#")`. -/
def startsWithHash (s : String) : Bool :=
  match s.toList with
  | c :: _ => decide (c = '#')
  | [] => false

/-- Decimal-digit accumulation for the weight parser. -/
def parseNatDigits (cs : List Char) : Option ℕ :=
  cs.foldl
    (fun acc c => acc.bind fun n => if c.isDigit then some (n * 10 + (c.toNat - 48)) else none)
    (some 0)

/-- Model of Rust `str::parse::<f64>` restricted to plain non-negative
decimal literals, producing the exact rational value.  This covers every
weight appearing in the fixtures; the general parsing theorems quantify over
the data factory and do not depend on this function. -/
def parseDecimal (s : String) : Option ℚ :=
  if s.toList.isEmpty then none
  else
    match splitChar '.' s with
    | [intPart] => (parseNatDigits intPart.toList).map fun n => (n : ℚ)
    | [intPart, fracPart] =>
      (parseNatDigits intPart.toList).bind fun n =>
        (parseNatDigits fracPart.toList).map fun f =>
          (n : ℚ) + (f : ℚ) / ((10 : ℚ) ^ fracPart.length)
    | _ => none

/-- Rust `WeightDataFactory` from `parsing/weight.rs` (the `Weight` newtype
over `f64` is modelled as `ℚ`). -/
def WeightDataFactory : DataFactory ℚ :=
  { dlen := 1
    errStr := "weight"
    fromStrs := fun _ strs =>
      match strs.head? with
      | none => Except.error "missing weight"
      | some s =>
        match parseDecimal s with
        | some q => Except.ok q
        | none => Except.error ("invalid weight " ++ s) }

/-- Rust `Network<E, S>` from `parsing/network.rs`. -/
structure Network (E S : Type) [DecidableEq S] where
  graph : GraphMap (ℕ ⊕ S) E
  id_map : BiMap
  max_id : ℕ

namespace Network

variable {E S : Type} [DecidableEq S]

/-- The endpoint-id resolution of `Network::from_lines_over_id_map`: look the
name up in the id map, or ask the id factory to mint an id (adding the node
and the map entry and bumping the watermark), or fail with `FactoryOut`. -/
def resolveName (id_factory : String → ℕ → Option ℕ) (name : String)
    (g : GraphMap (ℕ ⊕ S) E) (m : BiMap) (mx : ℕ) :
    Except NetworkParsingError (ℕ × GraphMap (ℕ ⊕ S) E × BiMap × ℕ) :=
  match m.getByLeft name with
  | some i => Except.ok (i, g, m, mx)
  | none =>
    match id_factory name m.len with
    | some i => Except.ok (i, g.addNode (Sum.inl i), m.insert name i, max i mx)
    | none => Except.error (NetworkParsingError.FactoryOut name m.len)

/-- One iteration of the parsing loop of `Network::from_lines_over_id_map`:
skip blank and comment lines, check the column count, parse the payload,
resolve (or mint) both endpoint ids, and insert the edge. -/
def processLine (F : DataFactory E) (id_factory : String → ℕ → Option ℕ)
    (idx : ℕ) (line : String)
    (st : GraphMap (ℕ ⊕ S) E × BiMap × ℕ) :
    Except NetworkParsingError (GraphMap (ℕ ⊕ S) E × BiMap × ℕ) :=
  if decide (line = "") then Except.ok st
  else if startsWithHash line then Except.ok st
  else
    let components := splitChar '\t' line
    if components.length ≠ 2 + F.dlen then
      Except.error (NetworkParsingError.InvalidSizeError (idx + 1) components.length
        (2 + F.dlen) F.errStr)
    else
      let source_name := components.getD 0 ""
      let target_name := components.getD 1 ""
      match F.fromStrs idx (components.drop 2) with
      | Except.error e => Except.error (NetworkParsingError.ParseDataError e)
      | Except.ok data =>
        match resolveName id_factory source_name st.1 st.2.1 st.2.2 with
        | Except.error e => Except.error e
        | Except.ok (si, g1, m1, mx1) =>
          match resolveName id_factory target_name g1 m1 mx1 with
          | Except.error e => Except.error e
          | Except.ok (ti, g2, m2, mx2) =>
            Except.ok (g2.addEdge (Sum.inl si) (Sum.inl ti) data, m2, mx2)

/-- The enumerated line loop of `Network::from_lines_over_id_map`. -/
def fromLinesGo (F : DataFactory E) (id_factory : String → ℕ → Option ℕ) :
    ℕ → List String → GraphMap (ℕ ⊕ S) E × BiMap × ℕ →
    Except NetworkParsingError (GraphMap (ℕ ⊕ S) E × BiMap × ℕ)
  | _, [], st => Except.ok st
  | idx, line :: rest, st =>
    match processLine F id_factory idx line st with
    | Except.error e => Except.error e
    | Except.ok st' => fromLinesGo F id_factory (idx + 1) rest st'

/-- Rust `Network::from_lines_over_id_map` (lines are given as plain strings;
an I/O error item would abort parsing in Rust and is outside this model). -/
def from_lines_over_id_map (F : DataFactory E) (lines : List String)
    (id_map : BiMap) (id_factory : String → ℕ → Option ℕ) :
    Except NetworkParsingError (Network E S) :=
  match fromLinesGo F id_factory 0 lines (GraphMap.empty, id_map, 0) with
  | Except.error e => Except.error e
  | Except.ok (g, m, mx) => Except.ok ⟨g, m, mx⟩

/-- Rust `Network::from_lines`. -/
def from_lines (F : DataFactory E) (lines : List String) :
    Except NetworkParsingError (Network E S) :=
  from_lines_over_id_map F lines BiMap.empty fun _ i => some i

/-- Rust `Network::from_lines_using_id_map`. -/
def from_lines_using_id_map (F : DataFactory E) (lines : List String)
    (id_map : BiMap) : Except NetworkParsingError (Network E S) :=
  from_lines_over_id_map F lines BiMap.empty fun name _ => id_map.getByLeft name

/-- Rust `Network::get_node`. -/
def get_node (net : Network E S) (node : String) : Except NetworkIndexError ℕ :=
  match net.id_map.getByLeft node with
  | some i => Except.ok i
  | none => Except.error ⟨node⟩

/-- Rust `Network::id_from_idx`. -/
def id_from_idx (net : Network E S) (id : ℕ) : Option String :=
  net.id_map.getByRight id

/-- Rust `Network::as_nodes`. -/
def as_nodes (net : Network E S) (nodes : List String) :
    Except NetworkIndexError (List (ℕ ⊕ S)) :=
  nodes.mapM fun node => (net.get_node node).map Sum.inl

/-- Rust `Network::is_node_empty`. -/
def is_node_empty (net : Network E S) (node : ℕ ⊕ S) : Bool :=
  (net.graph.inNeighbors node).isEmpty && (net.graph.outNeighbors node).isEmpty

/-- Rust `GraphMap::edges_directed`, projected to endpoint pairs as collected
by `Network::prune`. -/
def edgesDirected (g : GraphMap (ℕ ⊕ S) E) (n : ℕ ⊕ S) (dir : Direction) :
    List ((ℕ ⊕ S) × (ℕ ⊕ S)) :=
  match dir with
  | Direction.incoming => (g.edges.filter fun e => decide (e.2.1 = n)).map fun e => (e.1, e.2.1)
  | Direction.outgoing => (g.edges.filter fun e => decide (e.1 = n)).map fun e => (e.1, e.2.1)

/-- The edge-collection phase of `Network::prune`. -/
def pruneCollect (net : Network E S) (dir : Direction) (require_nodes : Bool) :
    List String → Except NetworkIndexError (List ((ℕ ⊕ S) × (ℕ ⊕ S)))
  | [] => Except.ok []
  | node :: rest =>
    match net.id_map.getByLeft node with
    | none =>
      if require_nodes then Except.error ⟨node⟩
      else pruneCollect net dir require_nodes rest
    | some node_id =>
      match pruneCollect net dir require_nodes rest with
      | Except.error e => Except.error e
      | Except.ok tailEdges =>
        Except.ok (edgesDirected net.graph (Sum.inl node_id) dir ++ tailEdges)

/-- Rust `Network::prune`: collect the directed edges incident to the named
nodes, then remove them all. -/
def prune (net : Network E S) (nodes : List String) (dir : Direction)
    (require_nodes : Bool) : Except NetworkIndexError (Network E S) :=
  match pruneCollect net dir require_nodes nodes with
  | Except.error e => Except.error e
  | Except.ok pooled =>
    Except.ok { net with graph := pooled.foldl (fun g e => g.removeEdge e.1 e.2) net.graph }

/-- The `node.left().unwrap()` re-tagging used by `cast_over_never`: a
`Never`-typed right alternative cannot occur. -/
def castNode {S : Type} : (ℕ ⊕ Empty) → (ℕ ⊕ S)
  | Sum.inl n => Sum.inl n
  | Sum.inr e => e.elim

/-- Rust `Network::cast_over_never`: copy an integer-only network into the
sentinel-admitting node type, preserving nodes, edges, payloads, id map and
`max_id`. -/
def cast_over_never (net : Network E Empty) : Network E S :=
  let g0 : GraphMap (ℕ ⊕ S) E :=
    net.graph.nodes.foldl (fun g n => g.addNode (castNode n)) GraphMap.empty
  let g1 : GraphMap (ℕ ⊕ S) E :=
    net.graph.edges.foldl (fun g e => g.addEdge (castNode e.1) (castNode e.2.1) e.2.2) g0
  { graph := g1, id_map := net.id_map, max_id := net.max_id }

end Network

/-- Rust `InteractomeAttachError` from `parsing/interactome.rs`. -/
inductive InteractomeAttachError : Type
  | SourceNotExists (name : String)
  | TargetNotExists (name : String)
deriving DecidableEq, Repr

/-- Rust `Interactome<E>` from `parsing/interactome.rs`. -/
structure Interactome (E : Type) where
  inner_network : Network E SuperNode
  sources : List ℕ
  targets : List ℕ

namespace Interactome

variable {E : Type}

/-- The endpoint-resolution loop of `attach_sources_and_targets`
(`filter_map` + `collect::<Result<Vec<_>, _>>`), returning the offending name
on failure.  Note the Rust target loop reuses the `SourceNotExists`
constructor; the caller below maps the name accordingly. -/
def resolveEndpoints (m : BiMap) (require : Bool) :
    List String → Except String (List ℕ)
  | [] => Except.ok []
  | name :: rest =>
    match m.getByLeft name with
    | some i =>
      match resolveEndpoints m require rest with
      | Except.error e => Except.error e
      | Except.ok ids => Except.ok (i :: ids)
    | none =>
      if require then Except.error name
      else resolveEndpoints m require rest

/-- Steps 1-2 of `attach_sources_and_targets`: lift the network into the
sentinel-admitting node type and add the `SuperSource` and `SuperTarget`
nodes. -/
def attachBase (network : Network E Empty) : Network E SuperNode :=
  let network0 : Network E SuperNode := network.cast_over_never
  { network0 with
    graph := (network0.graph.addNode (Sum.inr SuperNode.source)).addNode
      (Sum.inr SuperNode.target) }

/-- Rust `Interactome::attach_sources_and_targets`. -/
def attach_sources_and_targets [Inhabited E] (network : Network E Empty)
    (sources targets : List String) (require_sources_and_targets : Bool) :
    Except InteractomeAttachError (Interactome E) :=
  let network1 : Network E SuperNode := attachBase network
  match network1.prune sources Direction.incoming require_sources_and_targets with
  | Except.error err => Except.error (InteractomeAttachError.SourceNotExists err.name)
  | Except.ok network2 =>
    match network2.prune targets Direction.outgoing require_sources_and_targets with
    | Except.error err => Except.error (InteractomeAttachError.TargetNotExists err.name)
    | Except.ok network3 =>
      match resolveEndpoints network3.id_map require_sources_and_targets sources with
      | Except.error name => Except.error (InteractomeAttachError.SourceNotExists name)
      | Except.ok sourceIds =>
        match resolveEndpoints network3.id_map require_sources_and_targets targets with
        | Except.error name =>
          Except.error (InteractomeAttachError.SourceNotExists name)
        | Except.ok targetIds =>
          let g4 := sourceIds.foldl
            (fun g s => g.addEdge (Sum.inr SuperNode.source) (Sum.inl s) default)
            network3.graph
          let g5 := targetIds.foldl
            (fun g t => g.addEdge (Sum.inl t) (Sum.inr SuperNode.target) default) g4
          Except.ok
            { inner_network := { network3 with graph := g5 }
              sources := sourceIds
              targets := targetIds }

/-- Rust `Interactome::name_from_idx`. -/
def name_from_idx (inter : Interactome E) (id : ℕ ⊕ SuperNode) : Option String :=
  match id with
  | Sum.inl i => inter.inner_network.id_from_idx i
  | Sum.inr SuperNode.source => some "[[Super Source]]"
  | Sum.inr SuperNode.target => some "[[Super Target]]"

end Interactome

/-- Kahn-style candidate selection: the first remaining node with no incoming
edge from a remaining node. -/
def pickNext {N E : Type} [DecidableEq N] (g : GraphMap N E) (remaining : List N) : Option N :=
  remaining.find? fun n =>
    !(g.edges.any fun e => decide (e.2.1 = n) && decide (e.1 ∈ remaining))

/-- The iteration of `toposort` below; the fuel is the number of remaining
nodes, which suffices because each step removes one node. -/
def toposortGo {N E : Type} [DecidableEq N] (g : GraphMap N E) :
    ℕ → List N → List N → Option (List N)
  | _, [], acc => some acc
  | 0, _ :: _, _ => none
  | fuel + 1, remaining, acc =>
    match pickNext g remaining with
    | none => none
    | some n => toposortGo g fuel (remaining.filter fun m => !decide (m = n)) (acc ++ [n])

/-- Model of `petgraph::algo::toposort`: `some` is a topological order of all
nodes, `none` signals a directed cycle.  (petgraph uses a DFS-based sort; the
two functions succeed on exactly the same graphs, which is the only property
the embedded code observes apart from the processing order.) -/
def toposort {N E : Type} [DecidableEq N] (g : GraphMap N E) : Option (List N) :=
  toposortGo g g.nodes.length g.nodes []

/-- Model of `petgraph::algo::is_cyclic_directed`, via `toposort`. -/
def is_cyclic_directed {N E : Type} [DecidableEq N] (g : GraphMap N E) : Bool :=
  (toposort g).isNone

/-- Rust `DAGCreationError` from `parsing/dag.rs`. -/
inductive DAGCreationError : Type
  | InteractomeAttachError (e : InteractomeAttachError)
  | IsCyclic
deriving DecidableEq, Repr

/-- Rust `PartialDag<E>` from `parsing/dag.rs`: a newtype over `Interactome`
whose graph was checked to be acyclic at construction. -/
structure PartialDag (E : Type) where
  toInteractome : Interactome E

/-- Rust `PartialDag::new`. -/
def PartialDag.new {E : Type} [Inhabited E] (network : Network E Empty)
    (sources targets : List String) : Except DAGCreationError (PartialDag E) :=
  match Interactome.attach_sources_and_targets network sources targets false with
  | Except.error e => Except.error (DAGCreationError.InteractomeAttachError e)
  | Except.ok interactome =>
    if is_cyclic_directed interactome.inner_network.graph then
      Except.error DAGCreationError.IsCyclic
    else Except.ok ⟨interactome⟩

/-- The node type of interactome graphs: Rust `Either<usize, SuperNode>`. -/
abbrev INode : Type := ℕ ⊕ SuperNode

instance : BEq INode := instBEqOfDecidableEq

instance : LawfulBEq INode where
  eq_of_beq h := of_decide_eq_true h
  rfl := by intro a; exact decide_eq_true rfl

/-- The bound of Rust `for i in 0..nodes.len() - 1` over `usize`: for an empty
slice the subtraction wraps around to `usize::MAX`.  A `Vec` can hold at most
`usize::MAX` elements, so this equals the wrapped value for every
representable length. -/
def usizeLoopBound (len : ℕ) : ℕ :=
  if len = 0 then 2 ^ 64 - 1 else len - 1

/-- The summation loop of `EdgeCost::relative_cost_of`, iterating index `i`
with `steps` iterations remaining; `none` models a panic (an index out of
bounds, or the `unwrap_or_else` on a pair absent from the main interactome). -/
def edgeCostGo (main : Interactome ℚ) (dag : PartialDag Unit) (nodes : List INode) :
    ℕ → ℕ → ℚ → Option ℚ
  | 0, _, acc => some acc
  | steps + 1, i, acc =>
    match nodes[i]?, nodes[i + 1]? with
    | some source, some target =>
      if dag.toInteractome.inner_network.graph.containsEdge source target then
        edgeCostGo main dag nodes steps (i + 1) acc
      else
        match main.inner_network.graph.edgeWeight source target with
        | some w => edgeCostGo main dag nodes steps (i + 1) (acc + w)
        | none => none
    | _, _ => none

/-- Rust `EdgeCost::relative_cost_of` from `alg/cost.rs`; `none` models a
panic. -/
def EdgeCost_relative_cost_of (main : Interactome ℚ) (dag : PartialDag Unit)
    (nodes : List INode) : Option ℚ :=
  edgeCostGo main dag nodes (usizeLoopBound nodes.length) 0 0

/-- The edge-insertion loop at the start of `PathCost::relative_cost_of`
(same `0..nodes.len() - 1` bound, hence the same panic on an empty slice). -/
def addPathEdgesGo (nodes : List INode) :
    ℕ → ℕ → GraphMap INode Unit → Option (GraphMap INode Unit)
  | 0, _, g => some g
  | steps + 1, i, g =>
    match nodes[i]?, nodes[i + 1]? with
    | some a, some b => addPathEdgesGo nodes steps (i + 1) (g.addEdge a b ())
    | _, _ => none

/-- Simple-path enumeration modelling `petgraph::algo::all_simple_paths`
(no intermediate-node minimum, no length cap). -/
def simplePathsGo {E : Type} (g : GraphMap INode E) (goal : INode) :
    ℕ → INode → List INode → List (List INode)
  | 0, _, _ => []
  | fuel + 1, current, visited =>
    if current = goal then [[goal]]
    else
      ((g.outNeighbors current).filter fun m =>
          decide (m ∉ (current :: visited : List INode))).flatMap
        fun m => (simplePathsGo g goal fuel m (current :: visited)).map fun p => current :: p

/-- Rust `petgraph::algo::all_simple_paths(graph, from, to, 0, None)`. -/
def all_simple_paths {E : Type} (g : GraphMap INode E) (start goal : INode) :
    List (List INode) :=
  simplePathsGo g goal (g.nodes.length + 2) start []

/-- The per-path weight summation of `PathCost::relative_cost_of`; `none`
models the `unwrap` panic on an edge absent from the main interactome. -/
def sumConsecutive (main : Interactome ℚ) : List INode → ℚ → Option ℚ
  | [], acc => some acc
  | [_], acc => some acc
  | a :: b :: rest, acc =>
    match main.inner_network.graph.edgeWeight a b with
    | some w => sumConsecutive main (b :: rest) (acc + w)
    | none => none

/-- Fold of `sumConsecutive` over all enumerated simple paths. -/
def sumPaths (main : Interactome ℚ) : List (List INode) → ℚ → Option ℚ
  | [], acc => some acc
  | p :: rest, acc =>
    match sumConsecutive main p acc with
    | some acc' => sumPaths main rest acc'
    | none => none

/-- Rust `PathCost::relative_cost_of` from `alg/cost.rs`; `none` models a
panic. -/
def PathCost_relative_cost_of (main : Interactome ℚ) (dag : PartialDag Unit)
    (nodes : List INode) : Option ℚ :=
  match addPathEdgesGo nodes (usizeLoopBound nodes.length) 0
      dag.toInteractome.inner_network.graph with
  | none => none
  | some newGraph =>
    sumPaths main
      (all_simple_paths newGraph (Sum.inr SuperNode.source) (Sum.inr SuperNode.target)) 0

/-- Fallback network used only to keep fixture extraction total; every
fixture theorem separately asserts that the parse in question succeeded. -/
def junkNetwork {E S : Type} [DecidableEq S] : Network E S :=
  ⟨GraphMap.empty, BiMap.empty, 0⟩

/-- Fallback interactome (see `junkNetwork`). -/
def junkInteractome {E : Type} : Interactome E :=
  ⟨junkNetwork, [], []⟩

/-- The interactome lines of the `test_edge_cost` unit test in `alg/cost.rs`. -/
def edgeCostFixtureLines : List String :=
  ["A\tB\t0.5", "B\tC\t0.5", "B\tD\t0.5", "D\tC\t0.7"]

/-- The parsed main network of the `test_edge_cost` fixture. -/
def edgeCostFixtureMainE : Except NetworkParsingError (Network ℚ Empty) :=
  Network.from_lines WeightDataFactory edgeCostFixtureLines

/-- The main interactome of the `test_edge_cost` fixture: sources `[A]`,
targets `[C]`, `require = true`. -/
def edgeCostFixtureInterE : Except InteractomeAttachError (Interactome ℚ) :=
  Interactome.attach_sources_and_targets
    (match edgeCostFixtureMainE with
     | Except.ok net => net
     | Except.error _ => junkNetwork)
    ["A"] ["C"] true

/-- The main interactome of the `test_edge_cost` fixture, extracted. -/
def edgeCostFixtureInter : Interactome ℚ :=
  match edgeCostFixtureInterE with
  | Except.ok inter => inter
  | Except.error _ => junkInteractome

/-- The DAG of the `test_edge_cost` fixture: edges `A→B`, `B→C` parsed over
the main id map, wrapped by `PartialDag::new` with sources `[A]`, targets
`[C]`. -/
def edgeCostFixtureDagE : Except DAGCreationError (PartialDag Unit) :=
  PartialDag.new
    (match Network.from_lines_using_id_map EmptyTupleDataFactory ["A\tB", "B\tC"]
        (match edgeCostFixtureMainE with
         | Except.ok net => net.id_map
         | Except.error _ => BiMap.empty) with
     | Except.ok dnet => dnet
     | Except.error _ => junkNetwork)
    ["A"] ["C"]

/-- The DAG of the `test_edge_cost` fixture, extracted. -/
def edgeCostFixtureDag : PartialDag Unit :=
  match edgeCostFixtureDagE with
  | Except.ok dag => dag
  | Except.error _ => ⟨junkInteractome⟩

/-- The consecutive pairs `(nodes[i], nodes[i+1])` of a node sequence. -/
def pairList (nodes : List INode) : List (INode × INode) :=
  nodes.zip nodes.tail

/-- The contribution of one consecutive pair to `EdgeCost`: the main-network
weight when the pair is absent from the DAG, and `0` otherwise. -/
def pairCost (main : Interactome ℚ) (dag : PartialDag Unit) (p : INode × INode) : ℚ :=
  if dag.toInteractome.inner_network.graph.containsEdge p.1 p.2 then 0
  else (main.inner_network.graph.edgeWeight p.1 p.2).getD 0

theorem pairList_cons (a b : INode) (t : List INode) :
    pairList (a :: b :: t) = (a, b) :: pairList (b :: t) := rfl

theorem edgeCostGo_spec (main : Interactome ℚ) (dag : PartialDag Unit) :
    ∀ (steps : ℕ) (rest : List INode) (nodes : List INode) (i : ℕ) (acc : ℚ),
      nodes.drop i = rest →
      steps + 1 = rest.length →
      (∀ p ∈ pairList rest,
        dag.toInteractome.inner_network.graph.containsEdge p.1 p.2 = false →
        (main.inner_network.graph.edgeWeight p.1 p.2).isSome = true) →
      edgeCostGo main dag nodes steps i acc =
        some (acc + ((pairList rest).map (pairCost main dag)).sum) := by
  intro steps
  induction steps with
  | zero =>
    intro rest nodes i acc hdrop hlen hpre
    match rest, hlen with
    | [x], _ =>
      simp [edgeCostGo, pairList]
  | succ k ih =>
    intro rest nodes i acc hdrop hlen hpre
    match rest, hlen with
    | a :: b :: t, hlen =>
      have hga : nodes[i]? = some a := by
        have := congrArg List.head? hdrop
        rwa [List.head?_drop, List.head?_cons] at this
      have hdrop1 : nodes.drop (i + 1) = b :: t := by
        have := congrArg List.tail hdrop
        rwa [List.tail_drop] at this
      have hgb : nodes[i + 1]? = some b := by
        have := congrArg List.head? hdrop1
        rwa [List.head?_drop, List.head?_cons] at this
      have hlen' : k + 1 = (b :: t).length := by
        simpa using Nat.succ_injective hlen
      have hpre' : ∀ p ∈ pairList (b :: t),
          dag.toInteractome.inner_network.graph.containsEdge p.1 p.2 = false →
          (main.inner_network.graph.edgeWeight p.1 p.2).isSome = true := by
        intro p hp
        exact hpre p (by rw [pairList_cons]; exact List.mem_cons_of_mem _ hp)
      have hmempair : (a, b) ∈ pairList (a :: b :: t) := by
        rw [pairList_cons]
        exact List.mem_cons_self _ _
      by_cases hce : dag.toInteractome.inner_network.graph.containsEdge a b = true
      · have hz : pairCost main dag (a, b) = 0 := by
          unfold pairCost
          simp [hce]
        simp only [edgeCostGo, hga, hgb, hce, if_true]
        rw [ih (b :: t) nodes (i + 1) acc hdrop1 hlen' hpre']
        rw [pairList_cons, List.map_cons, List.sum_cons, hz, zero_add]
      · have hcef : dag.toInteractome.inner_network.graph.containsEdge a b = false := by
          simpa using hce
        have hsome := hpre (a, b) hmempair hcef
        rcases Option.isSome_iff_exists.mp hsome with ⟨w, hw⟩
        have hpc : pairCost main dag (a, b) = w := by
          unfold pairCost
          simp [hcef, hw]
        simp only [edgeCostGo, hga, hgb, hcef, hw, Bool.false_eq_true, if_false]
        rw [ih (b :: t) nodes (i + 1) (acc + w) hdrop1 hlen' hpre']
        rw [pairList_cons, List.map_cons, List.sum_cons, hpc, add_assoc]

/-- The fixture for the `PathCost` panic: main interactome over lines
`A→B:0.5`, `C→B:0.5` with sources `[A]`, targets `[B]`. -/
def pathCostFixtureMainE : Except NetworkParsingError (Network ℚ Empty) :=
  Network.from_lines WeightDataFactory ["A\tB\t0.5", "C\tB\t0.5"]

/-- The attached main interactome of the `PathCost` fixture. -/
def pathCostFixtureInter : Interactome ℚ :=
  match Interactome.attach_sources_and_targets
      (match pathCostFixtureMainE with
       | Except.ok net => net
       | Except.error _ => junkNetwork)
      ["A"] ["B"] true with
  | Except.ok inter => inter
  | Except.error _ => junkInteractome

/-- A DAG over the same id map whose edge `A→C` is absent from the main
interactome (the DAG file may mention any known names). -/
def pathCostFixtureDagE : Except DAGCreationError (PartialDag Unit) :=
  PartialDag.new
    (match Network.from_lines_using_id_map EmptyTupleDataFactory ["A\tC", "C\tB"]
        (match pathCostFixtureMainE with
         | Except.ok net => net.id_map
         | Except.error _ => BiMap.empty) with
     | Except.ok dnet => dnet
     | Except.error _ => junkNetwork)
    ["A"] ["B"]

/-- The `PathCost` fixture DAG, extracted. -/
def pathCostFixtureDag : PartialDag Unit :=
  match pathCostFixtureDagE with
  | Except.ok dag => dag
  | Except.error _ => ⟨junkInteractome⟩

/-- Entries of the shared parent map of `alg/path.rs`:
`(source, target) -> (score, parent)`.  The score is an `Option ℚ`, with
`none` modelling `f64::INFINITY` (used only by the super-target shortcut
entries of `produce_dag`). -/
abbrev Paths (V : Type) : Type :=
  List ((V × V) × (Option ℚ × Option V))

/-- Lookup in the parent map (Rust `HashMap::get`). -/
def pathsLookup {V : Type} [DecidableEq V] (p : Paths V) (k : V × V) :
    Option (Option ℚ × Option V) :=
  (p.find? fun ent => decide (ent.1 = k)).map fun ent => ent.2

/-- Insert-or-replace in the parent map (Rust `HashMap::insert` and the
occupied-entry overwrite). -/
def pathsInsert {V : Type} [DecidableEq V] (p : Paths V) (k : V × V)
    (v : Option ℚ × Option V) : Paths V :=
  if (p.find? fun ent => decide (ent.1 = k)).isSome then
    p.map fun ent => if ent.1 = k then (k, v) else ent
  else p ++ [(k, v)]

/-- Strict `f64` comparison `a < b` with `none` as `+∞`. -/
def scoreLt (a b : Option ℚ) : Bool :=
  match a, b with
  | some x, some y => decide (x < y)
  | some _, none => true
  | none, _ => false

/-- Minimum extraction from the binary heap of `Reverse(ScoreObject(..))`
entries: the heap pops a least-score entry (`ScoreObject` compares scores
only; ties between distinct nodes are unspecified in `BinaryHeap`, and this
model resolves them deterministically). -/
def heapPopMin {V : Type} : List (ℚ × V) → Option ((ℚ × V) × List (ℚ × V))
  | [] => none
  | x :: xs =>
    match heapPopMin xs with
    | none => some (x, [])
    | some (m, rest) =>
      if x.1 ≤ m.1 then some (x, xs) else some (m, x :: rest)

/-- Remove the first occurrence of a value from the target list (Rust
`position` + `remove`), returning `none` when absent. -/
def removeFirst {V : Type} [DecidableEq V] : List V → V → Option (List V)
  | [], _ => none
  | x :: xs, n =>
    if x = n then some xs
    else (removeFirst xs n).map fun l => x :: l

/-- Loop state of `calculate_paths`: the shared map, the mutable copy of the
target list, the visit map, and the priority queue. -/
structure CPState (V : Type) where
  paths : Paths V
  targets : List V
  visited : List V
  heap : List (ℚ × V)
deriving DecidableEq

/-- Result of one iteration of the `while let` loop of `calculate_paths`. -/
inductive IterResult (V : Type) : Type
  | ret (paths : Paths V)
  | cont (st : CPState V)
deriving DecidableEq

/-- The relaxation loop `for edge in graph.edges(node)` of
`calculate_paths`. -/
def relaxEdges {V : Type} [DecidableEq V] (source node : V) (node_score : ℚ)
    (visited : List V) :
    List (V × V × ℚ) → Paths V × List (ℚ × V) → Paths V × List (ℚ × V)
  | [], st => st
  | e :: es, (paths, heap) =>
    let next := e.2.1
    if next ∈ visited then relaxEdges source node node_score visited es (paths, heap)
    else
      let next_score := node_score + e.2.2
      match pathsLookup paths (source, next) with
      | some ent =>
        if scoreLt (some next_score) ent.1 then
          relaxEdges source node node_score visited es
            (pathsInsert paths (source, next) (some next_score, some node),
             (next_score, next) :: heap)
        else relaxEdges source node node_score visited es (paths, heap)
      | none =>
        relaxEdges source node node_score visited es
          (pathsInsert paths (source, next) (some next_score, some node),
           (next_score, next) :: heap)

/-- The tail of a loop iteration of `calculate_paths`, after the visited
check and the target bookkeeping: skip ignored nodes without relaxing (and,
notably, without marking them visited), otherwise relax the outgoing edges
and mark the node visited. -/
def calcStep {V : Type} [DecidableEq V] (graph : GraphMap V ℚ) (source : V)
    (ignore : List V) (st : CPState V) (node : V) (node_score : ℚ)
    (rest : List (ℚ × V)) (targets2 : List V) : IterResult V :=
  if node ∈ ignore then IterResult.cont ⟨st.paths, targets2, st.visited, rest⟩
  else
    let relaxed := relaxEdges source node node_score st.visited
      (graph.outEdges node) (st.paths, rest)
    IterResult.cont ⟨relaxed.1, targets2, node :: st.visited, relaxed.2⟩

/-- One iteration of the main loop of `calculate_paths`: pop, skip visited
nodes, tick off targets (returning early when the list empties), then
`calcStep`. -/
def calcIterate {V : Type} [DecidableEq V] (graph : GraphMap V ℚ) (source : V)
    (ignore : List V) (st : CPState V) : IterResult V :=
  match heapPopMin st.heap with
  | none => IterResult.ret st.paths
  | some ((node_score, node), rest) =>
    if node ∈ st.visited then IterResult.cont ⟨st.paths, st.targets, st.visited, rest⟩
    else
      match removeFirst st.targets node with
      | some targets2 =>
        if targets2.isEmpty then IterResult.ret st.paths
        else calcStep graph source ignore st node node_score rest targets2
      | none => calcStep graph source ignore st node node_score rest st.targets

/-- The fuelled `while let` loop of `calculate_paths`. -/
def calcLoop {V : Type} [DecidableEq V] (graph : GraphMap V ℚ) (source : V)
    (ignore : List V) : ℕ → CPState V → Option (Paths V)
  | 0, _ => none
  | fuel + 1, st =>
    match calcIterate graph source ignore st with
    | IterResult.ret paths => some paths
    | IterResult.cont st2 => calcLoop graph source ignore fuel st2

/-- Rust `calculate_paths` from `alg/path.rs` (the `Result` return is always
`Ok` in the source; `none` here models divergence when the fuel runs out). -/
def calculate_paths {V : Type} [DecidableEq V] (fuel : ℕ) (paths : Paths V)
    (graph : GraphMap V ℚ) (source : V) (targets ignore : List V) :
    Option (Paths V) :=
  let paths0 := pathsInsert paths (source, source) (some 0, none)
  calcLoop graph source ignore fuel ⟨paths0, targets, [], [(0, source)]⟩

theorem find_map_replace {V : Type} [DecidableEq V] (p : Paths V) (k : V × V)
    (v : Option ℚ × Option V) {k2 : V × V} (h : k2 ≠ k) :
    (p.map fun ent => if ent.1 = k then (k, v) else ent).find?
        (fun ent => decide (ent.1 = k2)) =
      p.find? fun ent => decide (ent.1 = k2) := by
  induction p with
  | nil => rfl
  | cons ent rest ih =>
    by_cases hk : ent.1 = k
    · have hne : (k : V × V) ≠ k2 := fun hh => h hh.symm
      have hne2 : ent.1 ≠ k2 := by
        rw [hk]
        exact hne
      simp only [List.map_cons, if_pos hk]
      rw [List.find?_cons_of_neg _ (by simpa using hne), List.find?_cons_of_neg _ (by simpa using hne2)]
      exact ih
    · simp only [List.map_cons, if_neg hk]
      by_cases he : ent.1 = k2
      · rw [List.find?_cons_of_pos _ (by simpa using he), List.find?_cons_of_pos _ (by simpa using he)]
      · rw [List.find?_cons_of_neg _ (by simpa using he), List.find?_cons_of_neg _ (by simpa using he)]
        exact ih

theorem find_append_ne {V : Type} [DecidableEq V] (p : Paths V) (k : V × V)
    (v : Option ℚ × Option V) {k2 : V × V} (h : k2 ≠ k) :
    (p ++ [(k, v)]).find? (fun ent => decide (ent.1 = k2)) =
      p.find? fun ent => decide (ent.1 = k2) := by
  induction p with
  | nil =>
    simp only [List.nil_append]
    rw [List.find?_cons_of_neg _ (by simpa using fun hh => h hh.symm)]
  | cons ent rest ih =>
    by_cases he : ent.1 = k2
    · simp only [List.cons_append]
      rw [List.find?_cons_of_pos _ (by simpa using he), List.find?_cons_of_pos _ (by simpa using he)]
    · simp only [List.cons_append]
      rw [List.find?_cons_of_neg _ (by simpa using he), List.find?_cons_of_neg _ (by simpa using he)]
      exact ih

theorem pathsLookup_insert_ne {V : Type} [DecidableEq V] (p : Paths V)
    (k : V × V) (v : Option ℚ × Option V) {k2 : V × V} (h : k2 ≠ k) :
    pathsLookup (pathsInsert p k v) k2 = pathsLookup p k2 := by
  unfold pathsInsert pathsLookup
  by_cases hs : (p.find? fun ent => decide (ent.1 = k)).isSome
  · rw [if_pos hs, find_map_replace p k v h]
  · rw [if_neg hs, find_append_ne p k v h]

theorem relaxEdges_frame {V : Type} [DecidableEq V] (source node : V)
    (node_score : ℚ) (visited : List V) {s t : V} (hs : s ≠ source) :
    ∀ (es : List (V × V × ℚ)) (paths : Paths V) (heap : List (ℚ × V)),
      pathsLookup (relaxEdges source node node_score visited es (paths, heap)).1 (s, t) =
        pathsLookup paths (s, t) := by
  intro es
  induction es with
  | nil => intro paths heap; rfl
  | cons e rest ih =>
    intro paths heap
    have hkey : ((s, t) : V × V) ≠ (source, e.2.1) := by
      intro hh
      exact hs (congrArg Prod.fst hh)
    unfold relaxEdges
    by_cases hv : e.2.1 ∈ visited
    · rw [if_pos hv]
      exact ih paths heap
    · rw [if_neg hv]
      rcases hopt : pathsLookup paths (source, e.2.1) with _ | ent
      · simp only [hopt]
        rw [ih]
        exact pathsLookup_insert_ne _ _ _ hkey
      · simp only [hopt]
        by_cases hlt : scoreLt (some (node_score + e.2.2)) ent.1 = true
        · rw [if_pos hlt, ih]
          exact pathsLookup_insert_ne _ _ _ hkey
        · rw [if_neg hlt]
          exact ih paths heap

theorem calcStep_frame {V : Type} [DecidableEq V] (graph : GraphMap V ℚ)
    (source : V) (ignore : List V) (st : CPState V) (node : V) (node_score : ℚ)
    (rest : List (ℚ × V)) (targets2 : List V) {s t : V} (hs : s ≠ source) :
    ∀ st2, calcStep graph source ignore st node node_score rest targets2 =
        IterResult.cont st2 →
      pathsLookup st2.paths (s, t) = pathsLookup st.paths (s, t) := by
  intro st2 h
  unfold calcStep at h
  by_cases hig : node ∈ ignore
  · rw [if_pos hig] at h
    cases h
    rfl
  · rw [if_neg hig] at h
    cases h
    exact relaxEdges_frame source _ _ _ hs _ _ _

theorem calcStep_ne_ret {V : Type} [DecidableEq V] (graph : GraphMap V ℚ)
    (source : V) (ignore : List V) (st : CPState V) (node : V) (node_score : ℚ)
    (rest : List (ℚ × V)) (targets2 : List V) (res : Paths V) :
    calcStep graph source ignore st node node_score rest targets2 ≠
      IterResult.ret res := by
  unfold calcStep
  by_cases hig : node ∈ ignore
  · rw [if_pos hig]
    intro h
    cases h
  · rw [if_neg hig]
    intro h
    cases h

theorem calcIterate_frame {V : Type} [DecidableEq V] (graph : GraphMap V ℚ)
    (source : V) (ignore : List V) (st : CPState V) {s t : V} (hs : s ≠ source) :
    (∀ st2, calcIterate graph source ignore st = IterResult.cont st2 →
      pathsLookup st2.paths (s, t) = pathsLookup st.paths (s, t)) ∧
    (∀ res, calcIterate graph source ignore st = IterResult.ret res →
      pathsLookup res (s, t) = pathsLookup st.paths (s, t)) := by
  have hmain : ∀ r, calcIterate graph source ignore st = r →
      (∀ st2, r = IterResult.cont st2 →
        pathsLookup st2.paths (s, t) = pathsLookup st.paths (s, t)) ∧
      (∀ res, r = IterResult.ret res →
        pathsLookup res (s, t) = pathsLookup st.paths (s, t)) := by
    intro r h
    unfold calcIterate at h
    rcases hp : heapPopMin st.heap with _ | ⟨⟨node_score, node⟩, rest⟩
    · rw [hp] at h
      subst h
      exact ⟨fun st2 h2 => (by cases h2), fun res h2 => (by cases h2 <;> rfl)⟩
    · rw [hp] at h
      simp only at h
      by_cases hv : node ∈ st.visited
      · rw [if_pos hv] at h
        subst h
        exact ⟨fun st2 h2 => (by cases h2 <;> rfl), fun res h2 => (by cases h2)⟩
      · rw [if_neg hv] at h
        rcases hr : removeFirst st.targets node with _ | targets2
        · rw [hr] at h
          simp only at h
          subst h
          refine ⟨fun st2 h2 => calcStep_frame graph source ignore st node node_score
            rest st.targets hs st2 h2, fun res h2 => ?_⟩
          exact absurd h2 (calcStep_ne_ret _ _ _ _ _ _ _ _ _)
        · rw [hr] at h
          simp only at h
          by_cases hemp : targets2.isEmpty
          · rw [if_pos hemp] at h
            subst h
            exact ⟨fun st2 h2 => (by cases h2), fun res h2 => (by cases h2 <;> rfl)⟩
          · rw [if_neg hemp] at h
            subst h
            refine ⟨fun st2 h2 => calcStep_frame graph source ignore st node node_score
              rest targets2 hs st2 h2, fun res h2 => ?_⟩
            exact absurd h2 (calcStep_ne_ret _ _ _ _ _ _ _ _ _)
  exact ⟨fun st2 h2 => (hmain _ rfl).1 st2 h2, fun res h2 => (hmain _ rfl).2 res h2⟩

theorem calcLoop_frame {V : Type} [DecidableEq V] (graph : GraphMap V ℚ)
    (source : V) (ignore : List V) {s t : V} (hs : s ≠ source) :
    ∀ (fuel : ℕ) (st : CPState V) (res : Paths V),
      calcLoop graph source ignore fuel st = some res →
      pathsLookup res (s, t) = pathsLookup st.paths (s, t) := by
  intro fuel
  induction fuel with
  | zero => intro st res h; cases h
  | succ k ih =>
    intro st res h
    unfold calcLoop at h
    match hi : calcIterate graph source ignore st with
    | IterResult.ret paths =>
      rw [hi] at h
      cases h
      exact (calcIterate_frame graph source ignore st hs).2 _ hi
    | IterResult.cont st2 =>
      rw [hi] at h
      rw [ih st2 res h]
      exact (calcIterate_frame graph source ignore st hs).1 _ hi

theorem find_append_of_some {α : Type} {l l2 : List α} {p : α → Bool} {x : α}
    (h : l.find? p = some x) : (l ++ l2).find? p = some x := by
  induction l with
  | nil => cases h
  | cons a rest ih =>
    by_cases ha : p a = true
    · rw [List.find?_cons_of_pos _ ha] at h
      rw [List.cons_append, List.find?_cons_of_pos _ ha]
      exact h
    · rw [List.find?_cons_of_neg _ ha] at h
      rw [List.cons_append, List.find?_cons_of_neg _ ha]
      exact ih h

theorem find_append_of_none {α : Type} {l : List α} (l2 : List α) {p : α → Bool}
    (h : l.find? p = none) : (l ++ l2).find? p = l2.find? p := by
  induction l with
  | nil => rfl
  | cons a rest ih =>
    by_cases ha : p a = true
    · rw [List.find?_cons_of_pos _ ha] at h
      cases h
    · rw [List.find?_cons_of_neg _ ha] at h
      rw [List.cons_append, List.find?_cons_of_neg _ ha]
      exact ih h

theorem BiMap.getByLeft_eq_none_iff (m : BiMap) (s : String) :
    m.getByLeft s = none ↔ s ∉ m.pairs.map Prod.fst := by
  unfold BiMap.getByLeft
  rw [Option.map_eq_none', List.find?_eq_none]
  constructor
  · intro h hmem
    rcases List.mem_map.mp hmem with ⟨p, hp, hps⟩
    exact absurd (by simpa using hps) (h p hp)
  · intro h p hp
    intro hps
    exact h (List.mem_map.mpr ⟨p, hp, by simpa using hps⟩)

theorem BiMap.insert_fresh (m : BiMap) (s : String) (i : ℕ)
    (hs : s ∉ m.pairs.map Prod.fst) (hi : ∀ p ∈ m.pairs, p.2 ≠ i) :
    (m.insert s i).pairs = m.pairs ++ [(s, i)] := by
  unfold BiMap.insert
  simp only
  congr 1
  apply List.filter_eq_self.mpr
  intro p hp
  have h1 : p.1 ≠ s := fun hh => hs (List.mem_map.mpr ⟨p, hp, hh⟩)
  have h2 : p.2 ≠ i := hi p hp
  simp [h1, h2]

theorem BiMap.getByLeft_insert_fresh_preserved (m : BiMap) (s : String) (i : ℕ)
    (hs : s ∉ m.pairs.map Prod.fst) (hi : ∀ p ∈ m.pairs, p.2 ≠ i)
    {a : String} {x : ℕ} (h : m.getByLeft a = some x) :
    (m.insert s i).getByLeft a = some x := by
  unfold BiMap.getByLeft at h ⊢
  rw [BiMap.insert_fresh m s i hs hi]
  rcases Option.map_eq_some'.mp h with ⟨p, hp, hpx⟩
  rw [find_append_of_some hp]
  simpa using hpx

theorem BiMap.getByLeft_insert_fresh_self (m : BiMap) (s : String) (i : ℕ)
    (hs : s ∉ m.pairs.map Prod.fst) (hi : ∀ p ∈ m.pairs, p.2 ≠ i) :
    (m.insert s i).getByLeft s = some i := by
  unfold BiMap.getByLeft
  rw [BiMap.insert_fresh m s i hs hi]
  have hnone : (m.pairs.find? fun p => decide (p.1 = s)) = none := by
    rw [List.find?_eq_none]
    intro p hp
    simp only [decide_eq_true_eq]
    intro hps
    exact hs (List.mem_map.mpr ⟨p, hp, hps⟩)
  rw [find_append_of_none _ hnone]
  simp

theorem BiMap.len_insert_fresh (m : BiMap) (s : String) (i : ℕ)
    (hs : s ∉ m.pairs.map Prod.fst) (hi : ∀ p ∈ m.pairs, p.2 ≠ i) :
    (m.insert s i).len = m.len + 1 := by
  unfold BiMap.len
  rw [BiMap.insert_fresh m s i hs hi]
  simp

theorem GraphMap.addNode_nodes_of_not_mem {N E : Type} [DecidableEq N]
    (g : GraphMap N E) {n : N} (h : n ∉ g.nodes) :
    (g.addNode n).nodes = g.nodes ++ [n] := by
  unfold GraphMap.addNode
  rw [dif_neg h]

theorem GraphMap.addNode_of_mem {N E : Type} [DecidableEq N]
    (g : GraphMap N E) {n : N} (h : n ∈ g.nodes) :
    g.addNode n = g := by
  unfold GraphMap.addNode
  rw [dif_pos h]

theorem GraphMap.containsEdge_iff {N E : Type} [DecidableEq N]
    (g : GraphMap N E) (a b : N) :
    g.containsEdge a b = true ↔ (a, b) ∈ g.edges.map fun e => (e.1, e.2.1) := by
  unfold GraphMap.containsEdge
  rw [List.any_eq_true]
  constructor
  · rintro ⟨e, he, hk⟩
    rcases (keyMatches_iff a b e).mp hk with ⟨h1, h2⟩
    exact List.mem_map.mpr ⟨e, he, by rw [h1, h2]⟩
  · intro h
    rcases List.mem_map.mp h with ⟨e, he, hk⟩
    exact ⟨e, he, (keyMatches_iff a b e).mpr
      ⟨congrArg Prod.fst hk, congrArg Prod.snd hk⟩⟩

theorem GraphMap.containsEdge_congr {N E : Type} [DecidableEq N]
    {g g2 : GraphMap N E} (h : g.edges = g2.edges) (a b : N) :
    g.containsEdge a b = g2.containsEdge a b := by
  unfold GraphMap.containsEdge
  rw [h]

theorem GraphMap.addEdge_edges_of_not_contains {N E : Type} [DecidableEq N]
    (g : GraphMap N E) (a b : N) (w : E) (h : g.containsEdge a b = false) :
    (g.addEdge a b w).edges = g.edges ++ [(a, b, w)] := by
  unfold GraphMap.addEdge
  have he : ((g.addNode a).addNode b).edges = g.edges := by
    rw [GraphMap.addNode_edges, GraphMap.addNode_edges]
  have hc : ((g.addNode a).addNode b).containsEdge a b = false := by
    rw [GraphMap.containsEdge_congr he]
    exact h
  rw [dif_neg (by simp [hc])]
  simp only
  rw [he]

theorem GraphMap.addEdge_keys_of_contains {N E : Type} [DecidableEq N]
    (g : GraphMap N E) (a b : N) (w : E) (h : g.containsEdge a b = true) :
    (g.addEdge a b w).edges.map (fun e => (e.1, e.2.1)) =
      g.edges.map fun e => (e.1, e.2.1) := by
  unfold GraphMap.addEdge
  have he : ((g.addNode a).addNode b).edges = g.edges := by
    rw [GraphMap.addNode_edges, GraphMap.addNode_edges]
  have hc : ((g.addNode a).addNode b).containsEdge a b = true := by
    rw [GraphMap.containsEdge_congr he]
    exact h
  rw [dif_pos hc]
  simp only
  rw [List.map_map]
  have : ∀ e ∈ ((g.addNode a).addNode b).edges,
      ((fun e => (e.1, e.2.1)) ∘ fun e => if keyMatches a b e then (a, b, w) else e) e =
        (e.1, e.2.1) := by
    intro e he2
    by_cases hk : keyMatches a b e = true
    · rcases (keyMatches_iff a b e).mp hk with ⟨h1, h2⟩
      simp [Function.comp, hk, h1, h2]
    · simp [Function.comp, hk]
  rw [List.map_congr_left this, he]

theorem GraphMap.addEdge_nodes {N E : Type} [DecidableEq N]
    (g : GraphMap N E) (a b : N) (w : E) :
    (g.addEdge a b w).nodes = ((g.addNode a).addNode b).nodes := by
  unfold GraphMap.addEdge
  by_cases h : ((g.addNode a).addNode b).containsEdge a b = true
  · rw [dif_pos h]
  · rw [dif_neg h]

theorem GraphMap.addEdge_nodes_of_mem {N E : Type} [DecidableEq N]
    (g : GraphMap N E) {a b : N} (w : E) (ha : a ∈ g.nodes) (hb : b ∈ g.nodes) :
    (g.addEdge a b w).nodes = g.nodes := by
  rw [GraphMap.addEdge_nodes, GraphMap.addNode_of_mem _ ha, GraphMap.addNode_of_mem _ hb]

theorem GraphMap.addEdge_edges_length_le {N E : Type} [DecidableEq N]
    (g : GraphMap N E) (a b : N) (w : E) :
    (g.addEdge a b w).edges.length ≤ g.edges.length + 1 := by
  by_cases h : g.containsEdge a b = true
  · have := congrArg List.length (GraphMap.addEdge_keys_of_contains g a b w h)
    simp only [List.length_map] at this
    omega
  · rw [GraphMap.addEdge_edges_of_not_contains g a b w (by simpa using h)]
    simp

/-- A line is a data line when it is neither blank nor a comment. -/
def isDataLine (l : String) : Bool :=
  !decide (l = "") && !startsWithHash l

/-- The (source-name, target-name) pair of a data line. -/
def linePair (l : String) : String × String :=
  ((splitChar '\t' l).getD 0 "", (splitChar '\t' l).getD 1 "")

/-- Invariant of the `from_lines` parsing loop: the graph nodes are exactly
the mapped ids (in insertion order), every mapped id is below the map size,
and every edge key arises from a processed (source-name, target-name) pair
through the id map. -/
structure FLInv {E S : Type} [DecidableEq S] (g : GraphMap (ℕ ⊕ S) E)
    (m : BiMap) (pairs : List (String × String)) : Prop where
  nodes_eq : g.nodes = m.pairs.map fun p => Sum.inl p.2
  ids_lt : ∀ p ∈ m.pairs, p.2 < m.len
  keys_cov : ∀ k ∈ g.edges.map (fun e => (e.1, e.2.1)),
    ∃ pr ∈ pairs, ∃ ra rb, k = (Sum.inl ra, Sum.inl rb) ∧
      m.getByLeft pr.1 = some ra ∧ m.getByLeft pr.2 = some rb

theorem resolveName_from_lines {E S : Type} [DecidableEq S] (name : String)
    (g : GraphMap (ℕ ⊕ S) E) (m : BiMap) (mx : ℕ)
    (hn : g.nodes = m.pairs.map fun p => Sum.inl p.2)
    (hlt : ∀ p ∈ m.pairs, p.2 < m.len) :
    ∃ (i : ℕ) (g2 : GraphMap (ℕ ⊕ S) E) (m2 : BiMap) (mx2 : ℕ),
      Network.resolveName (fun _ j => some j) name g m mx =
        Except.ok (i, g2, m2, mx2) ∧
      m2.getByLeft name = some i ∧
      g2.nodes = m2.pairs.map (fun p => Sum.inl p.2) ∧
      (∀ p ∈ m2.pairs, p.2 < m2.len) ∧
      (∀ a x, m.getByLeft a = some x → m2.getByLeft a = some x) ∧
      g2.edges = g.edges ∧
      m.len ≤ m2.len ∧ m2.len ≤ m.len + 1 := by
  rcases hg : m.getByLeft name with _ | i
  · have hs : name ∉ m.pairs.map Prod.fst := (BiMap.getByLeft_eq_none_iff m name).mp hg
    have hi : ∀ p ∈ m.pairs, p.2 ≠ m.len := fun p hp => Nat.ne_of_lt (hlt p hp)
    have hnotmem : (Sum.inl m.len : ℕ ⊕ S) ∉ g.nodes := by
      rw [hn]
      intro hmem
      rcases List.mem_map.mp hmem with ⟨p, hp, hpe⟩
      exact hi p hp (by simpa using hpe)
    refine ⟨m.len, g.addNode (Sum.inl m.len), m.insert name m.len, max m.len mx, ?_, ?_, ?_, ?_, ?_, ?_, ?_, ?_⟩
    · unfold Network.resolveName
      rw [hg]
    · exact BiMap.getByLeft_insert_fresh_self m name m.len hs hi
    · rw [GraphMap.addNode_nodes_of_not_mem g hnotmem, BiMap.insert_fresh m name m.len hs hi]
      simp [hn]
    · intro p hp
      rw [BiMap.insert_fresh m name m.len hs hi] at hp
      rw [BiMap.len_insert_fresh m name m.len hs hi]
      rcases List.mem_append.mp hp with hp0 | hp0
      · exact Nat.lt_succ_of_lt (hlt p hp0)
      · have : p = (name, m.len) := by simpa using hp0
        subst this
        exact Nat.lt_succ_self _
    · intro a x hx
      exact BiMap.getByLeft_insert_fresh_preserved m name m.len hs hi hx
    · exact GraphMap.addNode_edges g _
    · rw [BiMap.len_insert_fresh m name m.len hs hi]
      omega
    · rw [BiMap.len_insert_fresh m name m.len hs hi]
  · refine ⟨i, g, m, mx, ?_, hg, hn, hlt, fun a x hx => hx, rfl, le_refl _, by omega⟩
    unfold Network.resolveName
    rw [hg]

theorem FLInv.nodes_len {E S : Type} [DecidableEq S] {g : GraphMap (ℕ ⊕ S) E}
    {m : BiMap} {pairs : List (String × String)} (h : FLInv g m pairs) :
    g.nodes.length = m.len := by
  rw [h.nodes_eq, List.length_map]
  rfl

theorem fromLinesGo_spec {E S : Type} [DecidableEq S] (F : DataFactory E) :
    ∀ (lines : List String) (idx : ℕ) (g : GraphMap (ℕ ⊕ S) E) (m : BiMap) (mx : ℕ)
      (pairsSoFar : List (String × String)),
      (∀ l ∈ lines, isDataLine l = true →
        (splitChar '\t' l).length = 2 + F.dlen ∧
        ∀ i, ∃ e, F.fromStrs i ((splitChar '\t' l).drop 2) = Except.ok e) →
      FLInv g m pairsSoFar →
      ∃ (g2 : GraphMap (ℕ ⊕ S) E) (m2 : BiMap) (mx2 : ℕ),
        Network.fromLinesGo F (fun _ j => some j) idx lines (g, m, mx) =
          Except.ok (g2, m2, mx2) ∧
        FLInv g2 m2 (pairsSoFar ++ (lines.filter isDataLine).map linePair) ∧
        g2.edges.length ≤ g.edges.length + (lines.filter isDataLine).length ∧
        m2.len ≤ m.len + 2 * (lines.filter isDataLine).length ∧
        ((pairsSoFar ++ (lines.filter isDataLine).map linePair).Nodup →
          g2.edges.length = g.edges.length + (lines.filter isDataLine).length) := by
  intro lines
  induction lines with
  | nil =>
    intro idx g m mx pairs hwf hinv
    exact ⟨g, m, mx, rfl, by simpa using hinv, by simp, by simp, fun _ => by simp⟩
  | cons line rest ih =>
    intro idx g m mx pairs hwf hinv
    by_cases hd : isDataLine line = true
    · obtain ⟨hsplit, hparse⟩ := hwf line (List.mem_cons_self _ _) hd
      obtain ⟨data, hdata⟩ := hparse idx
      have hbh : decide (line = "") = false ∧ startsWithHash line = false := by
        have h12 := hd
        unfold isDataLine at h12
        simp only [Bool.and_eq_true, Bool.not_eq_true'] at h12
        exact h12
      have hblank : decide (line = "") = false := hbh.1
      have hhash : startsWithHash line = false := hbh.2
      obtain ⟨si, g1, m1, mx1, hres1, hlook1, hn1, hlt1, hmono1, hedges1, hlen1, hlen1b⟩ :=
        resolveName_from_lines (linePair line).1 g m mx hinv.nodes_eq hinv.ids_lt
      obtain ⟨ti, g2, m2, mx2, hres2, hlook2, hn2, hlt2, hmono2, hedges2, hlen2, hlen2b⟩ :=
        resolveName_from_lines (linePair line).2 g1 m1 mx1 hn1 hlt1
      have hlooka : m2.getByLeft (linePair line).1 = some si := hmono2 _ _ hlook1
      have hproc : Network.processLine F (fun _ j => some j) idx line (g, m, mx) =
          Except.ok (g2.addEdge (Sum.inl si) (Sum.inl ti) data, m2, mx2) := by
        have h1 := hres1
        have h2 := hres2
        dsimp only [linePair] at h1 h2
        unfold Network.processLine
        rw [if_neg (by simp [hblank]), if_neg (by simp [hhash])]
        dsimp only
        rw [if_neg (by simp [hsplit])]
        simp only [hdata, h1, h2]
      have hedgesg2 : g2.edges = g.edges := by rw [hedges2, hedges1]
      have hmemsi : (Sum.inl si : ℕ ⊕ S) ∈ g2.nodes := by
        rw [hn2]
        exact List.mem_map.mpr ⟨_, BiMap.getByLeft_eq_some hlooka, rfl⟩
      have hmemti : (Sum.inl ti : ℕ ⊕ S) ∈ g2.nodes := by
        rw [hn2]
        exact List.mem_map.mpr ⟨_, BiMap.getByLeft_eq_some hlook2, rfl⟩
      have hmono : ∀ a x, m.getByLeft a = some x → m2.getByLeft a = some x :=
        fun a x hx => hmono2 _ _ (hmono1 _ _ hx)
      have hinv3 : FLInv (g2.addEdge (Sum.inl si) (Sum.inl ti) data) m2
          (pairs ++ [linePair line]) := by
        refine ⟨?_, hlt2, ?_⟩
        · rw [GraphMap.addEdge_nodes_of_mem g2 data hmemsi hmemti, hn2]
        · intro k hk
          by_cases hce : g2.containsEdge (Sum.inl si) (Sum.inl ti) = true
          · rw [GraphMap.addEdge_keys_of_contains g2 _ _ data hce] at hk
            rw [hedgesg2] at hk
            obtain ⟨pr, hpr, ra, rb, hkeq, hra, hrb⟩ := hinv.keys_cov k hk
            exact ⟨pr, List.mem_append_left _ hpr, ra, rb, hkeq,
              hmono _ _ hra, hmono _ _ hrb⟩
          · rw [GraphMap.addEdge_edges_of_not_contains g2 _ _ data (by simpa using hce)]
              at hk
            rw [List.map_append] at hk
            rcases List.mem_append.mp hk with hk0 | hk0
            · rw [hedgesg2] at hk0
              obtain ⟨pr, hpr, ra, rb, hkeq, hra, hrb⟩ := hinv.keys_cov k hk0
              exact ⟨pr, List.mem_append_left _ hpr, ra, rb, hkeq,
                hmono _ _ hra, hmono _ _ hrb⟩
            · have : k = (Sum.inl si, Sum.inl ti) := by simpa using hk0
              subst this
              exact ⟨linePair line, List.mem_append_right _ (List.mem_singleton.mpr rfl),
                si, ti, rfl, hlooka, hlook2⟩
      have hwfrest : ∀ l ∈ rest, isDataLine l = true →
          (splitChar '\t' l).length = 2 + F.dlen ∧
          ∀ i, ∃ e, F.fromStrs i ((splitChar '\t' l).drop 2) = Except.ok e :=
        fun l hl => hwf l (List.mem_cons_of_mem _ hl)
      obtain ⟨gf, mf, mxf, hgo, hinvf, hle, hlenle, heq⟩ :=
        ih (idx + 1) (g2.addEdge (Sum.inl si) (Sum.inl ti) data) m2 mx2
          (pairs ++ [linePair line]) hwfrest hinv3
      have hfilter : (line :: rest).filter isDataLine = line :: rest.filter isDataLine := by
        rw [List.filter_cons, if_pos hd]
      refine ⟨gf, mf, mxf, ?_, ?_, ?_, ?_, ?_⟩
      · unfold Network.fromLinesGo
        rw [hproc]
        exact hgo
      · rw [hfilter]
        simpa [List.append_assoc] using hinvf
      · rw [hfilter]
        have hone := GraphMap.addEdge_edges_length_le g2 (Sum.inl si) (Sum.inl ti) data
        rw [hedgesg2] at hone
        simp only [List.length_cons]
        omega
      · rw [hfilter]
        simp only [List.length_cons]
        omega
      · rw [hfilter]
        intro hnd
        have hnd2 : ((pairs ++ [linePair line]) ++ (rest.filter isDataLine).map linePair).Nodup := by
          simpa [List.append_assoc] using hnd
        have hfreshpair : linePair line ∉ pairs := by
          rw [List.map_cons] at hnd
          rcases List.nodup_append.mp hnd with ⟨_, _, hdisj⟩
          intro hmem
          exact hdisj hmem (List.mem_cons_self _ _)
        have hce : g2.containsEdge (Sum.inl si) (Sum.inl ti) = false := by
          by_contra hcc
          have hcc2 : g2.containsEdge (Sum.inl si) (Sum.inl ti) = true := by
            simpa using hcc
          have hkmem := (GraphMap.containsEdge_iff g2 _ _).mp hcc2
          rw [hedgesg2] at hkmem
          obtain ⟨pr, hpr, ra, rb, hkeq, hra, hrb⟩ := hinv.keys_cov _ hkmem
          have hra2 : ra = si := by
            have := congrArg Prod.fst hkeq
            exact (by simpa using this : si = ra).symm
          have hrb2 : rb = ti := by
            have := congrArg Prod.snd hkeq
            exact (by simpa using this : ti = rb).symm
          subst hra2
          subst hrb2
          have hpr1 : pr.1 = (linePair line).1 :=
            BiMap.getByLeft_inj (hmono _ _ hra) hlooka
          have hpr2 : pr.2 = (linePair line).2 :=
            BiMap.getByLeft_inj (hmono _ _ hrb) hlook2
          have : pr = linePair line := Prod.ext hpr1 hpr2
          rw [this] at hpr
          exact hfreshpair hpr
        have hplus : (g2.addEdge (Sum.inl si) (Sum.inl ti) data).edges.length =
            g.edges.length + 1 := by
          rw [GraphMap.addEdge_edges_of_not_contains g2 _ _ data hce, hedgesg2]
          simp
        have := heq hnd2
        simp only [List.length_cons]
        omega
    · have hskip : Network.processLine F (fun _ j => some j) idx line (g, m, mx) =
          Except.ok (g, m, mx) := by
        unfold Network.processLine
        by_cases hb : line = ""
        · rw [if_pos (by simp [hb])]
        · have himp : ¬line = "" → startsWithHash line = true := by
            simpa [isDataLine] using hd
          rw [if_neg (by simp [hb]), if_pos (himp hb)]
      have hfilter : (line :: rest).filter isDataLine = rest.filter isDataLine := by
        rw [List.filter_cons, if_neg (by simp [hd])]
      obtain ⟨gf, mf, mxf, hgo, hinvf, hle, hlenle, heq⟩ :=
        ih (idx + 1) g m mx pairs (fun l hl => hwf l (List.mem_cons_of_mem _ hl)) hinv
      refine ⟨gf, mf, mxf, ?_, ?_, ?_, ?_, ?_⟩
      · unfold Network.fromLinesGo
        rw [hskip]
        exact hgo
      · rw [hfilter]
        exact hinvf
      · rw [hfilter]
        exact hle
      · rw [hfilter]
        exact hlenle
      · rw [hfilter]
        exact heq

/-- The ordered endpoint keys of a graph's edges. -/
def keysOf {N E : Type} [DecidableEq N] (g : GraphMap N E) : List (N × N) :=
  g.edges.map fun e => (e.1, e.2.1)

theorem edgesDirected_out_length {E S : Type} [DecidableEq S]
    (g : GraphMap (ℕ ⊕ S) E) (n : ℕ ⊕ S) :
    (Network.edgesDirected g n Direction.outgoing).length =
      ((keysOf g).filter fun k => decide (k.1 = n)).length := by
  unfold Network.edgesDirected keysOf
  rw [List.length_map, List.filter_map, List.length_map]
  rfl

theorem edgesDirected_in_length {E S : Type} [DecidableEq S]
    (g : GraphMap (ℕ ⊕ S) E) (n : ℕ ⊕ S) :
    (Network.edgesDirected g n Direction.incoming).length =
      ((keysOf g).filter fun k => decide (k.2 = n)).length := by
  unfold Network.edgesDirected keysOf
  rw [List.length_map, List.filter_map, List.length_map]
  rfl

theorem keysOf_addEdge_of_not_contains {N E : Type} [DecidableEq N]
    (g : GraphMap N E) (a b : N) (w : E) (h : g.containsEdge a b = false) :
    keysOf (g.addEdge a b w) = keysOf g ++ [(a, b)] := by
  unfold keysOf
  rw [GraphMap.addEdge_edges_of_not_contains g a b w h, List.map_append]
  rfl

theorem keysOf_removeEdge_subset {N E : Type} [DecidableEq N]
    (g : GraphMap N E) (a b : N) {k : N × N} (h : k ∈ keysOf (g.removeEdge a b)) :
    k ∈ keysOf g := by
  unfold keysOf at h ⊢
  rcases List.mem_map.mp h with ⟨e, he, rfl⟩
  exact List.mem_map.mpr ⟨e, List.mem_of_mem_filter he, rfl⟩

theorem keysOf_foldl_removeEdge_subset {N E : Type} [DecidableEq N]
    (pooled : List (N × N)) :
    ∀ (g : GraphMap N E) (k : N × N),
      k ∈ keysOf (pooled.foldl (fun g2 e => g2.removeEdge e.1 e.2) g) → k ∈ keysOf g := by
  induction pooled with
  | nil => intro g k h; exact h
  | cons e rest ih =>
    intro g k h
    exact keysOf_removeEdge_subset g e.1 e.2 (ih (g.removeEdge e.1 e.2) k h)

theorem foldl_addNode_edges {N E α : Type} [DecidableEq N] (f : α → N) (l : List α) :
    ∀ g : GraphMap N E, (l.foldl (fun g2 n => g2.addNode (f n)) g).edges = g.edges := by
  induction l with
  | nil => intro g; rfl
  | cons n rest ih =>
    intro g
    rw [List.foldl_cons, ih, GraphMap.addNode_edges]

/-- Every edge key of a graph obtained by adding only left-tagged edges to a
left-tagged graph is a pair of left tags. -/
def InlKeys {E S : Type} [DecidableEq S] (g : GraphMap (ℕ ⊕ S) E) : Prop :=
  ∀ k ∈ keysOf g, (∃ a, k.1 = Sum.inl a) ∧ ∃ b, k.2 = Sum.inl b

theorem inlKeys_addEdge {E S : Type} [DecidableEq S] {g : GraphMap (ℕ ⊕ S) E}
    (hg : InlKeys g) (a b : ℕ) (w : E) :
    InlKeys (g.addEdge (Sum.inl a) (Sum.inl b) w) := by
  intro k hk
  by_cases hc : g.containsEdge (Sum.inl a) (Sum.inl b) = true
  · have : keysOf (g.addEdge (Sum.inl a) (Sum.inl b) w) = keysOf g :=
      GraphMap.addEdge_keys_of_contains g _ _ w hc
    rw [this] at hk
    exact hg k hk
  · rw [keysOf_addEdge_of_not_contains g _ _ w (by simpa using hc)] at hk
    rcases List.mem_append.mp hk with hk0 | hk0
    · exact hg k hk0
    · have : k = (Sum.inl a, Sum.inl b) := by simpa using hk0
      subst this
      exact ⟨⟨a, rfl⟩, ⟨b, rfl⟩⟩

theorem inlKeys_cast {E S : Type} [DecidableEq S] (net : Network E Empty) :
    InlKeys (@Network.cast_over_never E S _ net).graph := by
  unfold Network.cast_over_never
  simp only
  have hbase : InlKeys ((net.graph.nodes.foldl
      (fun g n => g.addNode (Network.castNode n)) GraphMap.empty : GraphMap (ℕ ⊕ S) E)) := by
    intro k hk
    unfold keysOf at hk
    rw [foldl_addNode_edges Network.castNode] at hk
    cases hk
  have hstep : ∀ (l : List ((ℕ ⊕ Empty) × (ℕ ⊕ Empty) × E))
      (g : GraphMap (ℕ ⊕ S) E), InlKeys g →
      InlKeys (l.foldl (fun g2 e => g2.addEdge (Network.castNode e.1) (Network.castNode e.2.1) e.2.2) g) := by
    intro l
    induction l with
    | nil => intro g hg; exact hg
    | cons e rest ih =>
      intro g hg
      rw [List.foldl_cons]
      apply ih
      have h1 : ∃ a, (Network.castNode e.1 : ℕ ⊕ S) = Sum.inl a := by
        rcases e.1 with a | v
        · exact ⟨a, rfl⟩
        · exact v.elim
      have h2 : ∃ b, (Network.castNode e.2.1 : ℕ ⊕ S) = Sum.inl b := by
        rcases e.2.1 with b | v
        · exact ⟨b, rfl⟩
        · exact v.elim
      rcases h1 with ⟨a, ha⟩
      rcases h2 with ⟨b, hb⟩
      rw [ha, hb]
      exact inlKeys_addEdge hg a b e.2.2
  exact hstep net.graph.edges _ hbase

theorem resolveEndpoints_facts (m : BiMap) (require : Bool) :
    ∀ (names : List String) (ids : List ℕ),
      Interactome.resolveEndpoints m require names = Except.ok ids →
      (∀ i ∈ ids, ∃ nm ∈ names, m.getByLeft nm = some i) ∧
      (names.Nodup → ids.Nodup) := by
  intro names
  induction names with
  | nil =>
    intro ids h
    cases h
    exact ⟨fun i hi => absurd hi (List.not_mem_nil _), fun _ => List.nodup_nil⟩
  | cons nm rest ih =>
    intro ids h
    unfold Interactome.resolveEndpoints at h
    rcases hg : m.getByLeft nm with _ | i
    · rw [hg] at h
      by_cases hr : require = true
      · rw [if_pos hr] at h
        cases h
      · rw [if_neg hr] at h
        obtain ⟨hmem, hnd⟩ := ih ids h
        refine ⟨fun i hi => ?_, fun hnodup => hnd (List.Nodup.of_cons hnodup)⟩
        obtain ⟨nm2, hnm2, hl⟩ := hmem i hi
        exact ⟨nm2, List.mem_cons_of_mem _ hnm2, hl⟩
    · rw [hg] at h
      rcases hrest : Interactome.resolveEndpoints m require rest with e | restIds
      · rw [hrest] at h
        cases h
      · rw [hrest] at h
        cases h
        obtain ⟨hmem, hnd⟩ := ih restIds hrest
        constructor
        · intro j hj
          rcases List.mem_cons.mp hj with rfl | hj0
          · exact ⟨nm, List.mem_cons_self _ _, hg⟩
          · obtain ⟨nm2, hnm2, hl⟩ := hmem j hj0
            exact ⟨nm2, List.mem_cons_of_mem _ hnm2, hl⟩
        · intro hnodup
          rcases List.nodup_cons.mp hnodup with ⟨hnin, hnd2⟩
          refine List.nodup_cons.mpr ⟨?_, hnd hnd2⟩
          intro hmem2
          obtain ⟨nm2, hnm2, hl⟩ := hmem i hmem2
          have : nm2 = nm := BiMap.getByLeft_inj hl hg
          subst this
          exact hnin hnm2

theorem foldl_addSource_keys {E S : Type} [DecidableEq S] [Inhabited E]
    (ss : S) :
    ∀ (ids : List ℕ) (g : GraphMap (ℕ ⊕ S) E), ids.Nodup →
      (∀ i ∈ ids, (Sum.inr ss, Sum.inl i) ∉ keysOf g) →
      keysOf (ids.foldl (fun g2 s => g2.addEdge (Sum.inr ss) (Sum.inl s) default) g) =
        keysOf g ++ ids.map fun s => ((Sum.inr ss : ℕ ⊕ S), (Sum.inl s : ℕ ⊕ S)) := by
  intro ids
  induction ids with
  | nil => intro g _ _; simp
  | cons i rest ih =>
    intro g hnd hfresh
    rcases List.nodup_cons.mp hnd with ⟨hnin, hnd2⟩
    have hc : g.containsEdge (Sum.inr ss) (Sum.inl i) = false := by
      rw [Bool.eq_false_iff]
      intro hcc
      exact hfresh i (List.mem_cons_self _ _) ((GraphMap.containsEdge_iff g _ _).mp hcc)
    rw [List.foldl_cons, ih (g.addEdge (Sum.inr ss) (Sum.inl i) default) hnd2 ?fresh]
    · rw [keysOf_addEdge_of_not_contains g _ _ default hc]
      simp [List.append_assoc]
    case fresh =>
      intro j hj
      rw [keysOf_addEdge_of_not_contains g _ _ default hc]
      intro hmem
      rcases List.mem_append.mp hmem with h0 | h0
      · exact hfresh j (List.mem_cons_of_mem _ hj) h0
      · have : j = i := by
          have := (by simpa using h0 : (Sum.inl j : ℕ ⊕ S) = Sum.inl i)
          simpa using this
        subst this
        exact hnin hj

theorem foldl_addTarget_keys {E S : Type} [DecidableEq S] [Inhabited E]
    (st : S) :
    ∀ (ids : List ℕ) (g : GraphMap (ℕ ⊕ S) E), ids.Nodup →
      (∀ i ∈ ids, (Sum.inl i, Sum.inr st) ∉ keysOf g) →
      keysOf (ids.foldl (fun g2 t => g2.addEdge (Sum.inl t) (Sum.inr st) default) g) =
        keysOf g ++ ids.map fun t => ((Sum.inl t : ℕ ⊕ S), (Sum.inr st : ℕ ⊕ S)) := by
  intro ids
  induction ids with
  | nil => intro g _ _; simp
  | cons i rest ih =>
    intro g hnd hfresh
    rcases List.nodup_cons.mp hnd with ⟨hnin, hnd2⟩
    have hc : g.containsEdge (Sum.inl i) (Sum.inr st) = false := by
      rw [Bool.eq_false_iff]
      intro hcc
      exact hfresh i (List.mem_cons_self _ _) ((GraphMap.containsEdge_iff g _ _).mp hcc)
    rw [List.foldl_cons, ih (g.addEdge (Sum.inl i) (Sum.inr st) default) hnd2 ?fresh]
    · rw [keysOf_addEdge_of_not_contains g _ _ default hc]
      simp [List.append_assoc]
    case fresh =>
      intro j hj
      rw [keysOf_addEdge_of_not_contains g _ _ default hc]
      intro hmem
      rcases List.mem_append.mp hmem with h0 | h0
      · exact hfresh j (List.mem_cons_of_mem _ hj) h0
      · have : j = i := by
          have := (by simpa using h0 : (Sum.inl j : ℕ ⊕ S) = Sum.inl i)
          simpa using this
        subst this
        exact hnin hj

theorem pruneCollect_ok_of_present {E S : Type} [DecidableEq S]
    (net : Network E S) (dir : Direction) (req : Bool) :
    ∀ names : List String,
      (∀ nm ∈ names, (net.id_map.getByLeft nm).isSome = true) →
      ∃ l, Network.pruneCollect net dir req names = Except.ok l := by
  intro names
  induction names with
  | nil => intro h; exact ⟨[], rfl⟩
  | cons nm rest ih =>
    intro h
    obtain ⟨i, hi⟩ := Option.isSome_iff_exists.mp (h nm (List.mem_cons_self _ _))
    obtain ⟨l, hl⟩ := ih fun nm2 h2 => h nm2 (List.mem_cons_of_mem _ h2)
    refine ⟨Network.edgesDirected net.graph (Sum.inl i) dir ++ l, ?_⟩
    unfold Network.pruneCollect
    rw [hi, hl]

theorem pruneCollect_error_of_missing {E S : Type} [DecidableEq S]
    (net : Network E S) (dir : Direction) :
    ∀ names : List String,
      (∃ nm ∈ names, net.id_map.getByLeft nm = none) →
      ∃ nm, nm ∈ names ∧ net.id_map.getByLeft nm = none ∧
        Network.pruneCollect net dir true names = Except.error ⟨nm⟩ := by
  intro names
  induction names with
  | nil =>
    rintro ⟨nm, hmem, _⟩
    exact absurd hmem (List.not_mem_nil _)
  | cons nm rest ih =>
    rintro ⟨nm0, hmem0, hmiss0⟩
    rcases hg : net.id_map.getByLeft nm with _ | i
    · refine ⟨nm, List.mem_cons_self _ _, hg, ?_⟩
      unfold Network.pruneCollect
      rw [hg]
      rfl
    · have hmem2 : ∃ nm2 ∈ rest, net.id_map.getByLeft nm2 = none := by
        rcases List.mem_cons.mp hmem0 with rfl | h0
        · rw [hg] at hmiss0
          cases hmiss0
        · exact ⟨nm0, h0, hmiss0⟩
      obtain ⟨nm2, hnm2, hmiss2, hpc⟩ := ih hmem2
      refine ⟨nm2, List.mem_cons_of_mem _ hnm2, hmiss2, ?_⟩
      unfold Network.pruneCollect
      rw [hg, hpc]

theorem prune_ok_of_present {E S : Type} [DecidableEq S]
    (net : Network E S) (names : List String) (dir : Direction) (req : Bool)
    (h : ∀ nm ∈ names, (net.id_map.getByLeft nm).isSome = true) :
    ∃ net2, Network.prune net names dir req = Except.ok net2 ∧
      net2.id_map = net.id_map ∧
      (∀ k ∈ keysOf net2.graph, k ∈ keysOf net.graph) := by
  obtain ⟨l, hl⟩ := pruneCollect_ok_of_present net dir req names h
  refine ⟨{ net with graph := l.foldl (fun g e => g.removeEdge e.1 e.2) net.graph },
    ?_, rfl, ?_⟩
  · unfold Network.prune
    rw [hl]
  · intro k hk
    exact keysOf_foldl_removeEdge_subset l net.graph k hk

theorem prune_error_of_missing {E S : Type} [DecidableEq S]
    (net : Network E S) (names : List String) (dir : Direction)
    (h : ∃ nm ∈ names, net.id_map.getByLeft nm = none) :
    ∃ nm, nm ∈ names ∧ net.id_map.getByLeft nm = none ∧
      Network.prune net names dir true = Except.error ⟨nm⟩ := by
  obtain ⟨nm, hmem, hmiss, hpc⟩ := pruneCollect_error_of_missing net dir names h
  refine ⟨nm, hmem, hmiss, ?_⟩
  unfold Network.prune
  rw [hpc]

theorem prune_ok_structure {E S : Type} [DecidableEq S]
    {net net2 : Network E S} {names : List String} {dir : Direction} {req : Bool}
    (h : Network.prune net names dir req = Except.ok net2) :
    net2.id_map = net.id_map ∧ ∀ k ∈ keysOf net2.graph, k ∈ keysOf net.graph := by
  unfold Network.prune at h
  rcases hpc : Network.pruneCollect net dir req names with e | pooled
  · rw [hpc] at h
    cases h
  · rw [hpc] at h
    cases h
    exact ⟨rfl, fun k hk => keysOf_foldl_removeEdge_subset pooled net.graph k hk⟩

theorem attachBase_id_map {E : Type} (network : Network E Empty) :
    (Interactome.attachBase network).id_map = network.id_map := rfl

theorem attachBase_keys {E : Type} (network : Network E Empty) :
    keysOf (Interactome.attachBase network).graph =
      keysOf (Network.cast_over_never network : Network E SuperNode).graph := by
  unfold Interactome.attachBase keysOf
  simp only
  rw [GraphMap.addNode_edges, GraphMap.addNode_edges]

theorem inlKeys_attachBase {E : Type} (network : Network E Empty) :
    InlKeys (Interactome.attachBase network).graph := by
  intro k hk
  rw [attachBase_keys] at hk
  exact inlKeys_cast network k hk

theorem inlKeys_of_subset {E S : Type} [DecidableEq S] {g g2 : GraphMap (ℕ ⊕ S) E}
    (hsub : ∀ k ∈ keysOf g2, k ∈ keysOf g) (hg : InlKeys g) : InlKeys g2 :=
  fun k hk => hg k (hsub k hk)

theorem inl_keys_filter_fst {E S : Type} [DecidableEq S] {g : GraphMap (ℕ ⊕ S) E}
    (hg : InlKeys g) (c : S) :
    (keysOf g).filter (fun k => decide (k.1 = Sum.inr c)) = [] := by
  rw [List.filter_eq_nil_iff]
  intro k hk
  obtain ⟨⟨a, ha⟩, _⟩ := hg k hk
  simp [ha]

theorem inl_keys_filter_snd {E S : Type} [DecidableEq S] {g : GraphMap (ℕ ⊕ S) E}
    (hg : InlKeys g) (c : S) :
    (keysOf g).filter (fun k => decide (k.2 = Sum.inr c)) = [] := by
  rw [List.filter_eq_nil_iff]
  intro k hk
  obtain ⟨_, ⟨b, hb⟩⟩ := hg k hk
  simp [hb]

theorem length_filter_map_eq_self {α β : Type} (f : α → β) (p : β → Bool) (l : List α)
    (h : ∀ a, p (f a) = true) : ((l.map f).filter p).length = l.length := by
  have hall : ∀ b ∈ l.map f, p b = true := by
    intro b hb
    rcases List.mem_map.mp hb with ⟨a, _, rfl⟩
    exact h a
  rw [List.filter_eq_self.mpr hall, List.length_map]

theorem length_filter_map_eq_zero {α β : Type} (f : α → β) (p : β → Bool) (l : List α)
    (h : ∀ a, p (f a) = false) : ((l.map f).filter p).length = 0 := by
  have hall : ∀ b ∈ l.map f, ¬p b = true := by
    intro b hb
    rcases List.mem_map.mp hb with ⟨a, _, rfl⟩
    simp [h a]
  rw [List.filter_eq_nil_iff.mpr hall]
  rfl

/-- The out-degree of `SuperSource` in the graph of a successfully attached
interactome (`none` when `attach_sources_and_targets` errors). -/
def ssOutDegreeOf {E : Type} : Except InteractomeAttachError (Interactome E) → Option ℕ
  | Except.ok inter => some (Network.edgesDirected inter.inner_network.graph
      (Sum.inr SuperNode.source) Direction.outgoing).length
  | Except.error _ => none

/-!  The growth engine of `alg/grow.rs`. -/

/-- The edge relation of a graph: `(a, b)` is a directed edge key. -/
def EdgeRel {N E : Type} [DecidableEq N] (g : GraphMap N E) (a b : N) : Prop :=
  (a, b) ∈ keysOf g

/-- Rust `GrowthCache` from `alg/grow.rs`. -/
structure GrowthCache where
  candidate : Network ℚ SuperNode

/-- Rust `GrowthCache::new`. -/
def GrowthCache.new (interactome : Interactome ℚ) : GrowthCache :=
  ⟨interactome.inner_network⟩

/-- One iteration of the candidate-preparation loop of `produce_dag`: remove
the DAG edge, then drop each endpoint that became empty. -/
def pruneCandidateEdge (cand : Network ℚ SuperNode) (e : INode × INode × Unit) :
    Network ℚ SuperNode :=
  let c1 : Network ℚ SuperNode := { cand with graph := cand.graph.removeEdge e.1 e.2.1 }
  let c2 : Network ℚ SuperNode :=
    if c1.is_node_empty e.1 then { c1 with graph := c1.graph.removeNode e.1 } else c1
  if c2.is_node_empty e.2.1 then { c2 with graph := c2.graph.removeNode e.2.1 } else c2

/-- The candidate-preparation loop of `produce_dag` over the DAG's edge list. -/
def prepareCandidate (cand : Network ℚ SuperNode)
    (dagEdges : List (INode × INode × Unit)) : Network ℚ SuperNode :=
  dagEdges.foldl pruneCandidateEdge cand

/-- Insert-or-replace into the `all_targets` map (Rust `HashMap::insert`). -/
def targetsInsert (m : List (INode × List INode)) (k : INode) (v : List INode) :
    List (INode × List INode) :=
  if (m.find? fun ent => decide (ent.1 = k)).isSome then
    m.map fun ent => if ent.1 = k then (k, v) else ent
  else m ++ [(k, v)]

/-- The state threaded through the per-node loop of `produce_dag`: the mutable
candidate of the growth cache, the shared parent map, and `all_targets`. -/
structure PDState where
  candidate : Network ℚ SuperNode
  paths_parents : Paths INode
  all_targets : List (INode × List INode)

/-- The body of `for (idx, node_id) in nodes.into_iter().enumerate()` in
`produce_dag`; `none` models the `name_from_idx(..).unwrap()` panic and a
diverging `calculate_paths`. -/
def produceDagNodeStep (cpFuel : ℕ) (dag : PartialDag Unit) (st : PDState)
    (node_id : INode) : Option PDState :=
  match dag.toInteractome.name_from_idx node_id with
  | none => none
  | some _ =>
    if dag.toInteractome.inner_network.graph.containsEdge node_id
        (Sum.inr SuperNode.target) then
      let pp2 := pathsInsert st.paths_parents (node_id, Sum.inr SuperNode.target)
        (none, none)
      some { st with paths_parents := pp2 }
    else if !(st.candidate.graph.containsNode node_id) then
      some st
    else
      let ancestors := get_ancestors dag.toInteractome.inner_network.graph node_id
      let cand2 : Network ℚ SuperNode := { st.candidate with
        graph := ancestors.foldl (fun g a => g.removeNode a) st.candidate.graph }
      let targets := dag.toInteractome.inner_network.graph.nodes.filter fun n =>
        decide (n ≠ node_id) && decide (n ∉ ancestors)
      match calculate_paths cpFuel st.paths_parents cand2.graph node_id targets targets with
      | none => none
      | some paths2 =>
        some ⟨cand2, paths2, targetsInsert st.all_targets node_id targets⟩

/-- The parent step of the path-reconstruction loop of `produce_dag`:
`paths_parents.get(&(source, current)).and_then(|val| val.1)`. -/
def parentNext {V : Type} [DecidableEq V] (pp : Paths V) (s v : V) : Option V :=
  (pathsLookup pp (s, v)).bind fun ent => ent.2

/-- The `while let Some(current_parent) = current_loop_parent` walk of
`produce_dag`, collecting the nodes in visit order; `none` models divergence
on a cyclic parent chain. -/
def walkOrbit {V : Type} [DecidableEq V] (pp : Paths V) (s : V) :
    ℕ → V → Option (List V)
  | 0, _ => none
  | fuel + 1, cur =>
    match parentNext pp s cur with
    | none => some [cur]
    | some nxt => (walkOrbit pp s fuel nxt).map fun l => cur :: l

/-- The `for target in targets` path-reconstruction loop of `produce_dag`:
walk the parent chain, skip walks shorter than 2 nodes, reverse the rest. -/
def collectPaths (pp : Paths INode) (wFuel : ℕ) (s : INode) :
    List INode → Option (List (List INode))
  | [] => some []
  | t :: ts =>
    match walkOrbit pp s wFuel t with
    | none => none
    | some c =>
      match collectPaths pp wFuel s ts with
      | none => none
      | some rest =>
        if c.length < 2 then some rest else some (c.reverse :: rest)

/-- The `flat_map` over `all_targets` of `produce_dag` (the `HashMap`
iteration order is modelled as insertion order). -/
def allPaths (pp : Paths INode) (wFuel : ℕ) :
    List (INode × List INode) → Option (List (List INode))
  | [] => some []
  | (s, ts) :: rest =>
    match collectPaths pp wFuel s ts with
    | none => none
    | some ps =>
      match allPaths pp wFuel rest with
      | none => none
      | some rest2 => some (ps ++ rest2)

/-- The `reduce` underlying `Iterator::min_by` (the first of equally minimal
elements is kept). -/
def minByLoop (c : List INode → ℚ) : List INode → List (List INode) → List INode
  | acc, [] => acc
  | acc, x :: xs => minByLoop c (if c x < c acc then x else acc) xs

/-- Rust `paths.into_iter().min_by(..)` over the total order of `f64` costs. -/
def minByCost (c : List INode → ℚ) : List (List INode) → Option (List INode)
  | [] => none
  | x :: xs => some (minByLoop c x xs)

/-- Rust `produce_dag` from `alg/grow.rs`.  The result is the updated growth
cache together with the optional winning `(cost, path)` pair; the Rust
`Result` wrapper is omitted because `calculate_paths` never returns `Err`.
`none` models a panic (`toposort(..).unwrap()` on a cyclic DAG,
`name_from_idx(..).unwrap()`) or divergence of the fuelled loops. -/
def produce_dag (cpFuel wFuel : ℕ)
    (costF : Interactome ℚ → PartialDag Unit → List INode → ℚ)
    (interactome : Interactome ℚ) (dag : PartialDag Unit) (cache : GrowthCache) :
    Option (GrowthCache × Option (ℚ × List INode)) :=
  let cand1 := prepareCandidate cache.candidate
    dag.toInteractome.inner_network.graph.edges
  match toposort dag.toInteractome.inner_network.graph with
  | none => none
  | some nodes =>
    match nodes.foldl
        (fun acc n =>
          match acc with
          | none => none
          | some st => produceDagNodeStep cpFuel dag st n)
        (some ⟨cand1, [], []⟩) with
    | none => none
    | some st =>
      match allPaths st.paths_parents wFuel st.all_targets with
      | none => none
      | some paths =>
        some (⟨st.candidate⟩,
          (minByCost (costF interactome dag) paths).map fun best =>
            (costF interactome dag best, best))

/-- Rust `grow` from `alg/grow.rs`: run `produce_dag` and graft the winning
path into the DAG, one edge per consecutive pair (the same
`0..len - 1` loop as in `cost.rs`, with the same wrap-around on an empty
path). -/
def grow (cpFuel wFuel : ℕ)
    (costF : Interactome ℚ → PartialDag Unit → List INode → ℚ)
    (interactome : Interactome ℚ) (dag : PartialDag Unit) (cache : GrowthCache) :
    Option ((PartialDag Unit × GrowthCache) × Option (ℚ × List INode)) :=
  match produce_dag cpFuel wFuel costF interactome dag cache with
  | none => none
  | some (cache2, none) => some ((dag, cache2), none)
  | some (cache2, some (w, best)) =>
    match addPathEdgesGo best (usizeLoopBound best.length) 0
        dag.toInteractome.inner_network.graph with
    | none => none
    | some g2 =>
      some ((⟨{ dag.toInteractome with
          inner_network := { dag.toInteractome.inner_network with graph := g2 } }⟩,
        cache2), some (w, best))

theorem mem_keysOf_addEdge {N E : Type} [DecidableEq N]
    (g : GraphMap N E) (a b : N) (w : E) (x y : N) :
    (x, y) ∈ keysOf (g.addEdge a b w) ↔ (x, y) ∈ keysOf g ∨ (x = a ∧ y = b) := by
  by_cases hc : g.containsEdge a b = true
  · have hk : keysOf (g.addEdge a b w) = keysOf g :=
      GraphMap.addEdge_keys_of_contains g a b w hc
    rw [hk]
    constructor
    · exact Or.inl
    · rintro (h | ⟨rfl, rfl⟩)
      · exact h
      · exact (GraphMap.containsEdge_iff g x y).mp hc
  · rw [keysOf_addEdge_of_not_contains g a b w (by simpa using hc), List.mem_append]
    constructor
    · rintro (h | h)
      · exact Or.inl h
      · have h2 : ((x, y) : N × N) = (a, b) := by simpa using h
        exact Or.inr ⟨congrArg Prod.fst h2, congrArg Prod.snd h2⟩
    · rintro (h | ⟨rfl, rfl⟩)
      · exact Or.inl h
      · simp

theorem keysOf_removeNode_subset {N E : Type} [DecidableEq N]
    (g : GraphMap N E) (n : N) {k : N × N} (h : k ∈ keysOf (g.removeNode n)) :
    k ∈ keysOf g := by
  unfold keysOf at h ⊢
  unfold GraphMap.removeNode at h
  simp only at h
  rcases List.mem_map.mp h with ⟨e, he, rfl⟩
  exact List.mem_map.mpr ⟨e, List.mem_of_mem_filter he, rfl⟩

theorem keysOf_foldl_removeNode_subset {N E : Type} [DecidableEq N]
    (l : List N) :
    ∀ (g : GraphMap N E) (k : N × N),
      k ∈ keysOf (l.foldl (fun g2 a => g2.removeNode a) g) → k ∈ keysOf g := by
  induction l with
  | nil => intro g k h; exact h
  | cons a rest ih =>
    intro g k h
    exact keysOf_removeNode_subset g a (ih (g.removeNode a) k h)

theorem removeNode_nodes_not_mem {N E : Type} [DecidableEq N]
    (g : GraphMap N E) (n : N) : n ∉ (g.removeNode n).nodes := by
  unfold GraphMap.removeNode
  simp only
  intro h
  have := List.of_mem_filter h
  simp at this

theorem removeNode_nodes_subset {N E : Type} [DecidableEq N]
    (g : GraphMap N E) (n : N) {m : N} (h : m ∈ (g.removeNode n).nodes) :
    m ∈ g.nodes :=
  List.mem_of_mem_filter h

theorem foldl_removeNode_nodes_subset {N E : Type} [DecidableEq N]
    (l : List N) :
    ∀ (g : GraphMap N E) {m : N},
      m ∈ (l.foldl (fun g2 x => g2.removeNode x) g).nodes → m ∈ g.nodes := by
  induction l with
  | nil => intro g m h; exact h
  | cons x rest ih =>
    intro g m h
    exact removeNode_nodes_subset g x (ih (g.removeNode x) h)

theorem foldl_removeNode_not_mem {N E : Type} [DecidableEq N]
    (l : List N) :
    ∀ (g : GraphMap N E) (a : N), a ∈ l →
      a ∉ (l.foldl (fun g2 x => g2.removeNode x) g).nodes := by
  induction l with
  | nil => intro g a h; cases h
  | cons x rest ih =>
    intro g a h
    rcases List.mem_cons.mp h with rfl | h0
    · intro hmem
      exact removeNode_nodes_not_mem g a (foldl_removeNode_nodes_subset rest _ hmem)
    · exact ih (g.removeNode x) a h0

theorem keysOf_pruneCandidateEdge_subset (cand : Network ℚ SuperNode)
    (e : INode × INode × Unit) {k : INode × INode}
    (h : k ∈ keysOf (pruneCandidateEdge cand e).graph) : k ∈ keysOf cand.graph := by
  unfold pruneCandidateEdge at h
  dsimp only at h
  split_ifs at h
  · exact keysOf_removeEdge_subset _ _ _
      (keysOf_removeNode_subset _ _ (keysOf_removeNode_subset _ _ h))
  · exact keysOf_removeEdge_subset _ _ _ (keysOf_removeNode_subset _ _ h)
  · exact keysOf_removeEdge_subset _ _ _ (keysOf_removeNode_subset _ _ h)
  · exact keysOf_removeEdge_subset _ _ _ h

theorem keysOf_prepareCandidate_subset (l : List (INode × INode × Unit)) :
    ∀ (c : Network ℚ SuperNode) (k : INode × INode),
      k ∈ keysOf (prepareCandidate c l).graph → k ∈ keysOf c.graph := by
  induction l with
  | nil => intro c k h; exact h
  | cons e rest ih =>
    intro c k h
    exact keysOf_pruneCandidateEdge_subset c e (ih (pruneCandidateEdge c e) k h)

theorem transGen_mono_keys {N E : Type} [DecidableEq N] {g g2 : GraphMap N E}
    (hsub : ∀ k ∈ keysOf g2, k ∈ keysOf g) {a b : N}
    (h : Relation.TransGen (EdgeRel g2) a b) : Relation.TransGen (EdgeRel g) a b :=
  Relation.TransGen.mono (fun x y hxy => hsub (x, y) hxy) h

theorem heapPopMin_mem {V : Type} :
    ∀ (l : List (ℚ × V)) (m : ℚ × V) (rest : List (ℚ × V)),
      heapPopMin l = some (m, rest) → m ∈ l ∧ ∀ y ∈ rest, y ∈ l := by
  intro l
  induction l with
  | nil => intro m rest h; cases h
  | cons x xs ih =>
    intro m rest h
    unfold heapPopMin at h
    rcases hr : heapPopMin xs with _ | ⟨m2, rest2⟩
    · rw [hr] at h
      dsimp only at h
      cases h
      exact ⟨List.mem_cons_self _ _, fun y hy => absurd hy (List.not_mem_nil _)⟩
    · rw [hr] at h
      dsimp only at h
      obtain ⟨hm2, hrest2⟩ := ih m2 rest2 hr
      by_cases hle : x.1 ≤ m2.1
      · rw [if_pos hle] at h
        cases h
        exact ⟨List.mem_cons_self _ _, fun y hy => List.mem_cons_of_mem _ hy⟩
      · rw [if_neg hle] at h
        cases h
        refine ⟨List.mem_cons_of_mem _ hm2, fun y hy => ?_⟩
        rcases List.mem_cons.mp hy with rfl | hy0
        · exact List.mem_cons_self _ _
        · exact List.mem_cons_of_mem _ (hrest2 y hy0)

theorem minByLoop_mem (c : List INode → ℚ) :
    ∀ (xs : List (List INode)) (acc : List INode),
      minByLoop c acc xs = acc ∨ minByLoop c acc xs ∈ xs := by
  intro xs
  induction xs with
  | nil => intro acc; exact Or.inl rfl
  | cons x rest ih =>
    intro acc
    unfold minByLoop
    by_cases hlt : c x < c acc
    · rw [if_pos hlt]
      rcases ih x with h | h
      · exact Or.inr (by rw [h]; exact List.mem_cons_self _ _)
      · exact Or.inr (List.mem_cons_of_mem _ h)
    · rw [if_neg hlt]
      rcases ih acc with h | h
      · exact Or.inl h
      · exact Or.inr (List.mem_cons_of_mem _ h)

theorem minByCost_mem (c : List INode → ℚ) (l : List (List INode)) (m : List INode)
    (h : minByCost c l = some m) : m ∈ l := by
  cases l with
  | nil => cases h
  | cons x xs =>
    unfold minByCost at h
    injection h with h
    subst h
    rcases minByLoop_mem c xs x with h2 | h2
    · rw [h2]
      exact List.mem_cons_self _ _
    · exact List.mem_cons_of_mem _ h2

theorem find_map_replace_self {V : Type} [DecidableEq V] :
    ∀ (p : Paths V) (k : V × V) (v : Option ℚ × Option V),
      (p.find? fun ent => decide (ent.1 = k)).isSome = true →
      ((p.map fun ent => if ent.1 = k then (k, v) else ent).find?
        fun ent => decide (ent.1 = k)) = some (k, v) := by
  intro p
  induction p with
  | nil => intro k v h; simp [List.find?] at h
  | cons e rest ih =>
    intro k v h
    by_cases hk : e.1 = k
    · simp only [List.map_cons, if_pos hk]
      rw [List.find?_cons_of_pos _ (by simp)]
    · simp only [List.map_cons, if_neg hk]
      rw [List.find?_cons_of_neg _ (by simp [hk])]
      apply ih
      rw [List.find?_cons_of_neg _ (by simp [hk])] at h
      exact h

theorem pathsLookup_insert_self {V : Type} [DecidableEq V] (p : Paths V)
    (k : V × V) (v : Option ℚ × Option V) :
    pathsLookup (pathsInsert p k v) k = some v := by
  unfold pathsInsert pathsLookup
  by_cases hs : (p.find? fun ent => decide (ent.1 = k)).isSome
  · rw [if_pos hs, find_map_replace_self p k v hs]
    rfl
  · rw [if_neg hs]
    have hn : (p.find? fun ent => decide (ent.1 = k)) = none := by
      rcases ho : p.find? fun ent => decide (ent.1 = k) with _ | e
      · exact ho
      · rw [ho] at hs
        simp at hs
    rw [find_append_of_none _ hn]
    simp [List.find?]

theorem pairList_snoc :
    ∀ (xs : List INode) (w y : INode),
      pairList (xs ++ [w] ++ [y]) = pairList (xs ++ [w]) ++ [(w, y)] := by
  intro xs
  induction xs with
  | nil => intro w y; rfl
  | cons x xs2 ih =>
    intro w y
    cases xs2 with
    | nil => rfl
    | cons x2 t =>
      have h1 : pairList ((x :: x2 :: t) ++ [w] ++ [y]) =
          (x, x2) :: pairList ((x2 :: t) ++ [w] ++ [y]) := rfl
      have h2 : pairList ((x :: x2 :: t) ++ [w]) =
          (x, x2) :: pairList ((x2 :: t) ++ [w]) := rfl
      rw [h1, h2, ih w y]
      rfl

theorem pairList_reverse :
    ∀ q : List INode,
      pairList q.reverse = ((pairList q).map fun p => (p.2, p.1)).reverse := by
  intro q
  induction q with
  | nil => rfl
  | cons x q2 ih =>
    cases q2 with
    | nil => rfl
    | cons y t =>
      rw [List.reverse_cons, show (y :: t).reverse = t.reverse ++ [y] from
        List.reverse_cons y t, pairList_snoc, ← List.reverse_cons y t, ih]
      rw [pairList_cons, List.map_cons, List.reverse_cons]

theorem pairList_mem_reverse (c : List INode) (a b : INode) :
    (a, b) ∈ pairList c.reverse ↔ (b, a) ∈ pairList c := by
  rw [pairList_reverse, List.mem_reverse, List.mem_map]
  constructor
  · rintro ⟨⟨p1, p2⟩, hmem, heq⟩
    have ha : p2 = a := congrArg Prod.fst heq
    have hb : p1 = b := congrArg Prod.snd heq
    rw [← ha, ← hb]
    exact hmem
  · intro h
    exact ⟨(b, a), h, rfl⟩

theorem pairList_mem_of_getElem :
    ∀ (nodes : List INode) (i : ℕ) {a b : INode},
      nodes[i]? = some a → nodes[i + 1]? = some b → (a, b) ∈ pairList nodes := by
  intro nodes
  induction nodes with
  | nil => intro i a b h1 _; simp at h1
  | cons x rest ih =>
    intro i a b h1 h2
    cases i with
    | zero =>
      have hx : x = a := by simpa using h1
      subst hx
      cases rest with
      | nil => simp at h2
      | cons y t =>
        have hy : y = b := by simpa using h2
        subst hy
        rw [pairList_cons]
        exact List.mem_cons_self _ _
    | succ j =>
      have h1a : rest[j]? = some a := by simpa using h1
      have h2a : rest[j + 1]? = some b := by simpa using h2
      have hmem := ih j h1a h2a
      cases rest with
      | nil => simp at h1a
      | cons y t =>
        rw [pairList_cons]
        exact List.mem_cons_of_mem _ hmem

theorem pairList_mem_getElem :
    ∀ (q : List INode) {a b : INode}, (a, b) ∈ pairList q →
      ∃ i : ℕ, q[i]? = some a ∧ q[i + 1]? = some b := by
  intro q
  induction q with
  | nil => intro a b h; cases h
  | cons x rest ih =>
    intro a b h
    cases rest with
    | nil => cases h
    | cons y t =>
      rw [pairList_cons] at h
      rcases List.mem_cons.mp h with heq | h0
      · have ha : a = x := congrArg Prod.fst heq
        have hb : b = y := congrArg Prod.snd heq
        subst ha
        subst hb
        exact ⟨0, by simp, by simp⟩
      · obtain ⟨i, h1, h2⟩ := ih h0
        exact ⟨i + 1, by simpa using h1, by simpa using h2⟩

theorem mem_dropLast_of_pair {q : List INode} {a b : INode}
    (h : (a, b) ∈ pairList q) : a ∈ q.dropLast := by
  obtain ⟨i, h1, h2⟩ := pairList_mem_getElem q h
  obtain ⟨hi1, he1⟩ := List.getElem?_eq_some.mp h1
  obtain ⟨hi2, he2⟩ := List.getElem?_eq_some.mp h2
  have hlt : i < q.dropLast.length := by
    rw [List.length_dropLast]
    omega
  have : q.dropLast[i] = a := by
    rw [List.getElem_dropLast]
    exact he1
  rw [← this]
  exact List.getElem_mem _

theorem pair_of_mem_dropLast {q : List INode} {a : INode} (h : a ∈ q.dropLast) :
    ∃ b, (a, b) ∈ pairList q := by
  obtain ⟨i, hi, he⟩ := List.mem_iff_getElem.mp h
  have hlen : i < q.length - 1 := by
    have := hi
    rw [List.length_dropLast] at this
    exact this
  have hi1 : i < q.length := by omega
  have hi2 : i + 1 < q.length := by omega
  refine ⟨q[i + 1], pairList_mem_of_getElem q i ?_ ?_⟩
  · rw [List.getElem?_eq_getElem hi1]
    rw [← he, List.getElem_dropLast]
  · rw [List.getElem?_eq_getElem hi2]

theorem nodup_indexOf_getElem {q : List INode} (hq : q.Nodup) :
    ∀ (i : ℕ) (h : i < q.length), q.indexOf q[i] = i := by
  induction q with
  | nil => intro i h; simp at h
  | cons x t ih =>
    intro i h
    rcases List.nodup_cons.mp hq with ⟨hx, ht⟩
    cases i with
    | zero => simp
    | succ j =>
      have hj : j < t.length := by simpa using h
      have hne : x ≠ t[j] := by
        intro hcon
        apply hx
        rw [hcon]
        exact List.getElem_mem hj
      rw [List.getElem_cons_succ, List.indexOf_cons_ne _ hne, ih ht j hj]

theorem pair_indexOf_lt {q : List INode} (hq : q.Nodup) {a b : INode}
    (h : (a, b) ∈ pairList q) : q.indexOf a < q.indexOf b := by
  obtain ⟨i, h1, h2⟩ := pairList_mem_getElem q h
  obtain ⟨hi1, he1⟩ := List.getElem?_eq_some.mp h1
  obtain ⟨hi2, he2⟩ := List.getElem?_eq_some.mp h2
  rw [← he1, ← he2, nodup_indexOf_getElem hq i hi1, nodup_indexOf_getElem hq (i + 1) hi2]
  omega

theorem getLast_not_mem_dropLast {q : List INode} (hq : q.Nodup) {t : INode}
    (hlast : q.getLast? = some t) : t ∉ q.dropLast := by
  intro hmem
  obtain ⟨b, hpair⟩ := pair_of_mem_dropLast hmem
  have h1 := pair_indexOf_lt hq hpair
  obtain ⟨i, hi1, hi2⟩ := pairList_mem_getElem q hpair
  obtain ⟨hl1, he1⟩ := List.getElem?_eq_some.mp hi1
  obtain ⟨hl2, he2⟩ := List.getElem?_eq_some.mp hi2
  have hne : q ≠ [] := by
    intro hcon
    rw [hcon] at hlast
    cases hlast
  have hlast2 : q.getLast hne = t := by
    have := List.getLast?_eq_getLast q hne
    rw [this] at hlast
    injection hlast
  have hgl : q[q.length - 1] = t := by
    rw [← List.getLast_eq_getElem]
    exact hlast2
  have hidxt : q.indexOf t = q.length - 1 := by
    rw [← hgl]
    exact nodup_indexOf_getElem hq _ (by omega)
  have hidxa : q.indexOf t = i := by
    rw [← he1]
    exact nodup_indexOf_getElem hq i hl1
  have hbound : q.indexOf b < q.length := by
    rw [← he2]
    rw [nodup_indexOf_getElem hq (i + 1) hl2]
    omega
  omega

theorem addPathEdgesGo_keys (nodes : List INode) :
    ∀ (steps i : ℕ) (g g2 : GraphMap INode Unit),
      addPathEdgesGo nodes steps i g = some g2 →
      ∀ x y, (x, y) ∈ keysOf g2 → (x, y) ∈ keysOf g ∨ (x, y) ∈ pairList nodes := by
  intro steps
  induction steps with
  | zero =>
    intro i g g2 h x y hk
    cases h
    exact Or.inl hk
  | succ k ih =>
    intro i g g2 h x y hk
    unfold addPathEdgesGo at h
    rcases h1 : nodes[i]? with _ | a
    · rw [h1] at h
      dsimp only at h
      cases h
    · rw [h1] at h
      rcases h2 : nodes[i + 1]? with _ | b
      · rw [h2] at h
        dsimp only at h
        cases h
      · rw [h2] at h
        dsimp only at h
        rcases ih (i + 1) (g.addEdge a b ()) g2 h x y hk with h0 | h0
        · rcases (mem_keysOf_addEdge g a b () x y).mp h0 with h3 | ⟨rfl, rfl⟩
          · exact Or.inl h3
          · exact Or.inr (pairList_mem_of_getElem nodes i h1 h2)
        · exact Or.inr h0

theorem walkOrbit_head {V : Type} [DecidableEq V] (pp : Paths V) (s : V) :
    ∀ (fuel : ℕ) (cur : V) (c : List V), walkOrbit pp s fuel cur = some c →
      ∃ rest, c = cur :: rest := by
  intro fuel
  cases fuel with
  | zero => intro cur c h; cases h
  | succ k =>
    intro cur c h
    unfold walkOrbit at h
    rcases hp : parentNext pp s cur with _ | nxt
    · rw [hp] at h
      dsimp only at h
      cases h
      exact ⟨[], rfl⟩
    · rw [hp] at h
      dsimp only at h
      rcases ho : walkOrbit pp s k nxt with _ | l
      · rw [ho] at h
        cases h
      · rw [ho] at h
        cases h
        exact ⟨l, rfl⟩

theorem walkOrbit_fuel_unique {V : Type} [DecidableEq V] (pp : Paths V) (s : V) :
    ∀ (f1 : ℕ) (cur : V) (c1 : List V), walkOrbit pp s f1 cur = some c1 →
      ∀ (f2 : ℕ) (c2 : List V), walkOrbit pp s f2 cur = some c2 → c1 = c2 := by
  intro f1
  induction f1 with
  | zero => intro cur c1 h; cases h
  | succ k ih =>
    intro cur c1 h f2 c2 h2
    cases f2 with
    | zero => cases h2
    | succ k2 =>
      unfold walkOrbit at h h2
      rcases hp : parentNext pp s cur with _ | nxt
      · rw [hp] at h h2
        dsimp only at h h2
        cases h
        cases h2
        rfl
      · rw [hp] at h h2
        dsimp only at h h2
        rcases ho1 : walkOrbit pp s k nxt with _ | l1
        · rw [ho1] at h
          cases h
        rcases ho2 : walkOrbit pp s k2 nxt with _ | l2
        · rw [ho2] at h2
          cases h2
        rw [ho1] at h
        rw [ho2] at h2
        cases h
        cases h2
        rw [ih nxt l1 ho1 k2 l2 ho2]

theorem walkOrbit_mem_sub {V : Type} [DecidableEq V] (pp : Paths V) (s : V) :
    ∀ (fuel : ℕ) (cur : V) (c : List V), walkOrbit pp s fuel cur = some c →
      ∀ v ∈ c, ∃ (f2 : ℕ) (c2 : List V),
        walkOrbit pp s f2 v = some c2 ∧ c2.length ≤ c.length := by
  intro fuel
  induction fuel with
  | zero => intro cur c h; cases h
  | succ k ih =>
    intro cur c h v hv
    unfold walkOrbit at h
    rcases hp : parentNext pp s cur with _ | nxt
    · rw [hp] at h
      dsimp only at h
      cases h
      have : v = cur := by simpa using hv
      subst this
      refine ⟨k + 1, [v], ?_, le_refl _⟩
      unfold walkOrbit
      rw [hp]
    · rw [hp] at h
      dsimp only at h
      rcases ho : walkOrbit pp s k nxt with _ | l
      · rw [ho] at h
        cases h
      rw [ho] at h
      cases h
      rcases List.mem_cons.mp hv with rfl | hv0
      · refine ⟨k + 1, v :: l, ?_, le_refl _⟩
        unfold walkOrbit
        rw [hp]
        dsimp only
        rw [ho]
        rfl
      · obtain ⟨f2, c2, hw2, hlen⟩ := ih nxt l ho v hv0
        exact ⟨f2, c2, hw2, le_trans hlen (by simp)⟩

theorem walkOrbit_nodup {V : Type} [DecidableEq V] (pp : Paths V) (s : V) :
    ∀ (fuel : ℕ) (cur : V) (c : List V), walkOrbit pp s fuel cur = some c →
      c.Nodup := by
  intro fuel
  induction fuel with
  | zero => intro cur c h; cases h
  | succ k ih =>
    intro cur c h
    unfold walkOrbit at h
    rcases hp : parentNext pp s cur with _ | nxt
    · rw [hp] at h
      dsimp only at h
      cases h
      simp
    · rw [hp] at h
      dsimp only at h
      rcases ho : walkOrbit pp s k nxt with _ | l
      · rw [ho] at h
        cases h
      rw [ho] at h
      cases h
      refine List.nodup_cons.mpr ⟨?_, ih nxt l ho⟩
      intro hmem
      obtain ⟨f2, c2, hw2, hlen⟩ := walkOrbit_mem_sub pp s k nxt l ho cur hmem
      have hful : walkOrbit pp s (k + 1) cur = some (cur :: l) := by
        unfold walkOrbit
        rw [hp]
        dsimp only
        rw [ho]
        rfl
      have hceq : c2 = cur :: l :=
        walkOrbit_fuel_unique pp s f2 cur c2 hw2 (k + 1) (cur :: l) hful
      rw [hceq, List.length_cons] at hlen
      omega

theorem walkOrbit_chain (pp : Paths INode) (s : INode) :
    ∀ (fuel : ℕ) (cur : INode) (c : List INode), walkOrbit pp s fuel cur = some c →
      ∀ a b, (a, b) ∈ pairList c → parentNext pp s a = some b := by
  intro fuel
  induction fuel with
  | zero => intro cur c h; cases h
  | succ k ih =>
    intro cur c h a b hm
    unfold walkOrbit at h
    rcases hp : parentNext pp s cur with _ | nxt
    · rw [hp] at h
      dsimp only at h
      cases h
      cases hm
    · rw [hp] at h
      dsimp only at h
      rcases ho : walkOrbit pp s k nxt with _ | l
      · rw [ho] at h
        cases h
      rw [ho] at h
      cases h
      obtain ⟨rest, rfl⟩ := walkOrbit_head pp s k nxt l ho
      rw [pairList_cons] at hm
      rcases List.mem_cons.mp hm with heq | hm0
      · have ha : a = cur := congrArg Prod.fst heq
        have hb : b = nxt := congrArg Prod.snd heq
        rw [ha, hb]
        exact hp
      · exact ih nxt _ ho a b hm0

theorem transGen_single_edge_decompose {N : Type} (R : N → N → Prop) (s t : N) :
    ∀ {a b : N}, Relation.TransGen (fun x y => R x y ∨ (x = s ∧ y = t)) a b →
      Relation.TransGen R a b ∨
        (Relation.ReflTransGen R a s ∧ Relation.ReflTransGen R t b) := by
  intro a b h
  induction h with
  | single hstep =>
    rcases hstep with h0 | ⟨rfl, rfl⟩
    · exact Or.inl (Relation.TransGen.single h0)
    · exact Or.inr ⟨Relation.ReflTransGen.refl, Relation.ReflTransGen.refl⟩
  | tail hab hstep ih =>
    rcases hstep with h0 | ⟨rfl, rfl⟩
    · rcases ih with h1 | ⟨h1, h2⟩
      · exact Or.inl (Relation.TransGen.tail h1 h0)
      · exact Or.inr ⟨h1, Relation.ReflTransGen.tail h2 h0⟩
    · rcases ih with h1 | ⟨h1, h2⟩
      · exact Or.inr ⟨h1.to_reflTransGen, Relation.ReflTransGen.refl⟩
      · exact Or.inr ⟨h1, Relation.ReflTransGen.refl⟩

theorem acyclic_add_single_edge {N : Type} (R : N → N → Prop) (s t : N)
    (hacyc : ∀ v, ¬Relation.TransGen R v v)
    (hts : ¬Relation.ReflTransGen R t s) :
    ∀ v, ¬Relation.TransGen (fun x y => R x y ∨ (x = s ∧ y = t)) v v := by
  intro v h
  rcases transGen_single_edge_decompose R s t h with h1 | ⟨h1, h2⟩
  · exact hacyc v h1
  · exact hts (h2.trans h1)

theorem graft_acyclic (R : INode → INode → Prop) (T : List INode)
    (hRT : ∀ a b, R a b → a ∈ T ∧ b ∈ T)
    (hacyc : ∀ v, ¬Relation.TransGen R v v)
    (s t : INode) (q : List INode) (hq : q.Nodup)
    (hlast : q.getLast? = some t)
    (hts : ¬Relation.ReflTransGen R t s)
    (hmid : ∀ a b, (a, b) ∈ pairList q → a = s ∨ a ∉ T) :
    ∀ v, ¬Relation.TransGen (fun a b => R a b ∨ (a, b) ∈ pairList q) v v := by
  have hfix : ∀ x ∈ T, (if x ∈ q.dropLast then s else x) = x := by
    intro x hx
    by_cases hd : x ∈ q.dropLast
    · rw [if_pos hd]
      obtain ⟨y, hy⟩ := pair_of_mem_dropLast hd
      rcases hmid x y hy with rfl | hnot
      · rfl
      · exact absurd hx hnot
    · rw [if_neg hd]
  have hstep : ∀ a b, (R a b ∨ (a, b) ∈ pairList q) →
      Relation.TransGen (fun x y => R x y ∨ (x = s ∧ y = t))
        (if a ∈ q.dropLast then s else a) (if b ∈ q.dropLast then s else b) ∨
      ((if a ∈ q.dropLast then s else a) = (if b ∈ q.dropLast then s else b) ∧
        a ∈ q.dropLast ∧ b ∈ q.dropLast ∧ q.indexOf a < q.indexOf b) := by
    intro a b hab
    rcases hab with h0 | h0
    · obtain ⟨ha, hb⟩ := hRT a b h0
      rw [hfix a ha, hfix b hb]
      exact Or.inl (Relation.TransGen.single (Or.inl h0))
    · have had : a ∈ q.dropLast := mem_dropLast_of_pair h0
      by_cases hbd : b ∈ q.dropLast
      · exact Or.inr ⟨by rw [if_pos had, if_pos hbd], had, hbd, pair_indexOf_lt hq h0⟩
      · have hbq : b ∈ q := by
          obtain ⟨i, _, h2⟩ := pairList_mem_getElem q h0
          obtain ⟨hl, he⟩ := List.getElem?_eq_some.mp h2
          rw [← he]
          exact List.getElem_mem hl
        have hne : q ≠ [] := by
          intro hcon
          rw [hcon] at hlast
          cases hlast
        have hbt : b = t := by
          have hsplit := List.dropLast_append_getLast hne
          rw [← hsplit] at hbq
          rcases List.mem_append.mp hbq with hmem | hmem
          · exact absurd hmem hbd
          · have hb2 : b = q.getLast hne := List.mem_singleton.mp hmem
            have h2 := List.getLast?_eq_getLast q hne
            rw [h2] at hlast
            injection hlast with h3
            rw [hb2, h3]
        subst hbt
        rw [if_pos had, if_neg (getLast_not_mem_dropLast hq hlast)]
        exact Or.inl (Relation.TransGen.single (Or.inr ⟨rfl, rfl⟩))
  intro v hv
  have hmain : ∀ a b, Relation.TransGen (fun x y => R x y ∨ (x, y) ∈ pairList q) a b →
      Relation.TransGen (fun x y => R x y ∨ (x = s ∧ y = t))
        (if a ∈ q.dropLast then s else a) (if b ∈ q.dropLast then s else b) ∨
      ((if a ∈ q.dropLast then s else a) = (if b ∈ q.dropLast then s else b) ∧
        a ∈ q.dropLast ∧ b ∈ q.dropLast ∧ q.indexOf a < q.indexOf b) := by
    intro a b h
    induction h with
    | single h1 => exact hstep _ _ h1
    | tail h1 h2 ih =>
      rcases hstep _ _ h2 with hs1 | ⟨he, hb2, hc2, hlt2⟩
      · rcases ih with hi1 | ⟨hie, hia, hib, hlt1⟩
        · exact Or.inl (Relation.TransGen.trans hi1 hs1)
        · exact Or.inl (by rw [hie]; exact hs1)
      · rcases ih with hi1 | ⟨hie, hia, hib, hlt1⟩
        · exact Or.inl (by rw [← he]; exact hi1)
        · exact Or.inr ⟨by rw [hie, he], hia, hc2, lt_trans hlt1 hlt2⟩
  rcases hmain v v hv with h1 | ⟨_, _, _, hlt⟩
  · exact acyclic_add_single_edge R s t hacyc hts _ h1
  · exact lt_irrefl _ hlt

/-- Per-call invariant of the parent map: every entry keyed by the call's
source that carries a parent records a graph edge from a non-ignored parent,
and witnesses reachability from the source. -/
def PPInv {V : Type} [DecidableEq V] (g : GraphMap V ℚ) (s : V) (ignore : List V)
    (pp : Paths V) : Prop :=
  ∀ v sc pr, pathsLookup pp (s, v) = some (sc, some pr) →
    EdgeRel g pr v ∧ pr ∉ ignore ∧ Relation.TransGen (EdgeRel g) s v

/-- Every heap entry is the source or reachable from it. -/
def HeapInv {V : Type} [DecidableEq V] (g : GraphMap V ℚ) (s : V)
    (heap : List (ℚ × V)) : Prop :=
  ∀ e ∈ heap, e.2 = s ∨ Relation.TransGen (EdgeRel g) s e.2

theorem relaxEdges_inv {V : Type} [DecidableEq V] (g : GraphMap V ℚ) (s node : V)
    (ignore : List V) (nsc : ℚ) (visited : List V)
    (hni : node ∉ ignore) (hreach : node = s ∨ Relation.TransGen (EdgeRel g) s node) :
    ∀ (es : List (V × V × ℚ)) (pp : Paths V) (heap : List (ℚ × V)),
      (∀ e ∈ es, e.1 = node ∧ EdgeRel g node e.2.1) →
      PPInv g s ignore pp → HeapInv g s heap →
      PPInv g s ignore (relaxEdges s node nsc visited es (pp, heap)).1 ∧
      HeapInv g s (relaxEdges s node nsc visited es (pp, heap)).2 := by
  intro es
  induction es with
  | nil => intro pp heap _ h1 h2; exact ⟨h1, h2⟩
  | cons e rest ih =>
    intro pp heap hes h1 h2
    have hrest : ∀ e2 ∈ rest, e2.1 = node ∧ EdgeRel g node e2.2.1 :=
      fun e2 he2 => hes e2 (List.mem_cons_of_mem _ he2)
    have hmain : EdgeRel g node e.2.1 := (hes e (List.mem_cons_self _ _)).2
    have hreach2 : Relation.TransGen (EdgeRel g) s e.2.1 := by
      rcases hreach with rfl | h0
      · exact Relation.TransGen.single hmain
      · exact Relation.TransGen.tail h0 hmain
    have hins : PPInv g s ignore
        (pathsInsert pp (s, e.2.1) (some (nsc + e.2.2), some node)) := by
      intro v sc pr hlk
      by_cases hv : v = e.2.1
      · subst hv
        rw [pathsLookup_insert_self] at hlk
        injection hlk with hlk
        have hpr : (some node : Option V) = some pr := congrArg Prod.snd hlk
        injection hpr with hpr
        subst hpr
        exact ⟨hmain, hni, hreach2⟩
      · rw [pathsLookup_insert_ne pp _ _ (by simp [hv])] at hlk
        exact h1 v sc pr hlk
    have hheap : HeapInv g s ((nsc + e.2.2, e.2.1) :: heap) := by
      intro x hx
      rcases List.mem_cons.mp hx with rfl | hx0
      · exact Or.inr hreach2
      · exact h2 x hx0
    unfold relaxEdges
    by_cases hvv : e.2.1 ∈ visited
    · rw [if_pos hvv]
      exact ih pp heap hrest h1 h2
    · rw [if_neg hvv]
      rcases hopt : pathsLookup pp (s, e.2.1) with _ | ent
      · simp only [hopt]
        exact ih _ _ hrest hins hheap
      · simp only [hopt]
        by_cases hlt : scoreLt (some (nsc + e.2.2)) ent.1 = true
        · rw [if_pos hlt]
          exact ih _ _ hrest hins hheap
        · rw [if_neg hlt]
          exact ih pp heap hrest h1 h2

theorem calcStep_inv {V : Type} [DecidableEq V] (g : GraphMap V ℚ) (s : V)
    (ignore : List V) (st : CPState V) (node : V) (nsc : ℚ)
    (rest : List (ℚ × V)) (targets2 : List V)
    (h1 : PPInv g s ignore st.paths) (hrest : HeapInv g s rest)
    (hreach : node = s ∨ Relation.TransGen (EdgeRel g) s node) :
    ∀ st2, calcStep g s ignore st node nsc rest targets2 = IterResult.cont st2 →
      PPInv g s ignore st2.paths ∧ HeapInv g s st2.heap := by
  intro st2 h
  unfold calcStep at h
  by_cases hig : node ∈ ignore
  · rw [if_pos hig] at h
    cases h
    exact ⟨h1, hrest⟩
  · rw [if_neg hig] at h
    dsimp only at h
    cases h
    have hes : ∀ e ∈ g.outEdges node, e.1 = node ∧ EdgeRel g node e.2.1 := by
      intro e he
      have h0 := List.of_mem_filter he
      have hmem := List.mem_of_mem_filter he
      have he1 : e.1 = node := of_decide_eq_true h0
      refine ⟨he1, ?_⟩
      unfold EdgeRel keysOf
      refine List.mem_map.mpr ⟨e, hmem, ?_⟩
      rw [he1]
    exact relaxEdges_inv g s node ignore nsc st.visited hig hreach
      (g.outEdges node) st.paths rest hes h1 hrest

theorem calcIterate_inv {V : Type} [DecidableEq V] (g : GraphMap V ℚ) (s : V)
    (ignore : List V) (st : CPState V)
    (h1 : PPInv g s ignore st.paths) (h2 : HeapInv g s st.heap) :
    (∀ res, calcIterate g s ignore st = IterResult.ret res → PPInv g s ignore res) ∧
    (∀ st2, calcIterate g s ignore st = IterResult.cont st2 →
      PPInv g s ignore st2.paths ∧ HeapInv g s st2.heap) := by
  have hmain : ∀ r, calcIterate g s ignore st = r →
      (∀ res, r = IterResult.ret res → PPInv g s ignore res) ∧
      (∀ st2, r = IterResult.cont st2 →
        PPInv g s ignore st2.paths ∧ HeapInv g s st2.heap) := by
    intro r h
    unfold calcIterate at h
    rcases hp : heapPopMin st.heap with _ | ⟨⟨nsc, node⟩, rest⟩
    · rw [hp] at h
      subst h
      refine ⟨fun res h2a => ?_, fun st2 h2a => (by cases h2a)⟩
      cases h2a
      exact h1
    · rw [hp] at h
      simp only at h
      obtain ⟨hmem, hsub⟩ := heapPopMin_mem st.heap _ _ hp
      have hreach : node = s ∨ Relation.TransGen (EdgeRel g) s node := h2 _ hmem
      have hrest : HeapInv g s rest := fun y hy => h2 y (hsub y hy)
      by_cases hv : node ∈ st.visited
      · rw [if_pos hv] at h
        subst h
        refine ⟨fun res h2a => (by cases h2a), fun st2 h2a => ?_⟩
        cases h2a
        exact ⟨h1, hrest⟩
      · rw [if_neg hv] at h
        rcases hr : removeFirst st.targets node with _ | targets2
        · rw [hr] at h
          simp only at h
          subst h
          refine ⟨fun res h2a => ?_, fun st2 h2a =>
            calcStep_inv g s ignore st node nsc rest st.targets h1 hrest hreach st2 h2a⟩
          exact absurd h2a (calcStep_ne_ret _ _ _ _ _ _ _ _ _)
        · rw [hr] at h
          simp only at h
          by_cases hemp : targets2.isEmpty
          · rw [if_pos hemp] at h
            subst h
            refine ⟨fun res h2a => ?_, fun st2 h2a => (by cases h2a)⟩
            cases h2a
            exact h1
          · rw [if_neg hemp] at h
            subst h
            refine ⟨fun res h2a => ?_, fun st2 h2a =>
              calcStep_inv g s ignore st node nsc rest targets2 h1 hrest hreach st2 h2a⟩
            exact absurd h2a (calcStep_ne_ret _ _ _ _ _ _ _ _ _)
  exact ⟨fun res h2a => (hmain _ rfl).1 res h2a, fun st2 h2a => (hmain _ rfl).2 st2 h2a⟩

theorem calcLoop_inv {V : Type} [DecidableEq V] (g : GraphMap V ℚ) (s : V)
    (ignore : List V) :
    ∀ (fuel : ℕ) (st : CPState V) (res : Paths V),
      PPInv g s ignore st.paths → HeapInv g s st.heap →
      calcLoop g s ignore fuel st = some res → PPInv g s ignore res := by
  intro fuel
  induction fuel with
  | zero => intro st res _ _ h; cases h
  | succ k ih =>
    intro st res h1 h2 h
    unfold calcLoop at h
    match hi : calcIterate g s ignore st with
    | IterResult.ret paths =>
      rw [hi] at h
      cases h
      exact (calcIterate_inv g s ignore st h1 h2).1 _ hi
    | IterResult.cont st2 =>
      rw [hi] at h
      obtain ⟨h1b, h2b⟩ := (calcIterate_inv g s ignore st h1 h2).2 _ hi
      exact ih st2 res h1b h2b h

theorem calculate_paths_inv {V : Type} [DecidableEq V] (g : GraphMap V ℚ) (s : V)
    (targets ignore : List V) (fuel : ℕ) (pp res : Paths V)
    (hpp : PPInv g s ignore pp)
    (h : calculate_paths fuel pp g s targets ignore = some res) :
    PPInv g s ignore res := by
  unfold calculate_paths at h
  dsimp only at h
  refine calcLoop_inv g s ignore fuel _ res ?_ ?_ h
  · intro v sc pr hlk
    by_cases hv : v = s
    · subst hv
      rw [pathsLookup_insert_self] at hlk
      injection hlk with hlk
      have h2 := congrArg Prod.snd hlk
      simp at h2
    · rw [pathsLookup_insert_ne pp _ _ (by simp [hv])] at hlk
      exact hpp v sc pr hlk
  · intro e he
    have h0 : e = ((0 : ℚ), s) := by simpa using he
    rw [h0]
    exact Or.inl rfl

theorem calculate_paths_frame_ne {V : Type} [DecidableEq V] (fuel : ℕ)
    (pp : Paths V) (g : GraphMap V ℚ) (src : V) (targets ignore : List V)
    (res : Paths V) {s t : V} (hs : s ≠ src)
    (h : calculate_paths fuel pp g src targets ignore = some res) :
    pathsLookup res (s, t) = pathsLookup pp (s, t) := by
  unfold calculate_paths at h
  dsimp only at h
  rw [calcLoop_frame g src ignore hs fuel _ res h]
  exact pathsLookup_insert_ne pp _ _ (by intro hc; exact hs (congrArg Prod.fst hc))

theorem inNeighbors_mem_nodes {N E : Type} [DecidableEq N] (g : GraphMap N E)
    (x y : N) (h : y ∈ g.inNeighbors x) : y ∈ g.nodes := by
  unfold GraphMap.inNeighbors at h
  rcases List.mem_map.mp h with ⟨e, he, rfl⟩
  exact (g.ends_mem e (List.mem_of_mem_filter he)).1

theorem mem_inNeighbors_of_edge {N E : Type} [DecidableEq N] (g : GraphMap N E)
    {a b : N} (h : EdgeRel g a b) : a ∈ g.inNeighbors b := by
  unfold EdgeRel keysOf at h
  rcases List.mem_map.mp h with ⟨e, he, hk⟩
  have h1 : e.1 = a := congrArg Prod.fst hk
  have h2 : e.2.1 = b := congrArg Prod.snd hk
  unfold GraphMap.inNeighbors
  refine List.mem_map.mpr ⟨e, List.mem_filter.mpr ⟨he, by simp [h2]⟩, h1⟩

theorem dfsNext_none {N : Type} [DecidableEq N] (nbrs : N → List N) :
    ∀ (stack d : List N), dfsNext nbrs ⟨stack, d⟩ = none →
      ∀ x ∈ stack, x ∈ d := by
  intro stack
  induction stack with
  | nil => intro d _ x hx; cases hx
  | cons a rest ih =>
    intro d h x hx
    unfold dfsNext at h
    dsimp only at h
    unfold dfsNextGo at h
    by_cases ha : a ∈ d
    · rw [if_pos ha] at h
      rcases List.mem_cons.mp hx with rfl | hx0
      · exact ha
      · exact ih d h x hx0
    · rw [if_neg ha] at h
      cases h

theorem dfsNext_some {N : Type} [DecidableEq N] (nbrs : N → List N) :
    ∀ (stack d : List N) (nx : N) (st2 : DfsState N),
      dfsNext nbrs ⟨stack, d⟩ = some (nx, st2) →
      nx ∉ d ∧ nx ∈ stack ∧ st2.discovered = nx :: d ∧
      (∀ y ∈ st2.stack, y ∈ nbrs nx ∨ y ∈ stack) ∧
      (∀ y ∈ stack, y ∈ d ∨ y = nx ∨ y ∈ st2.stack) ∧
      (∀ y ∈ nbrs nx, y ∈ nx :: d ∨ y ∈ st2.stack) := by
  intro stack
  induction stack with
  | nil =>
    intro d nx st2 h
    unfold dfsNext at h
    dsimp only at h
    unfold dfsNextGo at h
    cases h
  | cons a rest ih =>
    intro d nx st2 h
    unfold dfsNext at h
    dsimp only at h
    unfold dfsNextGo at h
    by_cases ha : a ∈ d
    · rw [if_pos ha] at h
      obtain ⟨h1, h2, h3, h4, h5, h6⟩ := ih d nx st2 h
      refine ⟨h1, List.mem_cons_of_mem _ h2, h3, ?_, ?_, h6⟩
      · intro y hy
        rcases h4 y hy with h0 | h0
        · exact Or.inl h0
        · exact Or.inr (List.mem_cons_of_mem _ h0)
      · intro y hy
        rcases List.mem_cons.mp hy with rfl | hy0
        · exact Or.inl ha
        · exact h5 y hy0
    · rw [if_neg ha] at h
      cases h
      refine ⟨ha, List.mem_cons_self _ _, rfl, ?_, ?_, ?_⟩
      · intro y hy
        rcases List.mem_append.mp hy with h0 | h0
        · exact Or.inl (List.mem_of_mem_filter (List.mem_reverse.mp h0))
        · exact Or.inr (List.mem_cons_of_mem _ h0)
      · intro y hy
        rcases List.mem_cons.mp hy with rfl | hy0
        · exact Or.inr (Or.inl rfl)
        · exact Or.inr (Or.inr (List.mem_append_right _ hy0))
      · intro y hy
        by_cases hyd : y ∈ a :: d
        · exact Or.inl hyd
        · refine Or.inr (List.mem_append_left _ ?_)
          rw [List.mem_reverse]
          exact List.mem_filter.mpr ⟨hy, by simpa using hyd⟩

theorem getRelatedLoop_complete {N E : Type} [DecidableEq N] (g : GraphMap N E)
    (s : N) :
    ∀ (fuel : ℕ) (st : DfsState N) (acc : List N),
      (∀ x ∈ st.discovered, x ∈ s :: g.nodes) →
      (∀ x ∈ st.stack, x ∈ s :: g.nodes) →
      st.discovered.Nodup →
      (∀ x ∈ st.discovered, ∀ y ∈ g.inNeighbors x,
        y ∈ st.discovered ∨ y ∈ st.stack) →
      (s ∈ st.stack ∨ s ∈ st.discovered) →
      (∀ x ∈ st.discovered, x = s ∨ x ∈ acc) →
      (s :: g.nodes).length + 1 ≤ fuel + st.discovered.length →
      ∃ res, getRelatedLoop g.inNeighbors s fuel st acc = some res ∧
        ∀ u, u ≠ s →
          Relation.ReflTransGen (fun a b => b ∈ g.inNeighbors a) s u → u ∈ res := by
  intro fuel
  induction fuel with
  | zero =>
    intro st acc hd1 _ hd3 _ _ _ hbound
    exfalso
    have hle : st.discovered.length ≤ (s :: g.nodes).length :=
      List.Subperm.length_le (List.Nodup.subperm hd3 hd1)
    omega
  | succ k ih =>
    intro st acc hd1 hs1 hd3 hclo hsin hacc hbound
    obtain ⟨stack0, d0⟩ := st
    rcases hnx : dfsNext g.inNeighbors ⟨stack0, d0⟩ with _ | ⟨nx, st2⟩
    · refine ⟨acc, ?_, ?_⟩
      · unfold getRelatedLoop
        rw [hnx]
      · have hstackd : ∀ x ∈ stack0, x ∈ d0 := dfsNext_none g.inNeighbors stack0 d0 hnx
        have hsd : s ∈ d0 := by
          rcases hsin with h | h
          · exact hstackd s h
          · exact h
        have hclosed : ∀ u, Relation.ReflTransGen
            (fun a b => b ∈ g.inNeighbors a) s u → u ∈ d0 := by
          intro u hru
          induction hru with
          | refl => exact hsd
          | tail hab hbc ihh =>
            rcases hclo _ ihh _ hbc with h | h
            · exact h
            · exact hstackd _ h
        intro u hu hru
        rcases hacc u (hclosed u hru) with rfl | h
        · exact absurd rfl hu
        · exact h
    · obtain ⟨hnd, hnstack, hdisc, hsub1, hsub2, hnbr⟩ :=
        dfsNext_some g.inNeighbors stack0 d0 nx st2 hnx
      have hd1b : ∀ x ∈ st2.discovered, x ∈ s :: g.nodes := by
        intro x hx
        rw [hdisc] at hx
        rcases List.mem_cons.mp hx with rfl | hx0
        · exact hs1 x hnstack
        · exact hd1 x hx0
      have hs1b : ∀ x ∈ st2.stack, x ∈ s :: g.nodes := by
        intro x hx
        rcases hsub1 x hx with h0 | h0
        · exact List.mem_cons_of_mem _ (inNeighbors_mem_nodes g nx x h0)
        · exact hs1 x h0
      have hd3b : st2.discovered.Nodup := by
        rw [hdisc]
        exact List.nodup_cons.mpr ⟨hnd, hd3⟩
      have hclob : ∀ x ∈ st2.discovered, ∀ y ∈ g.inNeighbors x,
          y ∈ st2.discovered ∨ y ∈ st2.stack := by
        intro x hx y hy
        rw [hdisc] at hx ⊢
        rcases List.mem_cons.mp hx with rfl | hx0
        · exact hnbr y hy
        · rcases hclo x hx0 y hy with h0 | h0
          · exact Or.inl (List.mem_cons_of_mem _ h0)
          · rcases hsub2 y h0 with h1 | h1
            · exact Or.inl (List.mem_cons_of_mem _ h1)
            · rcases h1 with rfl | h1
              · exact Or.inl (List.mem_cons_self _ _)
              · exact Or.inr h1
      have hsinb : s ∈ st2.stack ∨ s ∈ st2.discovered := by
        rw [hdisc]
        rcases hsin with h | h
        · rcases hsub2 s h with h0 | h0
          · exact Or.inr (List.mem_cons_of_mem _ h0)
          · rcases h0 with rfl | h0
            · exact Or.inr (List.mem_cons_self _ _)
            · exact Or.inl h0
        · exact Or.inr (List.mem_cons_of_mem _ h)
      have hboundb : (s :: g.nodes).length + 1 ≤ k + st2.discovered.length := by
        have hbound2 : (s :: g.nodes).length + 1 ≤ (k + 1) + d0.length := hbound
        rw [hdisc]
        simp only [List.length_cons] at hbound2 ⊢
        omega
      by_cases hns : nx = s
      · have haccb : ∀ x ∈ st2.discovered, x = s ∨ x ∈ acc := by
          intro x hx
          rw [hdisc] at hx
          rcases List.mem_cons.mp hx with rfl | hx0
          · exact Or.inl hns
          · exact hacc x hx0
        obtain ⟨res, hloop, hcomp⟩ := ih st2 acc hd1b hs1b hd3b hclob hsinb haccb hboundb
        refine ⟨res, ?_, hcomp⟩
        unfold getRelatedLoop
        rw [hnx]
        dsimp only
        rw [if_pos hns]
        exact hloop
      · have haccb : ∀ x ∈ st2.discovered, x = s ∨ x ∈ acc ++ [nx] := by
          intro x hx
          rw [hdisc] at hx
          rcases List.mem_cons.mp hx with rfl | hx0
          · exact Or.inr (List.mem_append_right _ (List.mem_singleton.mpr rfl))
          · rcases hacc x hx0 with h0 | h0
            · exact Or.inl h0
            · exact Or.inr (List.mem_append_left _ h0)
        obtain ⟨res, hloop, hcomp⟩ :=
          ih st2 (acc ++ [nx]) hd1b hs1b hd3b hclob hsinb haccb hboundb
        refine ⟨res, ?_, hcomp⟩
        unfold getRelatedLoop
        rw [hnx]
        dsimp only
        rw [if_neg hns]
        exact hloop

theorem get_ancestors_complete {N E : Type} [DecidableEq N] (g : GraphMap N E)
    (s u : N) (hu : Relation.TransGen (EdgeRel g) u s) (hne : u ≠ s) :
    u ∈ get_ancestors g s := by
  have hreach : Relation.ReflTransGen (fun a b => b ∈ g.inNeighbors a) s u := by
    clear hne
    induction hu with
    | single h => exact Relation.ReflTransGen.single (mem_inNeighbors_of_edge g h)
    | tail hab hbc ihh =>
      exact Relation.ReflTransGen.head (mem_inNeighbors_of_edge g hbc) ihh
  obtain ⟨res, hloop, hcomp⟩ := getRelatedLoop_complete g s (g.nodes.length + 2)
    ⟨[s], []⟩ []
    (fun x hx => absurd hx (List.not_mem_nil _))
    (fun x hx => by
      have : x = s := by simpa using hx
      rw [this]
      exact List.mem_cons_self _ _)
    List.nodup_nil
    (fun x hx => absurd hx (List.not_mem_nil _))
    (Or.inl (List.mem_cons_self _ _))
    (fun x hx => absurd hx (List.not_mem_nil _))
    (by simp)
  unfold get_ancestors getRelated
  dsimp only [dfsNew]
  rw [hloop]
  exact hcomp u hne hreach

theorem pickNext_mem {N E : Type} [DecidableEq N] (g : GraphMap N E)
    (remaining : List N) {n : N} (h : pickNext g remaining = some n) : n ∈ remaining :=
  List.mem_of_find?_eq_some h

theorem toposortGo_facts {N E : Type} [DecidableEq N] (g : GraphMap N E) :
    ∀ (fuel : ℕ) (remaining acc : List N) (out : List N),
      (acc ++ remaining).Nodup →
      (∀ x ∈ remaining, x ∈ g.nodes) → (∀ x ∈ acc, x ∈ g.nodes) →
      toposortGo g fuel remaining acc = some out →
      out.Nodup ∧ ∀ x ∈ out, x ∈ g.nodes := by
  intro fuel
  induction fuel with
  | zero =>
    intro remaining acc out hnd hr ha h
    cases remaining with
    | nil =>
      cases h
      exact ⟨by simpa using hnd, ha⟩
    | cons r rest => cases h
  | succ k ih =>
    intro remaining acc out hnd hr ha h
    cases remaining with
    | nil =>
      cases h
      exact ⟨by simpa using hnd, ha⟩
    | cons r rest =>
      unfold toposortGo at h
      rcases hpick : pickNext g (r :: rest) with _ | n
      · rw [hpick] at h
        cases h
      · rw [hpick] at h
        dsimp only at h
        have hnmem : n ∈ r :: rest := pickNext_mem g _ hpick
        have hremnd : (r :: rest).Nodup := (List.nodup_append.mp hnd).2.1
        have e1 : ((r :: rest).filter fun m => !decide (m = n)) = (r :: rest).erase n := by
          rw [List.Nodup.erase_eq_filter hremnd]
          apply List.filter_congr
          intro x _
          by_cases hxn : x = n
          · simp [hxn]
          · simp [hxn]
        have hperm : ((acc ++ [n]) ++ ((r :: rest).filter fun m => !decide (m = n))).Perm
            (acc ++ (r :: rest)) := by
          rw [e1, List.append_assoc]
          exact List.Perm.append_left acc (List.perm_cons_erase hnmem).symm
        refine ih _ _ out (hperm.symm.nodup hnd) ?_ ?_ h
        · intro x hx
          exact hr x (List.mem_of_mem_filter hx)
        · intro x hx
          rcases List.mem_append.mp hx with h0 | h0
          · exact ha x h0
          · have : x = n := by simpa using h0
            rw [this]
            exact hr n hnmem

theorem toposort_facts {N E : Type} [DecidableEq N] (g : GraphMap N E) (out : List N)
    (h : toposort g = some out) : out.Nodup ∧ ∀ x ∈ out, x ∈ g.nodes := by
  unfold toposort at h
  exact toposortGo_facts g g.nodes.length g.nodes [] out (by simpa using g.nodes_nodup)
    (fun x hx => hx) (fun x hx => absurd hx (List.not_mem_nil _)) h

theorem targetsInsert_mem {m : List (INode × List INode)} {k : INode}
    {v : List INode} {e : INode × List INode} (h : e ∈ targetsInsert m k v) :
    e = (k, v) ∨ e ∈ m := by
  unfold targetsInsert at h
  by_cases hs : (m.find? fun ent => decide (ent.1 = k)).isSome
  · rw [if_pos hs] at h
    rcases List.mem_map.mp h with ⟨e0, he0, heq⟩
    by_cases hk : e0.1 = k
    · rw [if_pos hk] at heq
      exact Or.inl heq.symm
    · rw [if_neg hk] at heq
      exact Or.inr (heq ▸ he0)
  · rw [if_neg hs] at h
    rcases List.mem_append.mp h with h0 | h0
    · exact Or.inr h0
    · exact Or.inl (by simpa using h0)

theorem collectPaths_mem (pp : Paths INode) (wFuel : ℕ) (s : INode) :
    ∀ (ts : List INode) (r : List (List INode)),
      collectPaths pp wFuel s ts = some r →
      ∀ p ∈ r, ∃ t ∈ ts, ∃ c, walkOrbit pp s wFuel t = some c ∧
        2 ≤ c.length ∧ p = c.reverse := by
  intro ts
  induction ts with
  | nil =>
    intro r h p hp
    cases h
    cases hp
  | cons t ts2 ih =>
    intro r h p hp
    unfold collectPaths at h
    rcases hw : walkOrbit pp s wFuel t with _ | c
    · rw [hw] at h
      cases h
    rw [hw] at h
    dsimp only at h
    rcases hc : collectPaths pp wFuel s ts2 with _ | rest
    · rw [hc] at h
      cases h
    rw [hc] at h
    dsimp only at h
    by_cases hlen : c.length < 2
    · rw [if_pos hlen] at h
      cases h
      obtain ⟨t2, ht2, c2, hw2, hl2, hp2⟩ := ih _ hc p hp
      exact ⟨t2, List.mem_cons_of_mem _ ht2, c2, hw2, hl2, hp2⟩
    · rw [if_neg hlen] at h
      cases h
      rcases List.mem_cons.mp hp with rfl | hp0
      · exact ⟨t, List.mem_cons_self _ _, c, hw, by omega, rfl⟩
      · obtain ⟨t2, ht2, c2, hw2, hl2, hp2⟩ := ih _ hc p hp0
        exact ⟨t2, List.mem_cons_of_mem _ ht2, c2, hw2, hl2, hp2⟩

theorem allPaths_mem (pp : Paths INode) (wFuel : ℕ) :
    ∀ (l : List (INode × List INode)) (r : List (List INode)),
      allPaths pp wFuel l = some r →
      ∀ p ∈ r, ∃ s ts, (s, ts) ∈ l ∧ ∃ t ∈ ts, ∃ c,
        walkOrbit pp s wFuel t = some c ∧ 2 ≤ c.length ∧ p = c.reverse := by
  intro l
  induction l with
  | nil =>
    intro r h p hp
    cases h
    cases hp
  | cons e rest ih =>
    intro r h p hp
    obtain ⟨s, ts⟩ := e
    unfold allPaths at h
    rcases hc : collectPaths pp wFuel s ts with _ | ps
    · rw [hc] at h
      cases h
    rw [hc] at h
    dsimp only at h
    rcases ha : allPaths pp wFuel rest with _ | rest2
    · rw [ha] at h
      cases h
    rw [ha] at h
    dsimp only at h
    cases h
    rcases List.mem_append.mp hp with h0 | h0
    · obtain ⟨t, ht, c, hw, hl, hpc⟩ := collectPaths_mem pp wFuel s ts ps hc p h0
      exact ⟨s, ts, List.mem_cons_self _ _, t, ht, c, hw, hl, hpc⟩
    · obtain ⟨s2, ts2, hm, t, ht, c, hw, hl, hpc⟩ := ih _ ha p h0
      exact ⟨s2, ts2, List.mem_cons_of_mem _ hm, t, ht, c, hw, hl, hpc⟩

theorem PPInv_congr {V : Type} [DecidableEq V] {g : GraphMap V ℚ} {s : V}
    {ignore : List V} {pp pp2 : Paths V}
    (hline : ∀ v : V, pathsLookup pp2 (s, v) = pathsLookup pp (s, v))
    (h : PPInv g s ignore pp) : PPInv g s ignore pp2 := by
  intro v sc pr hlk
  rw [hline v] at hlk
  exact h v sc pr hlk

/-- Certificate attached to each `all_targets` entry: its dijkstra call ran on
a subgraph of the prepared candidate from which the DAG-ancestors of the
source were removed, and the parent map keyed by the source satisfies the
per-call invariant. -/
def PDEntryInv (dag : PartialDag Unit) (cand1 : Network ℚ SuperNode)
    (pp : Paths INode) (s : INode) (ts : List INode) : Prop :=
  ∃ gcall : GraphMap INode ℚ,
    (∀ k ∈ keysOf gcall, k ∈ keysOf cand1.graph) ∧
    (∀ a ∈ get_ancestors dag.toInteractome.inner_network.graph s, a ∉ gcall.nodes) ∧
    PPInv gcall s ts pp

/-- Loop invariant of the per-node fold of `produce_dag`. -/
def PDInv (dag : PartialDag Unit) (cand1 : Network ℚ SuperNode) (st : PDState) :
    Prop :=
  (∀ k ∈ keysOf st.candidate.graph, k ∈ keysOf cand1.graph) ∧
  ∀ s ts, (s, ts) ∈ st.all_targets →
    s ∈ dag.toInteractome.inner_network.graph.nodes ∧
    ts = dag.toInteractome.inner_network.graph.nodes.filter (fun m =>
      decide (m ≠ s) &&
      decide (m ∉ get_ancestors dag.toInteractome.inner_network.graph s)) ∧
    PDEntryInv dag cand1 st.paths_parents s ts

theorem produceDagNodeStep_inv (cpFuel : ℕ) (dag : PartialDag Unit)
    (cand1 : Network ℚ SuperNode) (st : PDState) (n : INode) (st1 : PDState)
    (hstep : produceDagNodeStep cpFuel dag st n = some st1)
    (hinv : PDInv dag cand1 st)
    (hn : n ∈ dag.toInteractome.inner_network.graph.nodes)
    (hfresh : ∀ s ts, (s, ts) ∈ st.all_targets → s ≠ n)
    (hcleann : ∀ v : INode, pathsLookup st.paths_parents (n, v) = none) :
    PDInv dag cand1 st1 ∧
    (∀ s ts, (s, ts) ∈ st1.all_targets → s = n ∨ (s, ts) ∈ st.all_targets) ∧
    (∀ n2 : INode, n2 ≠ n → ∀ v : INode,
      pathsLookup st1.paths_parents (n2, v) = pathsLookup st.paths_parents (n2, v)) := by
  obtain ⟨hcand, hentries⟩ := hinv
  unfold produceDagNodeStep at hstep
  rcases hname : dag.toInteractome.name_from_idx n with _ | nm
  · rw [hname] at hstep
    cases hstep
  rw [hname] at hstep
  dsimp only at hstep
  by_cases hst : dag.toInteractome.inner_network.graph.containsEdge n
      (Sum.inr SuperNode.target) = true
  · rw [if_pos hst] at hstep
    cases hstep
    have hline : ∀ (n2 : INode), n2 ≠ n → ∀ v : INode,
        pathsLookup (pathsInsert st.paths_parents (n, Sum.inr SuperNode.target)
          (none, none)) (n2, v) = pathsLookup st.paths_parents (n2, v) := by
      intro n2 hne v
      refine pathsLookup_insert_ne _ _ _ ?_
      intro hc
      exact hne (congrArg Prod.fst hc)
    refine ⟨⟨hcand, ?_⟩, fun s ts hm => Or.inr hm, hline⟩
    intro s ts hm
    obtain ⟨h1, h2, gcall, h3, h4, h5⟩ := hentries s ts hm
    exact ⟨h1, h2, gcall, h3, h4,
      PPInv_congr (fun v => hline s (hfresh s ts hm) v) h5⟩
  · rw [if_neg hst] at hstep
    by_cases hcn : (!st.candidate.graph.containsNode n) = true
    · rw [if_pos hcn] at hstep
      cases hstep
      exact ⟨⟨hcand, hentries⟩, fun s ts hm => Or.inr hm, fun n2 _ v => rfl⟩
    · rw [if_neg hcn] at hstep
      rcases hcp : calculate_paths cpFuel st.paths_parents
          ((get_ancestors dag.toInteractome.inner_network.graph n).foldl
            (fun g a => g.removeNode a) st.candidate.graph) n
          (dag.toInteractome.inner_network.graph.nodes.filter fun m =>
            decide (m ≠ n) &&
            decide (m ∉ get_ancestors dag.toInteractome.inner_network.graph n))
          (dag.toInteractome.inner_network.graph.nodes.filter fun m =>
            decide (m ≠ n) &&
            decide (m ∉ get_ancestors dag.toInteractome.inner_network.graph n))
          with _ | paths2
      · rw [hcp] at hstep
        cases hstep
      · rw [hcp] at hstep
        dsimp only at hstep
        cases hstep
        have hline : ∀ (n2 : INode), n2 ≠ n → ∀ v : INode,
            pathsLookup paths2 (n2, v) = pathsLookup st.paths_parents (n2, v) :=
          fun n2 hne v => calculate_paths_frame_ne cpFuel _ _ _ _ _ _ hne hcp
        refine ⟨⟨?_, ?_⟩, ?_, hline⟩
        · intro k hk
          exact hcand k (keysOf_foldl_removeNode_subset _ _ k hk)
        · intro s ts hm
          rcases targetsInsert_mem hm with heq | hold
          · have hs : s = n := congrArg Prod.fst heq
            have hts : ts = dag.toInteractome.inner_network.graph.nodes.filter
                (fun m => decide (m ≠ n) &&
                  decide (m ∉ get_ancestors dag.toInteractome.inner_network.graph n)) :=
              congrArg Prod.snd heq
            subst hs
            refine ⟨hn, hts, ?_⟩
            refine ⟨(get_ancestors dag.toInteractome.inner_network.graph s).foldl
              (fun g a => g.removeNode a) st.candidate.graph, ?_, ?_, ?_⟩
            · intro k hk
              exact hcand k (keysOf_foldl_removeNode_subset _ _ k hk)
            · intro a ha
              exact foldl_removeNode_not_mem _ _ a ha
            · rw [hts]
              refine calculate_paths_inv _ _ _ _ cpFuel _ paths2 ?_ hcp
              intro v sc pr hlk
              rw [hcleann v] at hlk
              cases hlk
          · obtain ⟨h1, h2, gcall, h3, h4, h5⟩ := hentries s ts hold
            exact ⟨h1, h2, gcall, h3, h4,
              PPInv_congr (fun v => hline s (hfresh s ts hold) v) h5⟩
        · intro s ts hm
          rcases targetsInsert_mem hm with heq | hold
          · exact Or.inl (congrArg Prod.fst heq)
          · exact Or.inr hold

theorem foldl_step_none (cpFuel : ℕ) (dag : PartialDag Unit) :
    ∀ l : List INode, l.foldl (fun acc n => match acc with
      | none => none
      | some st3 => produceDagNodeStep cpFuel dag st3 n) none = none := by
  intro l
  induction l with
  | nil => rfl
  | cons n rest ih =>
    rw [List.foldl_cons]
    exact ih

theorem produceDag_fold_inv (cpFuel : ℕ) (dag : PartialDag Unit)
    (cand1 : Network ℚ SuperNode) :
    ∀ (l : List INode) (st : PDState),
      l.Nodup →
      (∀ n ∈ l, n ∈ dag.toInteractome.inner_network.graph.nodes) →
      PDInv dag cand1 st →
      (∀ s ts, (s, ts) ∈ st.all_targets → s ∉ l) →
      (∀ n2 ∈ l, ∀ v : INode, pathsLookup st.paths_parents (n2, v) = none) →
      ∀ st2, l.foldl (fun acc n => match acc with
          | none => none
          | some st3 => produceDagNodeStep cpFuel dag st3 n) (some st) = some st2 →
        PDInv dag cand1 st2 := by
  intro l
  induction l with
  | nil =>
    intro st _ _ hinv _ _ st2 h
    cases h
    exact hinv
  | cons n rest ih =>
    intro st hnd hmem hinv hfresh hclean st2 h
    rw [List.foldl_cons] at h
    dsimp only at h
    rcases List.nodup_cons.mp hnd with ⟨hnin, hnd2⟩
    rcases hstep : produceDagNodeStep cpFuel dag st n with _ | st1
    · rw [hstep, foldl_step_none] at h
      cases h
    · rw [hstep] at h
      obtain ⟨hinv1, hat1, hline1⟩ := produceDagNodeStep_inv cpFuel dag cand1 st n st1
        hstep hinv (hmem n (List.mem_cons_self _ _))
        (fun s ts hm => fun hc => hfresh s ts hm (hc ▸ List.mem_cons_self _ _))
        (hclean n (List.mem_cons_self _ _))
      refine ih st1 hnd2 (fun m hm => hmem m (List.mem_cons_of_mem _ hm)) hinv1 ?_ ?_
        st2 h
      · intro s ts hm hsl
        rcases hat1 s ts hm with rfl | hold
        · exact hnin hsl
        · exact hfresh s ts hold (List.mem_cons_of_mem _ hsl)
      · intro n2 hn2 v
        have hne : n2 ≠ n := by
          intro hc
          rw [hc] at hn2
          exact hnin hn2
        rw [hline1 n2 hne v]
        exact hclean n2 (List.mem_cons_of_mem _ hn2) v

theorem edgeRel_mem_nodes {N E : Type} [DecidableEq N] (g : GraphMap N E)
    {a b : N} (h : EdgeRel g a b) : a ∈ g.nodes ∧ b ∈ g.nodes := by
  unfold EdgeRel keysOf at h
  rcases List.mem_map.mp h with ⟨e, he, hk⟩
  have h1 : e.1 = a := congrArg Prod.fst hk
  have h2 : e.2.1 = b := congrArg Prod.snd hk
  rw [← h1, ← h2]
  exact g.ends_mem e he

theorem parentNext_lookup {V : Type} [DecidableEq V] {pp : Paths V} {s v pr : V}
    (h : parentNext pp s v = some pr) :
    ∃ sc, pathsLookup pp (s, v) = some (sc, some pr) := by
  unfold parentNext at h
  rcases hlk : pathsLookup pp (s, v) with _ | ent
  · rw [hlk] at h
    cases h
  · rw [hlk] at h
    obtain ⟨sc, pr2⟩ := ent
    rw [show ((some (sc, pr2) : Option (Option ℚ × Option V)).bind fun ent => ent.2) =
      pr2 from rfl] at h
    rw [h] at hlk
    exact ⟨sc, by rw [h]⟩

theorem walkOrbit_first_parent {V : Type} [DecidableEq V] (pp : Paths V) (s : V)
    (fuel : ℕ) (t : V) (c : List V) (hw : walkOrbit pp s fuel t = some c)
    (hlen : 2 ≤ c.length) : ∃ pr, parentNext pp s t = some pr := by
  cases fuel with
  | zero => cases hw
  | succ k =>
    unfold walkOrbit at hw
    rcases hpn : parentNext pp s t with _ | pr
    · rw [hpn] at hw
      dsimp only at hw
      cases hw
      simp at hlen
    · exact ⟨pr, rfl⟩


theorem produce_dag_some_facts (cpFuel wFuel : ℕ)
    (costF : Interactome ℚ → PartialDag Unit → List INode → ℚ)
    (interactome : Interactome ℚ) (dag : PartialDag Unit) (cache : GrowthCache)
    (cache2 : GrowthCache) (r : Option (ℚ × List INode))
    (h : produce_dag cpFuel wFuel costF interactome dag cache = some (cache2, r)) :
    ∃ (st : PDState) (pathsList : List (List INode)),
      allPaths st.paths_parents wFuel st.all_targets = some pathsList ∧
      r = ((minByCost (costF interactome dag) pathsList).map fun best =>
        (costF interactome dag best, best)) ∧
      PDInv dag (prepareCandidate cache.candidate
        dag.toInteractome.inner_network.graph.edges) st := by
  unfold produce_dag at h
  dsimp only at h
  rcases htopo : toposort dag.toInteractome.inner_network.graph with _ | nodes
  · rw [htopo] at h
    cases h
  rw [htopo] at h
  dsimp only at h
  rcases hfold : nodes.foldl (fun acc n => match acc with
      | none => none
      | some st3 => produceDagNodeStep cpFuel dag st3 n)
      (some ⟨prepareCandidate cache.candidate
        dag.toInteractome.inner_network.graph.edges, [], []⟩) with _ | st
  · rw [hfold] at h
    cases h
  rw [hfold] at h
  dsimp only at h
  rcases hall : allPaths st.paths_parents wFuel st.all_targets with _ | pathsList
  · rw [hall] at h
    cases h
  rw [hall] at h
  dsimp only at h
  injection h with h
  have hr : r = ((minByCost (costF interactome dag) pathsList).map fun best =>
      (costF interactome dag best, best)) := (congrArg Prod.snd h).symm
  obtain ⟨hnd, hmem⟩ := toposort_facts _ nodes htopo
  have hinv := produceDag_fold_inv cpFuel dag (prepareCandidate cache.candidate
      dag.toInteractome.inner_network.graph.edges) nodes
    ⟨prepareCandidate cache.candidate dag.toInteractome.inner_network.graph.edges,
      [], []⟩
    hnd hmem
    ⟨fun k hk => hk, fun s ts hm => absurd hm (List.not_mem_nil _)⟩
    (fun s ts hm => absurd hm (List.not_mem_nil _))
    (fun n2 _ v => rfl) st hfold
  exact ⟨st, pathsList, hall, hr, hinv⟩

/-- A small concrete graph (`0 → 1` with weight 1) for the path-engine
witnesses. -/
def pathFixtureGraph : GraphMap ℕ ℚ :=
  GraphMap.empty.addEdge 0 1 1

/-- A prior parent-map entry keyed by a different source, for the frame
witness. -/
def pathFixturePrior : Paths ℕ :=
  [((5, 7), (some 1, none))]

/-- The loop state of `calculate_paths(paths = ∅, graph = 0→1, source = 0,
targets = [1], ignore = [0])` just before the first iteration. -/
def ignoreFixtureState : CPState ℕ :=
  ⟨pathsInsert [] (0, 0) (some 0, none), [1], [], [(0, 0)]⟩

/-- An input file whose two data lines repeat the ordered pair `(A, B)`. -/
def dupLines : List String :=
  ["A\tB\t0.5", "A\tB\t0.7"]

/-- The network parsed from `dupLines`, extracted. -/
def dupLinesNet : Network ℚ Empty :=
  match Network.from_lines WeightDataFactory dupLines with
  | Except.ok net => net
  | Except.error _ => junkNetwork

/-- Certificate for acyclicity of a concrete graph: an explicit node order in
which every edge goes strictly forward. -/
def topoOrderOk {N E : Type} [DecidableEq N] (g : GraphMap N E) (ord : List N) :
    Bool :=
  decide (∀ k ∈ keysOf g, ord.indexOf k.1 < ord.indexOf k.2)

theorem acyclic_of_topoOrderOk {N E : Type} [DecidableEq N] (g : GraphMap N E)
    (ord : List N) (h : topoOrderOk g ord = true) :
    ∀ v, ¬Relation.TransGen (EdgeRel g) v v := by
  have hidx : ∀ a b, EdgeRel g a b → ord.indexOf a < ord.indexOf b := by
    have h2 := of_decide_eq_true h
    intro a b hab
    exact h2 (a, b) hab
  have hmono : ∀ a b, Relation.TransGen (EdgeRel g) a b →
      ord.indexOf a < ord.indexOf b := by
    intro a b hab
    induction hab with
    | single h1 => exact hidx _ _ h1
    | tail h1 h2 ih => exact lt_trans ih (hidx _ _ h2)
  intro v hv
  exact lt_irrefl _ (hmono v v hv)

theorem noTransGen_of_keys_nil {N E : Type} [DecidableEq N] (g : GraphMap N E)
    (hk : keysOf g = []) (a b : N) : ¬Relation.TransGen (EdgeRel g) a b := by
  intro h
  induction h with
  | single h1 =>
    unfold EdgeRel at h1
    rw [hk] at h1
    cases h1
  | tail h1 h2 ih =>
    unfold EdgeRel at h2
    rw [hk] at h2
    cases h2

/-- A DAG over the full fixture interactome (the same four data edges as the
main network), used to exercise `produce_dag` on an emptied candidate. -/
def fullFixtureDagE : Except DAGCreationError (PartialDag Unit) :=
  PartialDag.new
    (match Network.from_lines_using_id_map EmptyTupleDataFactory
        ["A\tB", "B\tC", "B\tD", "D\tC"]
        (match edgeCostFixtureMainE with
         | Except.ok net => net.id_map
         | Except.error _ => BiMap.empty) with
     | Except.ok dnet => dnet
     | Except.error _ => junkNetwork)
    ["A"] ["C"]

/-- The full-interactome DAG fixture, extracted. -/
def fullFixtureDag : PartialDag Unit :=
  match fullFixtureDagE with
  | Except.ok dag => dag
  | Except.error _ => ⟨junkInteractome⟩

/-- The `produce_dag` run of the C6 fixture, extracted. -/
def produceDagFixtureRes : Option (GrowthCache × Option (ℚ × List INode)) :=
  produce_dag 20 20 (fun _ _ _ => 0) edgeCostFixtureInter fullFixtureDag
    (GrowthCache.new edgeCostFixtureInter)

/-- The growth cache returned by the C6 fixture run. -/
def produceDagFixtureCache : GrowthCache :=
  match produceDagFixtureRes with
  | some (c, _) => c
  | none => GrowthCache.new junkInteractome

/-- The optional winning pair returned by the C6 fixture run. -/
def produceDagFixtureR : Option (ℚ × List INode) :=
  match produceDagFixtureRes with
  | some (_, r) => r
  | none => none

/-- The `grow` run of the C1 fixture, extracted. -/
def growFixtureRes :
    Option ((PartialDag Unit × GrowthCache) × Option (ℚ × List INode)) :=
  grow 20 20 (fun _ _ _ => 0) edgeCostFixtureInter edgeCostFixtureDag
    (GrowthCache.new edgeCostFixtureInter)

/-- The grown DAG of the C1 fixture run. -/
def growFixtureDag2 : PartialDag Unit :=
  match growFixtureRes with
  | some ((d, _), some _) => d
  | _ => ⟨junkInteractome⟩

/-- The growth cache of the C1 fixture run. -/
def growFixtureCache2 : GrowthCache :=
  match growFixtureRes with
  | some ((_, c), some _) => c
  | _ => GrowthCache.new junkInteractome

/-- The winning cost of the C1 fixture run. -/
def growFixtureW : ℚ :=
  match growFixtureRes with
  | some (_, some (w, _)) => w
  | _ => 0

/-- The winning path of the C1 fixture run. -/
def growFixturePath : List INode :=
  match growFixtureRes with
  | some (_, some (_, p)) => p
  | _ => []

/-- The interactome attached over `dupLinesNet` with source `A` and target
`B`, extracted. -/
def attachFixtureInter : Interactome ℚ :=
  match Interactome.attach_sources_and_targets dupLinesNet ["A"] ["B"] true with
  | Except.ok inter => inter
  | Except.error _ => junkInteractome

/-!  Claim theorems. -/

/-- C9: for every directed graph and every node in it, `get_descendents`
returns exactly the same node list (same elements, same order) as
`get_ancestors`: both traverse the reversed graph, because `get_related`
passes `Reversed(&graph)` to `dfs.next` regardless of the requested
direction, and the `Dfs::new` direction choice only seeds the start node. -/
theorem get_descendents_eq_get_ancestors {N E : Type} [DecidableEq N]
    (graph : GraphMap N E) (node : N) (hmem : node ∈ graph.nodes) :
    get_descendents graph node = get_ancestors graph node := by
  unfold get_descendents get_ancestors getRelated
  rfl

/-- Witness for `get_descendents_eq_get_ancestors` on the concrete cycle
`0 → 1 → 2 → 0` from the repository's own unit test. -/
theorem get_descendents_eq_get_ancestors_witness :
    0 ∈ (((GraphMap.empty.addEdge 0 1 ()).addEdge 1 2 ()).addEdge 2 0 () : GraphMap ℕ Unit).nodes
    ∧ get_descendents (((GraphMap.empty.addEdge 0 1 ()).addEdge 1 2 ()).addEdge 2 0 ()) 0 =
      get_ancestors (((GraphMap.empty.addEdge 0 1 ()).addEdge 1 2 ()).addEdge 2 0 ()) 0 :=
  ⟨by decide, get_descendents_eq_get_ancestors _ 0 (by decide)⟩

/-- C3 counterexample: a well-formed file whose two data lines repeat the
ordered pair `(A, B)` parses successfully, but the resulting network has one
edge, not two: the duplicate insertion replaces the payload.  (Both lines
split into `2 + 1` fields and both payloads parse, so the input is within
the claim's well-formedness domain; `WeightDataFactory::from_strs` does not
inspect the line index.) -/
theorem from_lines_exact_count_cex :
    (splitChar '\t' "A\tB\t0.5").length = 2 + WeightDataFactory.dlen ∧
    (splitChar '\t' "A\tB\t0.7").length = 2 + WeightDataFactory.dlen ∧
    (WeightDataFactory.fromStrs 0 ((splitChar '\t' "A\tB\t0.5").drop 2)).isOk = true ∧
    (WeightDataFactory.fromStrs 1 ((splitChar '\t' "A\tB\t0.7").drop 2)).isOk = true ∧
    (dupLines.filter isDataLine).length = 2 ∧
    (@Network.from_lines ℚ Empty _ WeightDataFactory dupLines).isOk = true ∧
    dupLinesNet.graph.edges.length = 1 := by
  refine ⟨by decide, by decide, by decide, by decide, by decide, by decide, by decide⟩

/-- C3 (amended): for every well-formed input (every non-blank, non-comment
line tab-splits into exactly `2 + D` fields with parseable payload)
containing `N` data lines, `from_lines` succeeds and the returned network
has at most `N` edges — with exactly `N` edges when the ordered
(source-name, target-name) pairs of the data lines are pairwise distinct —
and at most `2N` nodes. -/
theorem from_lines_counts {E S : Type} [DecidableEq S] (F : DataFactory E)
    (lines : List String)
    (hwf : ∀ l ∈ lines, isDataLine l = true →
      (splitChar '\t' l).length = 2 + F.dlen ∧
      ∀ i, ∃ e, F.fromStrs i ((splitChar '\t' l).drop 2) = Except.ok e) :
    ∃ net : Network E S,
      Network.from_lines F lines = Except.ok net ∧
      net.graph.edges.length ≤ (lines.filter isDataLine).length ∧
      net.graph.nodes.length ≤ 2 * (lines.filter isDataLine).length ∧
      (((lines.filter isDataLine).map linePair).Nodup →
        net.graph.edges.length = (lines.filter isDataLine).length) := by
  have hinv0 : FLInv (GraphMap.empty : GraphMap (ℕ ⊕ S) E) BiMap.empty [] := by
    refine ⟨rfl, ?_, ?_⟩
    · intro p hp
      cases hp
    · intro k hk
      cases hk
  obtain ⟨g2, m2, mx2, hgo, hinv, hle, hlenle, heq⟩ :=
    fromLinesGo_spec F lines 0 GraphMap.empty BiMap.empty 0 [] hwf hinv0
  have hee : (GraphMap.empty : GraphMap (ℕ ⊕ S) E).edges.length = 0 := rfl
  refine ⟨⟨g2, m2, mx2⟩, ?_, ?_, ?_, ?_⟩
  · unfold Network.from_lines Network.from_lines_over_id_map
    rw [hgo]
  · show g2.edges.length ≤ _
    omega
  · show g2.nodes.length ≤ _
    have := hinv.nodes_len
    have h0 : (BiMap.empty).len = 0 := rfl
    omega
  · intro hnd
    have := heq (by simpa using hnd)
    show g2.edges.length = _
    omega

/-- Witness for `from_lines_counts` on the four-line edge-cost fixture. -/
theorem from_lines_counts_witness :
    ∃ net : Network ℚ Empty,
      Network.from_lines WeightDataFactory edgeCostFixtureLines = Except.ok net ∧
      net.graph.edges.length ≤ (edgeCostFixtureLines.filter isDataLine).length ∧
      net.graph.nodes.length ≤ 2 * (edgeCostFixtureLines.filter isDataLine).length ∧
      (((edgeCostFixtureLines.filter isDataLine).map linePair).Nodup →
        net.graph.edges.length = (edgeCostFixtureLines.filter isDataLine).length) := by
  apply from_lines_counts WeightDataFactory edgeCostFixtureLines
  intro l hl hdl
  have hcases : l = "A\tB\t0.5" ∨ l = "B\tC\t0.5" ∨ l = "B\tD\t0.5" ∨ l = "D\tC\t0.7" := by
    simpa [edgeCostFixtureLines] using hl
  rcases hcases with rfl | rfl | rfl | rfl
  · exact ⟨by decide, fun i => ⟨_, rfl⟩⟩
  · exact ⟨by decide, fun i => ⟨_, rfl⟩⟩
  · exact ⟨by decide, fun i => ⟨_, rfl⟩⟩
  · exact ⟨by decide, fun i => ⟨_, rfl⟩⟩

/-- C7: with `require = true`, `attach_sources_and_targets` fails with
`TargetNotExists` (carrying an offending name) whenever some target name is
absent from the id map while all source names are present, and with
`SourceNotExists` (carrying an offending name) whenever some source name is
absent.  (The failures come from the two `prune` calls; the later
endpoint-resolution loops are unreachable for absent names.) -/
theorem attach_missing_endpoint_errors {E : Type} [Inhabited E]
    (network : Network E Empty) (sources targets : List String) :
    ((∀ s ∈ sources, (network.id_map.getByLeft s).isSome = true) →
     (∃ t ∈ targets, network.id_map.getByLeft t = none) →
     ∃ t, t ∈ targets ∧ network.id_map.getByLeft t = none ∧
       Interactome.attach_sources_and_targets network sources targets true =
         Except.error (InteractomeAttachError.TargetNotExists t)) ∧
    ((∃ s ∈ sources, network.id_map.getByLeft s = none) →
     ∃ s, s ∈ sources ∧ network.id_map.getByLeft s = none ∧
       Interactome.attach_sources_and_targets network sources targets true =
         Except.error (InteractomeAttachError.SourceNotExists s)) := by
  constructor
  · intro hall hmiss
    obtain ⟨net2, hp1, hid2, _⟩ := prune_ok_of_present (Interactome.attachBase network)
      sources Direction.incoming true (by rw [attachBase_id_map]; exact hall)
    obtain ⟨t, hmem, hmiss2, hp2⟩ := prune_error_of_missing net2 targets Direction.outgoing
      (by rw [hid2, attachBase_id_map]; exact hmiss)
    rw [hid2, attachBase_id_map] at hmiss2
    refine ⟨t, hmem, hmiss2, ?_⟩
    unfold Interactome.attach_sources_and_targets
    dsimp only
    rw [hp1]
    simp only [hp2]
  · intro hmiss
    obtain ⟨s, hmem, hmiss2, hp1⟩ := prune_error_of_missing (Interactome.attachBase network)
      sources Direction.incoming (by rw [attachBase_id_map]; exact hmiss)
    rw [attachBase_id_map] at hmiss2
    refine ⟨s, hmem, hmiss2, ?_⟩
    unfold Interactome.attach_sources_and_targets
    dsimp only
    rw [hp1]

/-- Witness for `attach_missing_endpoint_errors` on the parsed two-line
network (names `A`, `B`): an unknown target `Z` and an unknown source `Q`. -/
theorem attach_missing_endpoint_errors_witness :
    (∃ t, t ∈ ["Z"] ∧ dupLinesNet.id_map.getByLeft t = none ∧
      Interactome.attach_sources_and_targets dupLinesNet ["A"] ["Z"] true =
        Except.error (InteractomeAttachError.TargetNotExists t)) ∧
    (∃ s, s ∈ ["Q"] ∧ dupLinesNet.id_map.getByLeft s = none ∧
      Interactome.attach_sources_and_targets dupLinesNet ["Q"] ["Z"] true =
        Except.error (InteractomeAttachError.SourceNotExists s)) :=
  ⟨(attach_missing_endpoint_errors dupLinesNet ["A"] ["Z"]).1 (by decide)
      ⟨"Z", by decide, by decide⟩,
   (attach_missing_endpoint_errors dupLinesNet ["Q"] ["Z"]).2
      ⟨"Q", by decide, by decide⟩⟩

/-- C4 counterexample: on the parsed network over the names `A`, `B`, with the
duplicated source-name list `["A", "A"]` (and `require = true`),
`attach_sources_and_targets` succeeds but `SuperSource` has 1 outgoing edge,
not `|sources| = 2`: the second `add_edge(SuperSource, A)` replaces the edge
added by the first. -/
theorem attach_super_degree_cex :
    ssOutDegreeOf (Interactome.attach_sources_and_targets dupLinesNet
      ["A", "A"] ["B"] true) = some 1 ∧ (["A", "A"] : List String).length = 2 := by
  constructor
  · decide
  · rfl

/-- C4 (amended): if the source names are pairwise distinct and the target
names are pairwise distinct, then whenever `attach_sources_and_targets`
succeeds, `SuperSource` has exactly one outgoing edge per RESOLVED source id
(`= |sources|` when every source name resolves, e.g. under `require = true`)
and no incoming edge, and `SuperTarget` has exactly one incoming edge per
resolved target id and no outgoing edge. -/
theorem attach_super_degrees {E : Type} [Inhabited E]
    (network : Network E Empty) (sources targets : List String) (req : Bool)
    (inter : Interactome E) (hs : sources.Nodup) (ht : targets.Nodup)
    (hok : Interactome.attach_sources_and_targets network sources targets req =
      Except.ok inter) :
    (Network.edgesDirected inter.inner_network.graph (Sum.inr SuperNode.source)
        Direction.outgoing).length = inter.sources.length ∧
    (Network.edgesDirected inter.inner_network.graph (Sum.inr SuperNode.source)
        Direction.incoming).length = 0 ∧
    (Network.edgesDirected inter.inner_network.graph (Sum.inr SuperNode.target)
        Direction.incoming).length = inter.targets.length ∧
    (Network.edgesDirected inter.inner_network.graph (Sum.inr SuperNode.target)
        Direction.outgoing).length = 0 := by
  unfold Interactome.attach_sources_and_targets at hok
  dsimp only at hok
  rcases hp1 : Network.prune (Interactome.attachBase network) sources
      Direction.incoming req with err | net2
  · rw [hp1] at hok; dsimp only at hok; cases hok
  rw [hp1] at hok
  dsimp only at hok
  rcases hp2 : Network.prune net2 targets Direction.outgoing req with err | net3
  · rw [hp2] at hok; dsimp only at hok; cases hok
  rw [hp2] at hok
  dsimp only at hok
  rcases hr1 : Interactome.resolveEndpoints net3.id_map req sources with e | sourceIds
  · rw [hr1] at hok; dsimp only at hok; cases hok
  rw [hr1] at hok
  dsimp only at hok
  rcases hr2 : Interactome.resolveEndpoints net3.id_map req targets with e | targetIds
  · rw [hr2] at hok; dsimp only at hok; cases hok
  rw [hr2] at hok
  dsimp only at hok
  injection hok with hok
  subst hok
  obtain ⟨hid2, hsub2⟩ := prune_ok_structure hp1
  obtain ⟨hid3, hsub3⟩ := prune_ok_structure hp2
  have hinl3 : InlKeys net3.graph :=
    inlKeys_of_subset (fun k hk => hsub2 k (hsub3 k hk)) (inlKeys_attachBase network)
  obtain ⟨hmemS, hndS⟩ := resolveEndpoints_facts net3.id_map req sources sourceIds hr1
  obtain ⟨hmemT, hndT⟩ := resolveEndpoints_facts net3.id_map req targets targetIds hr2
  have hfreshS : ∀ i ∈ sourceIds,
      ((Sum.inr SuperNode.source : INode), (Sum.inl i : INode)) ∉ keysOf net3.graph := by
    intro i _ hmem
    obtain ⟨⟨a, ha⟩, _⟩ := hinl3 _ hmem
    cases ha
  have hk4 := foldl_addSource_keys SuperNode.source sourceIds net3.graph (hndS hs) hfreshS
  have hfreshT : ∀ i ∈ targetIds,
      ((Sum.inl i : INode), (Sum.inr SuperNode.target : INode)) ∉
        keysOf (sourceIds.foldl
          (fun g2 s => g2.addEdge (Sum.inr SuperNode.source) (Sum.inl s) default)
          net3.graph) := by
    intro i _ hmem
    rw [hk4] at hmem
    rcases List.mem_append.mp hmem with h0 | h0
    · obtain ⟨_, ⟨b, hb⟩⟩ := hinl3 _ h0
      cases hb
    · rcases List.mem_map.mp h0 with ⟨s, _, hpair⟩
      simp at hpair
  have hk5 := foldl_addTarget_keys SuperNode.target targetIds _ (hndT ht) hfreshT
  rw [hk4] at hk5
  dsimp only
  refine ⟨?_, ?_, ?_, ?_⟩
  · have h1 : (((sourceIds.map fun s =>
        ((Sum.inr SuperNode.source : INode), (Sum.inl s : INode))).filter
        fun k => decide (k.1 = (Sum.inr SuperNode.source : INode))).length) =
        sourceIds.length :=
      length_filter_map_eq_self _ _ sourceIds fun s => by simp
    have h2 : (((targetIds.map fun t =>
        ((Sum.inl t : INode), (Sum.inr SuperNode.target : INode))).filter
        fun k => decide (k.1 = (Sum.inr SuperNode.source : INode))).length) = 0 :=
      length_filter_map_eq_zero _ _ targetIds fun t => by simp
    rw [edgesDirected_out_length, hk5, List.filter_append, List.filter_append,
      List.length_append, List.length_append, inl_keys_filter_fst hinl3 SuperNode.source,
      h1, h2]
    simp
  · have h1 : (((sourceIds.map fun s =>
        ((Sum.inr SuperNode.source : INode), (Sum.inl s : INode))).filter
        fun k => decide (k.2 = (Sum.inr SuperNode.source : INode))).length) = 0 :=
      length_filter_map_eq_zero _ _ sourceIds fun s => by simp
    have h2 : (((targetIds.map fun t =>
        ((Sum.inl t : INode), (Sum.inr SuperNode.target : INode))).filter
        fun k => decide (k.2 = (Sum.inr SuperNode.source : INode))).length) = 0 :=
      length_filter_map_eq_zero _ _ targetIds fun t => by simp
    rw [edgesDirected_in_length, hk5, List.filter_append, List.filter_append,
      List.length_append, List.length_append, inl_keys_filter_snd hinl3 SuperNode.source,
      h1, h2]
    rfl
  · have h1 : (((sourceIds.map fun s =>
        ((Sum.inr SuperNode.source : INode), (Sum.inl s : INode))).filter
        fun k => decide (k.2 = (Sum.inr SuperNode.target : INode))).length) = 0 :=
      length_filter_map_eq_zero _ _ sourceIds fun s => by simp
    have h2 : (((targetIds.map fun t =>
        ((Sum.inl t : INode), (Sum.inr SuperNode.target : INode))).filter
        fun k => decide (k.2 = (Sum.inr SuperNode.target : INode))).length) =
        targetIds.length :=
      length_filter_map_eq_self _ _ targetIds fun t => by simp
    rw [edgesDirected_in_length, hk5, List.filter_append, List.filter_append,
      List.length_append, List.length_append, inl_keys_filter_snd hinl3 SuperNode.target,
      h1, h2]
    simp
  · have h1 : (((sourceIds.map fun s =>
        ((Sum.inr SuperNode.source : INode), (Sum.inl s : INode))).filter
        fun k => decide (k.1 = (Sum.inr SuperNode.target : INode))).length) = 0 :=
      length_filter_map_eq_zero _ _ sourceIds fun s => by simp
    have h2 : (((targetIds.map fun t =>
        ((Sum.inl t : INode), (Sum.inr SuperNode.target : INode))).filter
        fun k => decide (k.1 = (Sum.inr SuperNode.target : INode))).length) = 0 :=
      length_filter_map_eq_zero _ _ targetIds fun t => by simp
    rw [edgesDirected_out_length, hk5, List.filter_append, List.filter_append,
      List.length_append, List.length_append, inl_keys_filter_fst hinl3 SuperNode.target,
      h1, h2]
    rfl

/-- Witness for `attach_super_degrees`: the network over the names `A`, `B`
with source list `["A"]` and target list `["B"]`. -/
theorem attach_super_degrees_witness :
    (["A"] : List String).Nodup ∧ (["B"] : List String).Nodup ∧
    Interactome.attach_sources_and_targets dupLinesNet ["A"] ["B"] true =
      Except.ok attachFixtureInter ∧
    ((Network.edgesDirected attachFixtureInter.inner_network.graph
        (Sum.inr SuperNode.source) Direction.outgoing).length =
        attachFixtureInter.sources.length ∧
      (Network.edgesDirected attachFixtureInter.inner_network.graph
        (Sum.inr SuperNode.source) Direction.incoming).length = 0 ∧
      (Network.edgesDirected attachFixtureInter.inner_network.graph
        (Sum.inr SuperNode.target) Direction.incoming).length =
        attachFixtureInter.targets.length ∧
      (Network.edgesDirected attachFixtureInter.inner_network.graph
        (Sum.inr SuperNode.target) Direction.outgoing).length = 0) :=
  ⟨by decide, by decide, rfl,
    attach_super_degrees dupLinesNet ["A"] ["B"] true attachFixtureInter
      (by decide) (by decide) rfl⟩

/-- C8: frame property of the path engine: `calculate_paths` never inserts,
removes, or modifies any entry of the shared parent map whose key's first
component differs from the given source; all previously present entries for
other sources are exactly preserved. -/
theorem calculate_paths_frame {V : Type} [DecidableEq V] (fuel : ℕ)
    (paths : Paths V) (graph : GraphMap V ℚ) (source : V)
    (targets ignore : List V) (res : Paths V)
    (h : calculate_paths fuel paths graph source targets ignore = some res)
    (s t : V) (hs : s ≠ source) :
    pathsLookup res (s, t) = pathsLookup paths (s, t) := by
  unfold calculate_paths at h
  rw [calcLoop_frame graph source ignore hs fuel _ res h]
  exact pathsLookup_insert_ne _ _ _ (fun hh => hs (congrArg Prod.fst hh))

/-- Witness for `calculate_paths_frame`: a run from source `0` on the graph
`0 → 1` leaves the prior entry keyed by source `5` exactly as it was. -/
theorem calculate_paths_frame_witness :
    pathsLookup ((calculate_paths 10 pathFixturePrior pathFixtureGraph 0 [1] []).getD [])
        (5, 7) = pathsLookup pathFixturePrior (5, 7) := by
  rcases hres : calculate_paths 10 pathFixturePrior pathFixtureGraph 0 [1] [] with _ | res
  · exact absurd hres (by decide)
  · simpa [hres] using
      calculate_paths_frame 10 pathFixturePrior pathFixtureGraph 0 [1] [] res hres 5 7
        (by decide)

/-- C2 counterexample: on `calculate_paths(∅, {0→1}, source 0, targets [1],
ignore [0])`, the first popped node `0` is unvisited, does not empty the
target list, and is in the ignore list; the loop continues without relaxing,
but — contrary to the claim — the node is NOT marked visited: the resulting
state still has an empty visit map. -/
theorem calculate_paths_ignore_visited_cex :
    heapPopMin ignoreFixtureState.heap = some ((0, 0), []) ∧
    (0 : ℕ) ∉ ignoreFixtureState.visited ∧
    removeFirst ignoreFixtureState.targets 0 = none ∧
    (0 : ℕ) ∈ [0] ∧
    calcIterate pathFixtureGraph 0 [0] ignoreFixtureState =
      IterResult.cont ⟨ignoreFixtureState.paths, [1], [], []⟩ := by
  refine ⟨by decide, by decide, by decide, by decide, by decide⟩

/-- C2 (amended): whenever a popped node that is not yet visited and does
not empty the target list is in the ignore list, the loop continues without
relaxing any of its outgoing edges and without touching the parent map or
the visit map — in particular the node is NOT marked visited (the
`continue` skips the `visited.visit(node)` call at the end of the loop
body). -/
theorem calcIterate_ignored_skips_unvisited {V : Type} [DecidableEq V]
    (graph : GraphMap V ℚ) (source : V) (ignore : List V) (st : CPState V)
    (node : V) (node_score : ℚ) (rest : List (ℚ × V))
    (hp : heapPopMin st.heap = some ((node_score, node), rest))
    (hv : node ∉ st.visited)
    (hne : removeFirst st.targets node ≠ some [])
    (hig : node ∈ ignore) :
    calcIterate graph source ignore st =
      IterResult.cont
        ⟨st.paths, (removeFirst st.targets node).getD st.targets, st.visited, rest⟩ := by
  unfold calcIterate
  rw [hp]
  simp only
  rw [if_neg hv]
  rcases hr : removeFirst st.targets node with _ | targets2
  · simp only
    unfold calcStep
    rw [if_pos hig]
    rfl
  · simp only
    have hne2 : targets2.isEmpty = false := by
      rcases targets2 with _ | ⟨x, xs⟩
      · exact absurd hr hne
      · rfl
    rw [hne2]
    simp only [Bool.false_eq_true, if_false]
    unfold calcStep
    rw [if_pos hig]
    rfl

/-- Witness for `calcIterate_ignored_skips_unvisited` at the concrete
ignored-source state. -/
theorem calcIterate_ignored_skips_unvisited_witness :
    calcIterate pathFixtureGraph 0 [0] ignoreFixtureState =
      IterResult.cont
        ⟨ignoreFixtureState.paths,
         (removeFirst ignoreFixtureState.targets 0).getD ignoreFixtureState.targets,
         ignoreFixtureState.visited, []⟩ :=
  calcIterate_ignored_skips_unvisited pathFixtureGraph 0 [0] ignoreFixtureState 0 0 []
    (by decide) (by decide) (by decide) (by decide)

/-- C5: `EdgeCost::relative_cost_of` sums the main-interactome weights of
exactly the consecutive pairs absent from the DAG (so an entirely redundant
sequence scores 0), and on the `test_edge_cost` fixture — interactome
`{A→B:0.5, B→C:0.5, B→D:0.5, D→C:0.7}`, sources `[A]`, targets `[C]`, DAG
`{A→B, B→C}` — the cost of `[B, D]` is `0.5` and the cost of `[B, D, C]`
is `1.2`. -/
theorem edgeCost_relative_cost_values :
    (∀ (main : Interactome ℚ) (dag : PartialDag Unit) (nodes : List INode),
      2 ≤ nodes.length →
      (∀ p ∈ pairList nodes,
        dag.toInteractome.inner_network.graph.containsEdge p.1 p.2 = false →
        (main.inner_network.graph.edgeWeight p.1 p.2).isSome = true) →
      EdgeCost_relative_cost_of main dag nodes =
        some (((pairList nodes).map (pairCost main dag)).sum)) ∧
    (∀ (main : Interactome ℚ) (dag : PartialDag Unit) (nodes : List INode),
      2 ≤ nodes.length →
      (∀ p ∈ pairList nodes,
        dag.toInteractome.inner_network.graph.containsEdge p.1 p.2 = true) →
      EdgeCost_relative_cost_of main dag nodes = some 0) ∧
    edgeCostFixtureMainE.isOk = true ∧
    edgeCostFixtureInterE.isOk = true ∧
    edgeCostFixtureDagE.isOk = true ∧
    edgeCostFixtureInter.inner_network.as_nodes ["B", "D"] =
      Except.ok [Sum.inl 1, Sum.inl 3] ∧
    edgeCostFixtureInter.inner_network.as_nodes ["B", "D", "C"] =
      Except.ok [Sum.inl 1, Sum.inl 3, Sum.inl 2] ∧
    EdgeCost_relative_cost_of edgeCostFixtureInter edgeCostFixtureDag
      [Sum.inl 1, Sum.inl 3] = some (1 / 2) ∧
    EdgeCost_relative_cost_of edgeCostFixtureInter edgeCostFixtureDag
      [Sum.inl 1, Sum.inl 3, Sum.inl 2] = some (6 / 5) := by
  have hmain : ∀ (main : Interactome ℚ) (dag : PartialDag Unit) (nodes : List INode),
      2 ≤ nodes.length →
      (∀ p ∈ pairList nodes,
        dag.toInteractome.inner_network.graph.containsEdge p.1 p.2 = false →
        (main.inner_network.graph.edgeWeight p.1 p.2).isSome = true) →
      EdgeCost_relative_cost_of main dag nodes =
        some (((pairList nodes).map (pairCost main dag)).sum) := by
    intro main dag nodes hlen hpre
    unfold EdgeCost_relative_cost_of
    have hb : usizeLoopBound nodes.length + 1 = nodes.length := by
      unfold usizeLoopBound
      have h0 : nodes.length ≠ 0 := by omega
      rw [if_neg h0]
      omega
    rw [edgeCostGo_spec main dag (usizeLoopBound nodes.length) nodes nodes 0 0
      (List.drop_zero nodes) hb hpre, zero_add]
  refine ⟨hmain, ?_, by decide, by decide, by decide, by decide, by decide, by decide, by decide⟩
  intro main dag nodes hlen hall
  rw [hmain main dag nodes hlen (fun p hp hfalse => absurd (hall p hp) (by simp [hfalse]))]
  have : ∀ p ∈ pairList nodes, pairCost main dag p = 0 := by
    intro p hp
    unfold pairCost
    rw [if_pos (hall p hp)]
  have hz : ((pairList nodes).map (pairCost main dag)).sum = 0 := by
    apply List.sum_eq_zero
    intro x hx
    rcases List.mem_map.mp hx with ⟨p, hp, rfl⟩
    exact this p hp
  rw [hz]

/-- Witness for `edgeCost_relative_cost_values`: the general sum formula
applied to the fixture sequence `[B, D, C]`. -/
theorem edgeCost_relative_cost_values_witness :
    EdgeCost_relative_cost_of edgeCostFixtureInter edgeCostFixtureDag
      [Sum.inl 1, Sum.inl 3, Sum.inl 2] =
      some (((pairList [Sum.inl 1, Sum.inl 3, Sum.inl 2]).map
        (pairCost edgeCostFixtureInter edgeCostFixtureDag)).sum) :=
  edgeCost_relative_cost_values.1 edgeCostFixtureInter edgeCostFixtureDag
    [Sum.inl 1, Sum.inl 3, Sum.inl 2] (by decide) (by decide)

/-- C10 counterexample: `PathCost::relative_cost_of` can panic on a
non-empty node sequence.  On the fixture main interactome `{A→B, C→B}`
(sources `[A]`, targets `[B]`) with the legally constructed DAG `{A→C, C→B}`
(both names known to the id map), the cloned DAG contains the simple path
`SuperSource→A→C→B→SuperTarget`, and the weight lookup of `A→C` in the main
interactome is a failed `unwrap` — modelled as `none` — although the node
sequence `[A]` is non-empty.  This refutes the claim that non-emptiness
suffices for `PathCost` not to panic. -/
theorem pathCost_nonempty_panic_cex :
    pathCostFixtureDagE.isOk = true ∧
    ([Sum.inl 0] : List INode) ≠ [] ∧
    PathCost_relative_cost_of pathCostFixtureInter pathCostFixtureDag [Sum.inl 0] = none := by
  refine ⟨by decide, by decide, by decide⟩

/-- C10 (amended): both cost functions panic on an empty node sequence (the
`usize` loop bound underflows and the first index access is out of bounds);
for every non-empty sequence the index arithmetic is in bounds, and
`EdgeCost` does not panic when every consecutive pair absent from the DAG is
an edge of the main interactome.  (`PathCost` may still panic on a non-empty
sequence when a simple path of the augmented DAG uses an edge absent from
the main interactome, as `pathCost_nonempty_panic_cex` shows.) -/
theorem cost_empty_panics_and_edgeCost_total :
    (∀ (main : Interactome ℚ) (dag : PartialDag Unit),
      EdgeCost_relative_cost_of main dag [] = none) ∧
    (∀ (main : Interactome ℚ) (dag : PartialDag Unit),
      PathCost_relative_cost_of main dag [] = none) ∧
    (∀ (main : Interactome ℚ) (dag : PartialDag Unit) (nodes : List INode),
      nodes ≠ [] →
      (∀ p ∈ pairList nodes,
        dag.toInteractome.inner_network.graph.containsEdge p.1 p.2 = false →
        (main.inner_network.graph.edgeWeight p.1 p.2).isSome = true) →
      ∃ q, EdgeCost_relative_cost_of main dag nodes = some q) := by
  have hbound : usizeLoopBound 0 = (2 ^ 64 - 2) + 1 := by
    unfold usizeLoopBound
    norm_num
  refine ⟨?_, ?_, ?_⟩
  · intro main dag
    unfold EdgeCost_relative_cost_of
    simp only [List.length_nil, hbound]
    rfl
  · intro main dag
    unfold PathCost_relative_cost_of
    simp only [List.length_nil, hbound]
    rfl
  · intro main dag nodes hne hpre
    match nodes, hne with
    | [x], _ => exact ⟨0, rfl⟩
    | a :: b :: t, _ =>
      refine ⟨_, edgeCost_relative_cost_values.1 main dag (a :: b :: t) (by simp) hpre⟩

/-- Witness for `cost_empty_panics_and_edgeCost_total`: the no-panic part of
the amended claim evaluated on the edge-cost fixture. -/
theorem cost_empty_panics_and_edgeCost_total_witness :
    ∃ q, EdgeCost_relative_cost_of edgeCostFixtureInter edgeCostFixtureDag
      [Sum.inl 1, Sum.inl 3] = some q :=
  cost_empty_panics_and_edgeCost_total.2.2 edgeCostFixtureInter edgeCostFixtureDag
    [Sum.inl 1, Sum.inl 3] (by decide) (by decide)

/-- C6: if, after the candidate preparation of `produce_dag` (removing every
DAG edge and the endpoints this empties), no DAG node can reach any of its
computed target nodes in the prepared candidate (a path of length at least 2
meaning at least one edge, i.e. transitive reachability), then every
terminating `produce_dag` run returns no path, and `grow` leaves the DAG
unchanged. -/
theorem produce_dag_empty_candidate (cpFuel wFuel : ℕ)
    (costF : Interactome ℚ → PartialDag Unit → List INode → ℚ)
    (interactome : Interactome ℚ) (dag : PartialDag Unit) (cache : GrowthCache)
    (cache2 : GrowthCache) (r : Option (ℚ × List INode))
    (hnr : ∀ n ∈ dag.toInteractome.inner_network.graph.nodes,
      ∀ t ∈ dag.toInteractome.inner_network.graph.nodes.filter (fun m =>
        decide (m ≠ n) &&
        decide (m ∉ get_ancestors dag.toInteractome.inner_network.graph n)),
        ¬Relation.TransGen (EdgeRel (prepareCandidate cache.candidate
          dag.toInteractome.inner_network.graph.edges).graph) n t)
    (hrun : produce_dag cpFuel wFuel costF interactome dag cache = some (cache2, r)) :
    r = none ∧
    grow cpFuel wFuel costF interactome dag cache = some ((dag, cache2), none) := by
  obtain ⟨st, pathsList, hall, hr, hcandsub, hentries⟩ :=
    produce_dag_some_facts cpFuel wFuel costF interactome dag cache cache2 r hrun
  have hempty : pathsList = [] := by
    rcases pathsList with _ | ⟨p, rest⟩
    · rfl
    exfalso
    obtain ⟨s, ts, hm, t, ht, c, hw, hlen, hpc⟩ :=
      allPaths_mem st.paths_parents wFuel st.all_targets _ hall p
        (List.mem_cons_self _ _)
    obtain ⟨hsnode, htsdef, gcall, hsub, hanc, hppinv⟩ := hentries s ts hm
    obtain ⟨pr, hpn⟩ := walkOrbit_first_parent st.paths_parents s wFuel t c hw hlen
    obtain ⟨sc, hlk⟩ := parentNext_lookup hpn
    obtain ⟨hedge, hnign, hreach⟩ := hppinv t sc pr hlk
    refine hnr s hsnode t ?_ (transGen_mono_keys hsub hreach)
    rw [← htsdef]
    exact ht
  subst hempty
  have hrnone : r = none := by
    rw [hr]
    rfl
  subst hrnone
  refine ⟨rfl, ?_⟩
  unfold grow
  rw [hrun]

set_option maxRecDepth 100000 in
/-- Witness for `produce_dag_empty_candidate`: the DAG carries every data edge
of the fixture interactome, so candidate preparation empties the candidate's
edge set and the reachability hypothesis holds vacuously; the run returns no
path and `grow` returns the DAG unchanged. -/
theorem produce_dag_empty_candidate_witness :
    (∀ n ∈ fullFixtureDag.toInteractome.inner_network.graph.nodes,
      ∀ t ∈ fullFixtureDag.toInteractome.inner_network.graph.nodes.filter (fun m =>
        decide (m ≠ n) &&
        decide (m ∉ get_ancestors fullFixtureDag.toInteractome.inner_network.graph n)),
        ¬Relation.TransGen (EdgeRel (prepareCandidate
          (GrowthCache.new edgeCostFixtureInter).candidate
          fullFixtureDag.toInteractome.inner_network.graph.edges).graph) n t) ∧
    produce_dag 20 20 (fun _ _ _ => 0) edgeCostFixtureInter fullFixtureDag
        (GrowthCache.new edgeCostFixtureInter) =
      some (produceDagFixtureCache, produceDagFixtureR) ∧
    (produceDagFixtureR = none ∧
      grow 20 20 (fun _ _ _ => 0) edgeCostFixtureInter fullFixtureDag
        (GrowthCache.new edgeCostFixtureInter) =
        some ((fullFixtureDag, produceDagFixtureCache), none)) :=
  have h1 : ∀ n ∈ fullFixtureDag.toInteractome.inner_network.graph.nodes,
      ∀ t ∈ fullFixtureDag.toInteractome.inner_network.graph.nodes.filter (fun m =>
        decide (m ≠ n) &&
        decide (m ∉ get_ancestors fullFixtureDag.toInteractome.inner_network.graph n)),
        ¬Relation.TransGen (EdgeRel (prepareCandidate
          (GrowthCache.new edgeCostFixtureInter).candidate
          fullFixtureDag.toInteractome.inner_network.graph.edges).graph) n t :=
    fun n _ t _ => noTransGen_of_keys_nil _ (by decide) n t
  have h2 : produce_dag 20 20 (fun _ _ _ => 0) edgeCostFixtureInter fullFixtureDag
      (GrowthCache.new edgeCostFixtureInter) =
      some (produceDagFixtureCache, produceDagFixtureR) := rfl
  ⟨h1, h2, produce_dag_empty_candidate 20 20 (fun _ _ _ => 0) edgeCostFixtureInter
    fullFixtureDag (GrowthCache.new edgeCostFixtureInter) produceDagFixtureCache
    produceDagFixtureR h1 h2⟩

/-- C1: acyclicity is preserved by growth: if the DAG's graph has no directed
cycle (no node reaches itself through the edge relation) and `grow` returns a
winning `(cost, path)` pair, then the grown DAG (one edge added per
consecutive pair of the winning path) still has no directed cycle. -/
theorem grow_preserves_acyclicity (cpFuel wFuel : ℕ)
    (costF : Interactome ℚ → PartialDag Unit → List INode → ℚ)
    (interactome : Interactome ℚ) (dag : PartialDag Unit) (cache : GrowthCache)
    (dag2 : PartialDag Unit) (cache2 : GrowthCache) (w : ℚ) (path : List INode)
    (hacyc : ∀ v, ¬Relation.TransGen
      (EdgeRel dag.toInteractome.inner_network.graph) v v)
    (hgrow : grow cpFuel wFuel costF interactome dag cache =
      some ((dag2, cache2), some (w, path))) :
    ∀ v, ¬Relation.TransGen (EdgeRel dag2.toInteractome.inner_network.graph) v v := by
  unfold grow at hgrow
  rcases hpd : produce_dag cpFuel wFuel costF interactome dag cache with _ | res
  · rw [hpd] at hgrow
    cases hgrow
  rw [hpd] at hgrow
  obtain ⟨cache2b, r⟩ := res
  rcases r with _ | wb
  · dsimp only at hgrow
    simp at hgrow
  obtain ⟨wb1, best⟩ := wb
  dsimp only at hgrow
  rcases hadd : addPathEdgesGo best (usizeLoopBound best.length) 0
      dag.toInteractome.inner_network.graph with _ | g2
  · rw [hadd] at hgrow
    cases hgrow
  rw [hadd] at hgrow
  dsimp only at hgrow
  injection hgrow with hgrow
  have h1 := congrArg
    (fun z : (PartialDag Unit × GrowthCache) × Option (ℚ × List INode) => z.1.1) hgrow
  dsimp only at h1
  rw [← h1]
  dsimp only
  obtain ⟨st, pathsList, hall, hr, hcandsub, hentries⟩ :=
    produce_dag_some_facts cpFuel wFuel costF interactome dag cache cache2b
      (some (wb1, best)) hpd
  rcases hmin : minByCost (costF interactome dag) pathsList with _ | m
  · rw [hmin] at hr
    cases hr
  rw [hmin] at hr
  simp only [Option.map_some'] at hr
  injection hr with hr
  have hbm : best = m := congrArg Prod.snd hr
  have hbestmem : best ∈ pathsList := by
    rw [hbm]
    exact minByCost_mem _ _ _ hmin
  obtain ⟨s, ts, hm2, t, ht, c, hw, hlen, hpc⟩ :=
    allPaths_mem st.paths_parents wFuel st.all_targets _ hall best hbestmem
  obtain ⟨hsnode, htsdef, gcall, hsub, hanc, hppinv⟩ := hentries s ts hm2
  have htfacts : t ∈ dag.toInteractome.inner_network.graph.nodes ∧ t ≠ s ∧
      t ∉ get_ancestors dag.toInteractome.inner_network.graph s := by
    rw [htsdef] at ht
    obtain ⟨h1t, h2t⟩ := List.mem_filter.mp ht
    rw [Bool.and_eq_true] at h2t
    exact ⟨h1t, of_decide_eq_true h2t.1, of_decide_eq_true h2t.2⟩
  have hpairs : ∀ a b, (a, b) ∈ pairList best → EdgeRel gcall a b ∧ a ∉ ts := by
    intro a b hab
    rw [hpc, pairList_mem_reverse] at hab
    have hchain := walkOrbit_chain st.paths_parents s wFuel t c hw b a hab
    obtain ⟨sc, hlk⟩ := parentNext_lookup hchain
    obtain ⟨hedge, hnign, _⟩ := hppinv b sc a hlk
    exact ⟨hedge, hnign⟩
  have hnodupq : best.Nodup := by
    rw [hpc]
    exact List.nodup_reverse.mpr (walkOrbit_nodup st.paths_parents s wFuel t c hw)
  have hlastq : best.getLast? = some t := by
    rw [hpc, List.getLast?_reverse]
    obtain ⟨rest2, hc2⟩ := walkOrbit_head st.paths_parents s wFuel t c hw
    rw [hc2]
    rfl
  have htsq : ¬Relation.ReflTransGen
      (EdgeRel dag.toInteractome.inner_network.graph) t s := by
    intro hrt
    rcases Relation.reflTransGen_iff_eq_or_transGen.mp hrt with heq | htg
    · exact htfacts.2.1 heq.symm
    · exact htfacts.2.2
        (get_ancestors_complete dag.toInteractome.inner_network.graph s t htg
          htfacts.2.1)
  have hmidq : ∀ a b, (a, b) ∈ pairList best →
      a = s ∨ a ∉ dag.toInteractome.inner_network.graph.nodes := by
    intro a b hab
    obtain ⟨hedge, hnign⟩ := hpairs a b hab
    by_cases has : a = s
    · exact Or.inl has
    · right
      intro haT
      apply hnign
      rw [htsdef]
      refine List.mem_filter.mpr ⟨haT, ?_⟩
      rw [Bool.and_eq_true]
      refine ⟨decide_eq_true has, decide_eq_true ?_⟩
      intro hanc2
      exact hanc a hanc2 (edgeRel_mem_nodes gcall hedge).1
  have hg := graft_acyclic (EdgeRel dag.toInteractome.inner_network.graph)
    dag.toInteractome.inner_network.graph.nodes
    (fun a b hab => edgeRel_mem_nodes _ hab)
    hacyc s t best hnodupq hlastq htsq hmidq
  intro v hv
  apply hg v
  refine Relation.TransGen.mono ?_ hv
  intro x y hxy
  exact addPathEdgesGo_keys best _ 0 _ g2 hadd x y hxy

set_option maxRecDepth 100000 in
/-- Witness for `grow_preserves_acyclicity`: the fixture interactome
`A→B→C, B→D→C` with DAG `A→B→C` (plus the super endpoints); the run grafts
the winning path `B→D→C` and the grown DAG is checked acyclic. -/
theorem grow_preserves_acyclicity_witness :
    (∀ v, ¬Relation.TransGen
      (EdgeRel edgeCostFixtureDag.toInteractome.inner_network.graph) v v) ∧
    grow 20 20 (fun _ _ _ => 0) edgeCostFixtureInter edgeCostFixtureDag
        (GrowthCache.new edgeCostFixtureInter) =
      some ((growFixtureDag2, growFixtureCache2),
        some (growFixtureW, growFixturePath)) ∧
    (∀ v, ¬Relation.TransGen
      (EdgeRel growFixtureDag2.toInteractome.inner_network.graph) v v) :=
  have h1 : ∀ v, ¬Relation.TransGen
      (EdgeRel edgeCostFixtureDag.toInteractome.inner_network.graph) v v :=
    acyclic_of_topoOrderOk edgeCostFixtureDag.toInteractome.inner_network.graph
      [Sum.inr SuperNode.source, Sum.inl 0, Sum.inl 1, Sum.inl 2,
        Sum.inr SuperNode.target] (by decide)
  have h2 : grow 20 20 (fun _ _ _ => 0) edgeCostFixtureInter edgeCostFixtureDag
      (GrowthCache.new edgeCostFixtureInter) =
      some ((growFixtureDag2, growFixtureCache2),
        some (growFixtureW, growFixturePath)) := rfl
  ⟨h1, h2, grow_preserves_acyclicity 20 20 (fun _ _ _ => 0) edgeCostFixtureInter
    edgeCostFixtureDag (GrowthCache.new edgeCostFixtureInter) growFixtureDag2
    growFixtureCache2 growFixtureW growFixturePath h1 h2⟩

end GrowingDags
